import Mathlib

/-!
# Verification of the sorting and linked-list visualizers

Shallow embedding of the algorithmic core of the repository's seven
`script.js` files.

Conventions used throughout the embedding.

* A JavaScript array of numbers is a `List`.  A read `arr[k]` is `arr[k]?`
  (`none` is JavaScript's `undefined`); a comparison one of whose operands is
  `undefined` is false, as in JavaScript.
* The sort visualizers are generic in the element type `α` and take a function
  `key : α → Int` giving the number that `<` and `>` compare.  The source
  sorts plain numbers, which is `α = Int` and `key = id`; other instances let
  elements carry an identity the comparison does not see.
* `await this.sleep(..)` only passes time and is dropped.  The wait loop
  `while (this.isPaused && this.isSorting) await this.sleep(100)` is not
  entered in a run in which nobody presses pause or reset, which is the only
  kind of run modelled here: no event handler runs between two steps.
* DOM work (`highlight..`, `markSorted`, `addStep`, `updateStats`) has no effect
  on the model state and is dropped, except `renderArray` in the bubble sort,
  whose successive snapshots are logged in `frames`.
-/

/-! ## Vocabulary shared by the three sort visualizers -/

namespace Sorting

variable {α : Type}

/-- Ascending order of the keys. -/
def Ascending (key : α → Int) (l : List α) : Prop :=
  List.Pairwise (fun a b => key a ≤ key b) l

/-- Stability of `out` with respect to `inp`: for every key value, the elements
carrying that key occur in `out` in the order they have in `inp`. -/
def StableWrt (key : α → Int) (inp out : List α) : Prop :=
  ∀ k : Int, out.filter (fun e => key e = k) = inp.filter (fun e => key e = k)

end Sorting

/-! ## Bubble sort (`src/bubble_sort/script.js`) -/

namespace BubbleSort

open Sorting

/-- State of `BubbleSortVisualizer`: the fields the algorithm reads or writes,
and the log `frames` of the arrays drawn by `renderArray` during the sort. -/
structure Visualizer (α : Type) where
  array : List α
  originalArray : List α
  isSorting : Bool
  isPaused : Bool
  comparisons : Nat
  swaps : Nat
  arrayAccess : Nat
  currentPass : Nat
  frames : List (List α)
deriving DecidableEq

variable {α : Type}

/-- The method `resetStats()`: all four statistics back to zero. -/
def resetStats (s : Visualizer α) : Visualizer α :=
  { s with comparisons := 0, swaps := 0, arrayAccess := 0, currentPass := 0 }

/-- The inner loop `for (let j = ..; j < n - i - 1; j++)` of `bubbleSort`, from
index `j` on, with the current value of the local `swapped`.  Returns the state
and the value of `swapped` when the loop is left. -/
def innerLoop (key : α → Int) (n i : Nat) (j : Nat) (swapped : Bool)
    (s : Visualizer α) : Visualizer α × Bool :=
  if (j : Int) < (n : Int) - (i : Int) - 1 then
    if s.isSorting = false then (s, swapped)
    else
      let s1 := { s with arrayAccess := s.arrayAccess + 2, comparisons := s.comparisons + 1 }
      match s1.array[j]?, s1.array[j + 1]? with
      | some a, some b =>
        if key a > key b then
          let s2 := { s1 with array := (s1.array.set j b).set (j + 1) a,
                              swaps := s1.swaps + 1,
                              arrayAccess := s1.arrayAccess + 2 }
          let s3 := { s2 with frames := s2.frames ++ [s2.array] }
          innerLoop key n i (j + 1) true s3
        else innerLoop key n i (j + 1) swapped s1
      | _, _ => innerLoop key n i (j + 1) swapped s1
  else (s, swapped)
termination_by n - i - 1 - j
decreasing_by all_goals (simp_wf; omega)

/-- The outer loop `for (let i = ..; i < n - 1; i++)` of `bubbleSort`, from pass
index `i` on: one pass of `innerLoop`, then the early exit when the pass made
no swap. -/
def outerLoop (key : α → Int) (n : Nat) (i : Nat) (s : Visualizer α) : Visualizer α :=
  if (i : Int) < (n : Int) - 1 then
    if s.isSorting = false then s
    else
      let s1 := { s with currentPass := i + 1 }
      let r := innerLoop key n i 0 false s1
      if r.2 = false then r.1
      else outerLoop key n (i + 1) r.1
  else s
termination_by n - i
decreasing_by all_goals (simp_wf; omega)

/-- The method `bubbleSort()`: `n` is read once, then the passes run. -/
def bubbleSort (key : α → Int) (s : Visualizer α) : Visualizer α :=
  outerLoop key s.array.length 0 s

/-- The method `startSort()`: refuses to start while a sort is running; otherwise raises
`isSorting`, clears the statistics, runs `bubbleSort` and lowers `isSorting`. -/
def startSort (key : α → Int) (s : Visualizer α) : Visualizer α :=
  if s.isSorting then s
  else
    let s1 := { s with isSorting := true, isPaused := false }
    let s2 := resetStats s1
    let s3 := bubbleSort key s2
    { s3 with isSorting := false }

/-- A visualizer holding `arr`, with no sort running: the state `setArray`
leaves behind. -/
def ready (arr : List α) : Visualizer α :=
  { array := arr, originalArray := arr, isSorting := false, isPaused := false,
    comparisons := 0, swaps := 0, arrayAccess := 0, currentPass := 0, frames := [] }

/-- The state in which `startSort` enters `bubbleSort` on the array `arr`. -/
def sorting (arr : List α) : Visualizer α :=
  resetStats { ready arr with isSorting := true, isPaused := false }

/-- One swap of the inner loop, seen on the list: two neighbours whose keys are
strictly out of order change places. -/
inductive SwapStep (key : α → Int) : List α → List α → Prop
  | mk (l r : List α) (x y : α) (h : key x > key y) :
      SwapStep key (l ++ x :: y :: r) (l ++ y :: x :: r)

/-- The states the outer loop passes through: `PassStart key n s0 i s` says
that the outer loop, entered in `s0` with `i = 0`, arrives at its loop test
with index `i` in state `s` (each earlier pass ran and ended with
`swapped = true`). -/
inductive PassStart (key : α → Int) (n : Nat) (s0 : Visualizer α) :
    Nat → Visualizer α → Prop
  | first : PassStart key n s0 0 s0
  | next (i : Nat) (s : Visualizer α) :
      PassStart key n s0 i s → (i : Int) < (n : Int) - 1 → s.isSorting = true →
      (innerLoop key n i 0 false { s with currentPass := i + 1 }).2 = true →
      PassStart key n s0 (i + 1) (innerLoop key n i 0 false { s with currentPass := i + 1 }).1

/-- Invariant of the outer loop at its test with index `i`: the last `i`
places hold, in ascending order, elements that are at least as large as
everything before them. -/
def OuterInv (key : α → Int) (n i : Nat) (s : Visualizer α) : Prop :=
  s.isSorting = true ∧ s.array.length = n ∧
    ∃ pre suf, s.array = pre ++ suf ∧ suf.length = i ∧ Ascending key suf ∧
      ∀ a ∈ pre, ∀ b ∈ suf, key a ≤ key b

end BubbleSort

/-! ## Insertion sort (`src/insertion_sort/script.js`) -/

namespace InsertionSort

open Sorting

/-- State of `InsertionSortVisualizer`: the fields the algorithm reads or
writes (`currentKey` is `null` until the first key is picked). -/
structure Visualizer (α : Type) where
  array : List α
  originalArray : List α
  isSorting : Bool
  isPaused : Bool
  comparisons : Nat
  shifts : Nat
  arrayAccess : Nat
  currentKey : Option α
deriving DecidableEq

variable {α : Type}

/-- The method `resetStats()`: the counters back to zero and `currentKey` back to `null`. -/
def resetStats (s : Visualizer α) : Visualizer α :=
  { s with comparisons := 0, shifts := 0, arrayAccess := 0, currentKey := none }

/-- The loop `while (j >= 0)` of `insertionSort` for the key element `k`:
every element greater than the key is copied one place to the right.  Returns
the state and the value of `j` when the loop is left (-1 when it ran off the
left end).  The loop index is an integer because it goes down to -1; it is
only used as an array index while it is non-negative. -/
def shiftLoop (key : α → Int) (k : α) (j : Int) (s : Visualizer α) : Visualizer α × Int :=
  if 0 ≤ j then
    if s.isSorting = false then (s, j)
    else
      let s1 := { s with comparisons := s.comparisons + 1, arrayAccess := s.arrayAccess + 1 }
      match s1.array[j.toNat]? with
      | some x =>
        if key x > key k then
          let s2 := { s1 with array := s1.array.set (j + 1).toNat x,
                              shifts := s1.shifts + 1,
                              arrayAccess := s1.arrayAccess + 2 }
          shiftLoop key k (j - 1) s2
        else (s1, j)
      | none => (s1, j)
  else (s, j)
termination_by (j + 1).toNat
decreasing_by all_goals (simp_wf; omega)

/-- The loop `for (let i = ..; i < n; i++)` of `insertionSort`, from index `i`
on: pick the key `arr[i]`, shift the greater elements of the sorted part, write
the key at `insertPos = j + 1`.  The read `arr[i]` is always defined here
since `i < n = array.length`; the model stops if it were not. -/
def mainLoop (key : α → Int) (n : Nat) (i : Nat) (s : Visualizer α) : Visualizer α :=
  if i < n then
    if s.isSorting = false then s
    else
      match s.array[i]? with
      | some k =>
        let s1 := { s with currentKey := some k, arrayAccess := s.arrayAccess + 1 }
        let r := shiftLoop key k ((i : Int) - 1) s1
        let insertPos : Int := r.2 + 1
        let s2 := { r.1 with array := r.1.array.set insertPos.toNat k,
                             arrayAccess := r.1.arrayAccess + 1 }
        mainLoop key n (i + 1) s2
      | none => s
  else s
termination_by n - i
decreasing_by all_goals (simp_wf; omega)

/-- The method `insertionSort()`: `n` is read once and the loop starts at index 1. -/
def insertionSort (key : α → Int) (s : Visualizer α) : Visualizer α :=
  mainLoop key s.array.length 1 s

/-- The method `startSort()`: refuses to start while a sort is running; otherwise raises
`isSorting`, clears the statistics, runs `insertionSort` and lowers
`isSorting`. -/
def startSort (key : α → Int) (s : Visualizer α) : Visualizer α :=
  if s.isSorting then s
  else
    let s1 := { s with isSorting := true, isPaused := false }
    let s2 := resetStats s1
    let s3 := insertionSort key s2
    { s3 with isSorting := false }

/-- A visualizer holding `arr`, with no sort running: the state `setArray`
leaves behind. -/
def ready (arr : List α) : Visualizer α :=
  { array := arr, originalArray := arr, isSorting := false, isPaused := false,
    comparisons := 0, shifts := 0, arrayAccess := 0, currentKey := none }

/-- One iteration of the main loop, seen on the list: the key `k` moves to the
left over a block `l2` of elements whose keys are all strictly greater. -/
inductive InsertStep (key : α → Int) : List α → List α → Prop
  | mk (l1 l2 rest : List α) (k : α) (h : ∀ z ∈ l2, key z > key k) :
      InsertStep key (l1 ++ l2 ++ k :: rest) (l1 ++ k :: (l2 ++ rest))

end InsertionSort

/-! ## Quick sort (`src/quick_sort/script.js`) -/

namespace QuickSort

open Sorting

/-- State of `QuickSortVisualizer`: the fields the algorithm reads or writes. -/
structure Visualizer (α : Type) where
  array : List α
  originalArray : List α
  isSorting : Bool
  isPaused : Bool
  comparisons : Nat
  swaps : Nat
  arrayAccess : Nat
  recursionDepth : Int
  maxRecursionDepth : Int
deriving DecidableEq

variable {α : Type}

/-- The method `resetStats()`: all five statistics back to zero. -/
def resetStats (s : Visualizer α) : Visualizer α :=
  { s with comparisons := 0, swaps := 0, arrayAccess := 0, recursionDepth := 0,
           maxRecursionDepth := 0 }

/-- The read `arr[k]` for an integer index: `undefined` (`none`) when `k` is
negative or past the end. -/
def getAt (a : List α) (k : Int) : Option α :=
  if 0 ≤ k then a[k.toNat]? else none

/-- The exchange `[arr[i], arr[j]] = [arr[j], arr[i]]`.  Both indices are inside
the array wherever the algorithm swaps; the model leaves the array alone if one
were not. -/
def swapAt (a : List α) (i j : Int) : List α :=
  match getAt a i, getAt a j with
  | some x, some y => (a.set i.toNat y).set j.toNat x
  | _, _ => a

/-- The loop `for (let j = ..; j < high; j++)` of `partition`, from `j` on, with
the current boundary index `i`.  Returns the state and `some i` when the loop
ends, `none` when the body left the function with `return -1`. -/
def partitionLoop (key : α → Int) (pivot : α) (high : Int) (j : Int) (i : Int)
    (s : Visualizer α) : Visualizer α × Option Int :=
  if j < high then
    if s.isSorting = false then (s, none)
    else
      let s1 := { s with comparisons := s.comparisons + 1, arrayAccess := s.arrayAccess + 1 }
      match getAt s1.array j with
      | some x =>
        if key x < key pivot then
          let i1 := i + 1
          if i1 ≠ j then
            let s2 := { s1 with array := swapAt s1.array i1 j,
                                swaps := s1.swaps + 1,
                                arrayAccess := s1.arrayAccess + 2 }
            partitionLoop key pivot high (j + 1) i1 s2
          else partitionLoop key pivot high (j + 1) i1 s1
        else partitionLoop key pivot high (j + 1) i s1
      | none => partitionLoop key pivot high (j + 1) i s1
  else (s, some i)
termination_by (high - j).toNat
decreasing_by all_goals (simp_wf; omega)

/-- The method `partition(low, high)`: Lomuto partition around the pivot `arr[high]`.
Returns the state and the pivot's final index, or -1 when no sort is running.
The pivot read is always defined for a range inside the array; the model
answers -1 if it were not. -/
def partition (key : α → Int) (low high : Int) (s : Visualizer α) : Visualizer α × Int :=
  if s.isSorting = false then (s, -1)
  else
    match getAt s.array high with
    | some pivot =>
      let s1 := { s with arrayAccess := s.arrayAccess + 1 }
      let r := partitionLoop key pivot high low (low - 1) s1
      match r.2 with
      | some i =>
        let pivotIndex := i + 1
        if pivotIndex ≠ high then
          ({ r.1 with array := swapAt r.1.array pivotIndex high,
                      swaps := r.1.swaps + 1,
                      arrayAccess := r.1.arrayAccess + 2 }, pivotIndex)
        else (r.1, pivotIndex)
      | none => (r.1, -1)
    | none => (s, -1)

/-- The boundary index only grows in the partition loop, by at most one for
each index still to visit. -/
theorem partitionLoop_index (key : α → Int) (pivot : α) (high j i : Int) (s : Visualizer α)
    (hj : j ≤ high) :
    ∀ i', (partitionLoop key pivot high j i s).2 = some i' → i ≤ i' ∧ i' - i ≤ high - j := by
  induction j, i, s using partitionLoop.induct key pivot high with
  | case1 j i s hlt hs =>
    intro i' h
    rw [partitionLoop, if_pos hlt, if_pos hs] at h
    simp at h
  | case2 j i s hlt hs s1 x hx hk i1 hne s2 ih =>
    intro i' h
    rw [partitionLoop, if_pos hlt, if_neg hs] at h
    simp only [s1] at hx
    simp only [hx, hk, if_true] at h
    rw [if_pos hne] at h
    have := ih (by omega) i' h
    omega
  | case3 j i s hlt hs s1 x hx hk i1 hne ih =>
    intro i' h
    rw [partitionLoop, if_pos hlt, if_neg hs] at h
    simp only [s1] at hx
    simp only [hx, hk, if_true] at h
    rw [if_neg hne] at h
    have := ih (by omega) i' h
    omega
  | case4 j i s hlt hs s1 x hx hk ih =>
    intro i' h
    rw [partitionLoop, if_pos hlt, if_neg hs] at h
    simp only [s1] at hx
    simp only [hx, hk, if_false] at h
    have := ih (by omega) i' h
    omega
  | case5 j i s hlt hs s1 hx ih =>
    intro i' h
    rw [partitionLoop, if_pos hlt, if_neg hs] at h
    simp only [s1] at hx
    simp only [hx] at h
    have := ih (by omega) i' h
    omega
  | case6 j i s hlt =>
    intro i' h
    rw [partitionLoop, if_neg hlt] at h
    simp at h
    omega

/-- The index returned by `partition` on a range `low < high` is -1 or lies in
the range. -/
theorem partition_index (key : α → Int) (low high : Int) (s : Visualizer α)
    (h : low < high) :
    (partition key low high s).2 = -1 ∨
      (low ≤ (partition key low high s).2 ∧ (partition key low high s).2 ≤ high) := by
  by_cases hs : s.isSorting = false
  · left; rw [partition, if_pos hs]
  · rw [partition, if_neg hs]
    cases hp : getAt s.array high with
    | none => left; rfl
    | some pivot =>
      simp only []
      cases hr : (partitionLoop key pivot high low (low - 1)
          { s with arrayAccess := s.arrayAccess + 1 }).2 with
      | none => left; rfl
      | some i =>
        have := partitionLoop_index key pivot high low (low - 1) _ (by omega) i hr
        right
        simp only []
        split <;> simp <;> omega

/-- Entering the counted part of `quickSort`: `this.recursionDepth++` and
`this.maxRecursionDepth = Math.max(this.maxRecursionDepth, this.recursionDepth)`. -/
def enterCall (s : Visualizer α) : Visualizer α :=
  { s with recursionDepth := s.recursionDepth + 1,
           maxRecursionDepth := max s.maxRecursionDepth (s.recursionDepth + 1) }

/-- Leaving `quickSort`: `this.recursionDepth--`. -/
def leaveCall (s : Visualizer α) : Visualizer α :=
  { s with recursionDepth := s.recursionDepth - 1 }

/-- The method `quickSort(low, high)`: nothing to do on a range of fewer than two elements
or when no sort is running; otherwise count the recursion level, partition,
and sort the two sides of the pivot when they have at least two elements.  The
parameter `depth` of the source only feeds the step texts and is left out. -/
def quickSort (key : α → Int) (low high : Int) (s : Visualizer α) : Visualizer α :=
  if h : s.isSorting = false ∨ low ≥ high then s
  else
    let r := partition key low high (enterCall s)
    leaveCall
      (if hp : r.1.isSorting = true ∧ r.2 ≠ -1 then
        let s2 := if hl : r.2 - 1 > low then quickSort key low (r.2 - 1) r.1 else r.1
        if hr : r.2 + 1 < high then quickSort key (r.2 + 1) high s2 else s2
      else r.1)
termination_by (high - low).toNat
decreasing_by
  all_goals simp_wf
  all_goals
    have hb := partition_index key low high (enterCall s) (by omega)
    simp only [r] at hp hb
    try simp only [r] at hl
    try simp only [r] at hr
    omega

/-- The state in which `startSort` calls `quickSort` on the array `arr`. -/
def sorting (arr : List α) : Visualizer α :=
  { array := arr, originalArray := arr, isSorting := true, isPaused := false,
    comparisons := 0, swaps := 0, arrayAccess := 0, recursionDepth := 0, maxRecursionDepth := 0 }

/-- The method `startSort()`: refuses to start while a sort is running; otherwise raises
`isSorting`, clears the statistics, runs `quickSort(0, length - 1)` and lowers
`isSorting`. -/
def startSort (key : α → Int) (s : Visualizer α) : Visualizer α :=
  if s.isSorting then s
  else
    let s1 := { s with isSorting := true, isPaused := false }
    let s2 := resetStats s1
    let s3 := quickSort key 0 ((s2.array.length : Int) - 1) s2
    { s3 with isSorting := false }

/-- A visualizer holding `arr`, with no sort running: the state `setArray`
leaves behind. -/
def ready (arr : List α) : Visualizer α :=
  { array := arr, originalArray := arr, isSorting := false, isPaused := false,
    comparisons := 0, swaps := 0, arrayAccess := 0, recursionDepth := 0, maxRecursionDepth := 0 }

/-- The predicate `SortedSeg key pre seg post t`: the state `t` still has a sort running and
its array is `pre`, then the elements of `seg` in ascending order, then `post`. -/
def SortedSeg (key : α → Int) (pre seg post : List α) (t : Visualizer α) : Prop :=
  ∃ seg', t.array = pre ++ (seg' ++ post) ∧ seg'.Perm seg ∧ Ascending key seg' ∧
    t.isSorting = true

/-- The range `low..high` (both ends included) of an array. -/
def segment (a : List α) (low high : Int) : List α :=
  (a.drop low.toNat).take (high - low + 1).toNat

end QuickSort

/-! ## Doubly linked list (`src/DLL/script.js`) -/

namespace DLL

/-- A `DoublyLinkedListNode` as stored in the heap.  The links `next` and
`prev` hold the address of another node or `null` (`none`).  The random `id`
and the DOM `element` of the source play no part in the list operations and
are left out; two nodes are the same node when their addresses are equal, as
with `===` in the source. -/
structure Node where
  data : Int
  next : Option Nat
  prev : Option Nat
deriving DecidableEq

/-- A `DoublyLinkedList` together with the heap its nodes live in: `heap a` is
the node at address `a`, and the addresses below `fresh` are the ones handed
out by `new DoublyLinkedListNode` so far. -/
structure DoublyLinkedList where
  heap : Nat → Node
  fresh : Nat
  head : Option Nat
  tail : Option Nat
  size : Int

/-- The heap `heap` with the node at address `a` replaced by `v`. -/
def write (heap : Nat → Node) (a : Nat) (v : Node) : Nat → Node :=
  fun b => if b = a then v else heap b

/-- The assignment `a.next = v`. -/
def setNext (heap : Nat → Node) (a : Nat) (v : Option Nat) : Nat → Node :=
  write heap a { heap a with next := v }

/-- The assignment `a.prev = v`. -/
def setPrev (heap : Nat → Node) (a : Nat) (v : Option Nat) : Nat → Node :=
  write heap a { heap a with prev := v }

/-- The constructor call `new DoublyLinkedList()`: no node allocated, no head, no tail, size 0. -/
def empty : DoublyLinkedList :=
  { heap := fun _ => { data := 0, next := none, prev := none }, fresh := 0,
    head := none, tail := none, size := 0 }

/-- The constructor call `new DoublyLinkedListNode(data)`: a node at a fresh address with both links
`null`.  Returns the new state and the address of the node. -/
def alloc (d : DoublyLinkedList) (data : Int) : DoublyLinkedList × Nat :=
  ({ d with heap := write d.heap d.fresh { data := data, next := none, prev := none },
            fresh := d.fresh + 1 }, d.fresh)

/-- The method `insertAtHead(data)`.  Returns the new state and the new node. -/
def insertAtHead (d : DoublyLinkedList) (data : Int) : DoublyLinkedList × Nat :=
  let d1 := (alloc d data).1
  let newNode := (alloc d data).2
  match d1.head with
  | none =>
    ({ d1 with head := some newNode, tail := some newNode, size := d1.size + 1 }, newNode)
  | some h =>
    let heap1 := setNext d1.heap newNode (some h)
    let heap2 := setPrev heap1 h (some newNode)
    ({ d1 with heap := heap2, head := some newNode, size := d1.size + 1 }, newNode)

/-- The method `insertAtTail(data)`.  Returns the new state and the new node. -/
def insertAtTail (d : DoublyLinkedList) (data : Int) : DoublyLinkedList × Nat :=
  let d1 := (alloc d data).1
  let newNode := (alloc d data).2
  match d1.tail with
  | none =>
    ({ d1 with head := some newNode, tail := some newNode, size := d1.size + 1 }, newNode)
  | some t =>
    let heap1 := setNext d1.heap t (some newNode)
    let heap2 := setPrev heap1 newNode (some t)
    ({ d1 with heap := heap2, tail := some newNode, size := d1.size + 1 }, newNode)

/-- The method `insertAfter(targetNode, data)`.  The node made on entry is dropped when the
target is the tail and `insertAtTail` makes its own.  `none` is the `TypeError`
raised by `targetNode.next.prev = ..` when `targetNode.next` is `null`. -/
def insertAfter (d : DoublyLinkedList) (targetNode : Nat) (data : Int) :
    Option (DoublyLinkedList × Nat) :=
  let d1 := (alloc d data).1
  let newNode := (alloc d data).2
  if some targetNode = d1.tail then some (insertAtTail d1 data)
  else
    let heap1 := setNext d1.heap newNode (d1.heap targetNode).next
    let heap2 := setPrev heap1 newNode (some targetNode)
    match (heap2 targetNode).next with
    | none => none
    | some nx =>
      let heap3 := setPrev heap2 nx (some newNode)
      let heap4 := setNext heap3 targetNode (some newNode)
      some ({ d1 with heap := heap4, size := d1.size + 1 }, newNode)

/-- The method `insertBefore(targetNode, data)`.  The node made on entry is dropped when
the target is the head and `insertAtHead` makes its own.  `none` is the
`TypeError` raised by `targetNode.prev.next = ..` when `targetNode.prev` is
`null`. -/
def insertBefore (d : DoublyLinkedList) (targetNode : Nat) (data : Int) :
    Option (DoublyLinkedList × Nat) :=
  let d1 := (alloc d data).1
  let newNode := (alloc d data).2
  if some targetNode = d1.head then some (insertAtHead d1 data)
  else
    let heap1 := setPrev d1.heap newNode (d1.heap targetNode).prev
    let heap2 := setNext heap1 newNode (some targetNode)
    match (heap2 targetNode).prev with
    | none => none
    | some pv =>
      let heap3 := setNext heap2 pv (some newNode)
      let heap4 := setPrev heap3 targetNode (some newNode)
      some ({ d1 with heap := heap4, size := d1.size + 1 }, newNode)

/-- The method `delete(targetNode)`.  `none` is the `TypeError` raised when a link that is
dereferenced is `null`. -/
def delete (d : DoublyLinkedList) (targetNode : Nat) : Option DoublyLinkedList :=
  if d.size = 1 then
    some { d with head := none, tail := none, size := d.size - 1 }
  else if some targetNode = d.head then
    match (d.heap targetNode).next with
    | none => none
    | some h => some { d with head := some h, heap := setPrev d.heap h none, size := d.size - 1 }
  else if some targetNode = d.tail then
    match (d.heap targetNode).prev with
    | none => none
    | some t => some { d with tail := some t, heap := setNext d.heap t none, size := d.size - 1 }
  else
    match (d.heap targetNode).prev with
    | none => none
    | some pv =>
      let heap1 := setNext d.heap pv (d.heap targetNode).next
      match (heap1 targetNode).next with
      | none => none
      | some nx =>
        let heap2 := setPrev heap1 nx (heap1 targetNode).prev
        some { d with heap := heap2, size := d.size - 1 }

/-- The method `clear()`. -/
def clear (d : DoublyLinkedList) : DoublyLinkedList :=
  { d with head := none, tail := none, size := 0 }

/-- The loop of `toArray()`: follow `next` from `current`, pushing every node
met on `result`.  `fuel` bounds the number of nodes visited; `none` means the
bound was hit, which for a bound of at least the number of allocated nodes
happens only when the links run in a cycle and the source loops forever. -/
def toArrayLoop (heap : Nat → Node) : Nat → Option Nat → List Nat → Option (List Nat)
  | _, none, result => some result
  | 0, some _, _ => none
  | fuel + 1, some a, result => toArrayLoop heap fuel (heap a).next (result ++ [a])

/-- The method `toArray()`: the nodes met from `head` on, in order. -/
def toArray (d : DoublyLinkedList) : Option (List Nat) :=
  toArrayLoop d.heap d.fresh d.head []

/-- The first element of `l`, or `n` when `l` is empty. -/
def headOr (l : List Nat) (n : Option Nat) : Option Nat :=
  match l with
  | [] => n
  | b :: _ => some b

/-- The last element of `l`, or `p` when `l` is empty. -/
def lastOr (l : List Nat) (p : Option Nat) : Option Nat :=
  match l.getLast? with
  | some a => some a
  | none => p

/-- Forward links along `l`: the `next` of each node of `l` is the node after
it in `l`, and the `next` of the last one is `n`. -/
def NextOK (heap : Nat → Node) : List Nat → Option Nat → Prop
  | [], _ => True
  | a :: rest, n => (heap a).next = headOr rest n ∧ NextOK heap rest n

/-- Backward links along `l`: the `prev` of the first node of `l` is `p`, and
the `prev` of each later node is the node before it in `l`. -/
def PrevOK (heap : Nat → Node) : Option Nat → List Nat → Prop
  | _, [] => True
  | p, a :: rest => (heap a).prev = p ∧ PrevOK heap (some a) rest

/-- The predicate `WellFormedWith d l`: the list `d` is well formed and `l` is the sequence
of its nodes.  Forward traversal from `head` visits exactly `l` and then meets
an empty link (so `tail.next` is empty), `head.prev` is empty, the `prev` of
every other node is the node before it (so `a.next == b` exactly when
`b.prev == a` along the chain), every node of the chain is an allocated object,
`head` and `tail` are the first and the last node visited (both empty exactly
when no node is visited), and `size` is the number of nodes visited. -/
def WellFormedWith (d : DoublyLinkedList) (l : List Nat) : Prop :=
  NextOK d.heap l none ∧ PrevOK d.heap none l ∧ (∀ a ∈ l, a < d.fresh) ∧
    d.head = l.head? ∧ d.tail = l.getLast? ∧ d.size = (l.length : Int)

/-- The list `d` is well formed. -/
def WellFormed (d : DoublyLinkedList) : Prop :=
  ∃ l, WellFormedWith d l

/-- The list made by `insertAtTail(10)` and `insertAtTail(20)` on a new list:
node 0 holds 10, node 1 holds 20. -/
def twoNodes : DoublyLinkedList :=
  (insertAtTail (insertAtTail empty 10).1 20).1

/-- State of `DLLVisualizer`: the list and the selected node (`null` when no
node is selected). -/
structure Visualizer where
  dll : DoublyLinkedList
  selectedNode : Option Nat

/-- The method `DLLVisualizer.deleteNode()`, run to its end with no other event in
between: nothing happens without a selection; otherwise the selected node is
deleted from the list and the selection is cleared.  `none` is a `TypeError`
raised by `delete`. -/
def Visualizer.deleteNode (v : Visualizer) : Option Visualizer :=
  match v.selectedNode with
  | none => some v
  | some t =>
    match delete v.dll t with
    | none => none
    | some d' => some { dll := d', selectedNode := none }

/-- The list made by `insertAtTail(10)` on a new list: node 0 alone. -/
def oneNode : DoublyLinkedList :=
  (insertAtTail empty 10).1

end DLL

/-! ## Singly linked list (`src/SLL/script.js`) -/

namespace SLL

/-- A `SinglyLinkedListNode` as stored in the heap.  The link `next` holds the
address of another node or `null` (`none`).  The random `id` and the DOM
`element` of the source play no part in the list operations and are left out;
two nodes are the same node when their addresses are equal, as with `===` in
the source. -/
structure Node where
  data : Int
  next : Option Nat
deriving DecidableEq

/-- A `SinglyLinkedList` together with the heap its nodes live in: `heap a` is
the node at address `a`, and the addresses below `fresh` are the ones handed
out by `new SinglyLinkedListNode` so far. -/
structure SinglyLinkedList where
  heap : Nat → Node
  fresh : Nat
  head : Option Nat
  size : Int

/-- The assignment `a.next = v`. -/
def setNext (heap : Nat → Node) (a : Nat) (v : Option Nat) : Nat → Node :=
  fun b => if b = a then { heap a with next := v } else heap b

/-- The constructor call `new SinglyLinkedList()`: no node allocated, no head,
size 0. -/
def empty : SinglyLinkedList :=
  { heap := fun _ => { data := 0, next := none }, fresh := 0, head := none, size := 0 }

/-- The constructor call `new SinglyLinkedListNode(data)`: a node at a fresh
address with an empty link.  Returns the new state and the address of the
node. -/
def alloc (d : SinglyLinkedList) (data : Int) : SinglyLinkedList × Nat :=
  ({ d with heap := fun b => if b = d.fresh then { data := data, next := none } else d.heap b,
            fresh := d.fresh + 1 }, d.fresh)

/-- The method `insertAtHead(data)`.  Returns the new state and the new node. -/
def insertAtHead (d : SinglyLinkedList) (data : Int) : SinglyLinkedList × Nat :=
  let d1 := (alloc d data).1
  let newNode := (alloc d data).2
  match d1.head with
  | none => ({ d1 with head := some newNode, size := d1.size + 1 }, newNode)
  | some h =>
    ({ d1 with heap := setNext d1.heap newNode (some h), head := some newNode,
               size := d1.size + 1 }, newNode)

/-- The loop `while (current.next) current = current.next` of `insertAtTail`.
Returns the node the loop stops at; `fuel` bounds the number of moves and
`none` means the bound was hit. -/
def lastLoop (heap : Nat → Node) : Nat → Nat → Option Nat
  | 0, current =>
    match (heap current).next with
    | none => some current
    | some _ => none
  | fuel + 1, current =>
    match (heap current).next with
    | none => some current
    | some nx => lastLoop heap fuel nx

/-- The method `insertAtTail(data)`.  Returns the new state and the new node.
The walk to the last node is bounded by the number of allocated nodes; `none`
means the bound was hit, which on a chain of allocated nodes happens only when
the links run in a cycle and the source loops forever. -/
def insertAtTail (d : SinglyLinkedList) (data : Int) : Option (SinglyLinkedList × Nat) :=
  let d1 := (alloc d data).1
  let newNode := (alloc d data).2
  match d1.head with
  | none => some ({ d1 with head := some newNode, size := d1.size + 1 }, newNode)
  | some h =>
    match lastLoop d1.heap d1.fresh h with
    | none => none
    | some current =>
      some ({ d1 with heap := setNext d1.heap current (some newNode), size := d1.size + 1 },
        newNode)

/-- The method `insertAfter(targetNode, data)`.  Returns the new state and the
new node.  The source does not look whether the target is in the list. -/
def insertAfter (d : SinglyLinkedList) (targetNode : Nat) (data : Int) :
    SinglyLinkedList × Nat :=
  let d1 := (alloc d data).1
  let newNode := (alloc d data).2
  let heap1 := setNext d1.heap newNode (d1.heap targetNode).next
  let heap2 := setNext heap1 targetNode (some newNode)
  ({ d1 with heap := heap2, size := d1.size + 1 }, newNode)

/-- The loop `while (current && current.next !== targetNode) current =
current.next` of `delete`.  Returns the value of `current` when the loop is
left; `fuel` bounds the number of moves and `none` means the bound was hit. -/
def predLoop (heap : Nat → Node) (targetNode : Nat) : Nat → Option Nat → Option (Option Nat)
  | _, none => some none
  | 0, some c => if (heap c).next = some targetNode then some (some c) else none
  | fuel + 1, some c =>
    if (heap c).next = some targetNode then some (some c)
    else predLoop heap targetNode fuel (heap c).next

/-- The method `delete(targetNode)`.  The search for the predecessor is bounded
by the number of allocated nodes; `none` means the bound was hit, which on a
chain of allocated nodes happens only when the links run in a cycle and the
source loops forever.  `size` is decremented on every path. -/
def delete (d : SinglyLinkedList) (targetNode : Nat) : Option SinglyLinkedList :=
  if some targetNode = d.head then
    some { d with head := (d.heap targetNode).next, size := d.size - 1 }
  else
    match predLoop d.heap targetNode d.fresh d.head with
    | none => none
    | some none => some { d with size := d.size - 1 }
    | some (some current) =>
      some { d with heap := setNext d.heap current (d.heap targetNode).next,
                    size := d.size - 1 }

/-- The loop `while (current)` of `reverse`: `next = current.next`,
`current.next = prev`, `prev = current`, `current = next`.  Returns the heap and
the value of `prev` when the loop is left; `fuel` bounds the number of rounds
and `none` means the bound was hit. -/
def reverseLoop : (Nat → Node) → Nat → Option Nat → Option Nat →
    Option ((Nat → Node) × Option Nat)
  | heap, _, prev, none => some (heap, prev)
  | _, 0, _, some _ => none
  | heap, fuel + 1, prev, some c => reverseLoop (setNext heap c prev) fuel (some c) (heap c).next

/-- The method `reverse()`.  The loop is bounded by the number of allocated
nodes, which is enough on every acyclic chain of allocated nodes; `none` means
the bound was hit. -/
def reverse (d : SinglyLinkedList) : Option SinglyLinkedList :=
  match reverseLoop d.heap d.fresh none d.head with
  | none => none
  | some r => some { d with heap := r.1, head := r.2 }

/-- The method `clear()`. -/
def clear (d : SinglyLinkedList) : SinglyLinkedList :=
  { d with head := none, size := 0 }

/-- The loop of `toArray()`: follow `next` from `current`, pushing every node
met on `result`.  `fuel` bounds the number of nodes visited; `none` means the
bound was hit. -/
def toArrayLoop (heap : Nat → Node) : Nat → Option Nat → List Nat → Option (List Nat)
  | _, none, result => some result
  | 0, some _, _ => none
  | fuel + 1, some a, result => toArrayLoop heap fuel (heap a).next (result ++ [a])

/-- The method `toArray()`: the nodes met from `head` on, in order.  The walk
is bounded by the number of allocated nodes; `none` means the bound was hit,
which on a chain of allocated nodes happens only when the links run in a cycle
and the source loops forever. -/
def toArray (d : SinglyLinkedList) : Option (List Nat) :=
  toArrayLoop d.heap d.fresh d.head []

/-- The first element of `l`, or `n` when `l` is empty. -/
def headOr (l : List Nat) (n : Option Nat) : Option Nat :=
  match l with
  | [] => n
  | b :: _ => some b

/-- Forward links along `l`: the `next` of each node of `l` is the node after
it in `l`, and the `next` of the last one is `n`. -/
def NextOK (heap : Nat → Node) : List Nat → Option Nat → Prop
  | [], _ => True
  | a :: rest, n => (heap a).next = headOr rest n ∧ NextOK heap rest n

/-- Following `next` from `current` for `k` steps (stopping at an empty
link). -/
def follow (heap : Nat → Node) : Nat → Option Nat → Option Nat
  | 0, current => current
  | _ + 1, none => none
  | k + 1, some a => follow heap k (heap a).next

/-- The predicate `ChainWith d l`: the chain from `head` is acyclic and `l` is
the sequence of its nodes.  Forward traversal from `head` visits exactly `l`
and then meets an empty link, and every node of the chain is an allocated
object. -/
def ChainWith (d : SinglyLinkedList) (l : List Nat) : Prop :=
  NextOK d.heap l none ∧ (∀ a ∈ l, a < d.fresh) ∧ d.head = headOr l none

/-- The predicate `WellFormedWith d l`: the chain from `head` is acyclic with
node sequence `l`, and `size` is the number of its nodes, so that following
`next` from `head` exactly `size` times reaches an empty link. -/
def WellFormedWith (d : SinglyLinkedList) (l : List Nat) : Prop :=
  ChainWith d l ∧ d.size = (l.length : Int)

/-- The size invariant of `SinglyLinkedList` holds for `d`. -/
def WellFormed (d : SinglyLinkedList) : Prop :=
  ∃ l, WellFormedWith d l

/-- State of `SLLVisualizer`: the list and the selected node (`null` when no
node is selected). -/
structure Visualizer where
  sll : SinglyLinkedList
  selectedNode : Option Nat

/-- The method `SLLVisualizer.deleteNode()`, run to its end with no other
event in between: nothing happens without a selection; otherwise the selected
node is deleted from the list and the selection is cleared.  `none` means the
search of `delete` hit its bound. -/
def Visualizer.deleteNode (v : Visualizer) : Option Visualizer :=
  match v.selectedNode with
  | none => some v
  | some t =>
    match delete v.sll t with
    | none => none
    | some d' => some { sll := d', selectedNode := none }

/-- The method `SLLVisualizer.reverseList()`, run to its end with no other
event in between: nothing happens when `size < 2`; otherwise the list is
reversed. -/
def Visualizer.reverseList (v : Visualizer) : Option Visualizer :=
  if v.sll.size < 2 then some v
  else
    match reverse v.sll with
    | none => none
    | some d' => some { v with sll := d' }

/-- The list made by `insertAtHead(20)` and then `insertAtHead(10)` on a new
list: node 1 holds 10 and is the head, node 0 holds 20. -/
def twoNodes : SinglyLinkedList :=
  (insertAtHead (insertAtHead empty 20).1 10).1

/-- The list made by `insertAtHead(10)` on a new list: node 0 alone. -/
def oneNode : SinglyLinkedList :=
  (insertAtHead empty 10).1

end SLL

/-! ## Circular lists (`src/CSLL/script.js` and `src/CDLL/script.js`)

The two circular visualizers keep their list as an array of records
`{ id, value, el }` (`csll` in one file, `dll` in the other) next to the
globals `selectedId` and `nextId`.  The functions `addNode`, `selectNode`,
`insertAfterSelected`, `deleteSelected` and `resetList` are the same in both
files but for the name of the array and the texts they log, so one model
serves both.  The links are not stored: `next` and `prev` are the cyclic
neighbours in the array, which is how `redrawArrows` draws them. -/

namespace CircularList

/-- A record `{ id, value, el }` of the node array, without its DOM element. -/
structure Node where
  id : Nat
  value : Int
deriving DecidableEq

/-- The globals of the script: the node array, `selectedId` (`null` is `none`)
and `nextId`. -/
structure State where
  list : List Node
  selectedId : Option Nat
  nextId : Nat
deriving DecidableEq

/-- What a handler leaves behind: the state, and whether it ended by raising
a `TypeError`. -/
structure Outcome where
  state : State
  raised : Bool
deriving DecidableEq

/-- The call `list.findIndex(n => n.id === id)`: the first index holding a node
with that id, or -1. -/
def findIndex : List Node → Nat → Int
  | [], _ => -1
  | n :: rest, id =>
    if n.id = id then 0
    else if findIndex rest id < 0 then -1 else findIndex rest id + 1

/-- The read `list[k]` for an integer index: `undefined` (`none`) when `k` is
negative or past the end. -/
def getAt (l : List Node) (k : Int) : Option Node :=
  if 0 ≤ k then l[k.toNat]? else none

/-- The function `addNode(value, index)`: a node with the next id is spliced in
at `index` (`splice` puts it at the end when `index` is past the end). -/
def addNode (s : State) (value : Int) (index : Nat) : State :=
  { s with list := s.list.take index ++ { id := s.nextId, value := value } :: s.list.drop index,
           nextId := s.nextId + 1 }

/-- The function `selectNode(id)`: ignored when no node has that id. -/
def selectNode (s : State) (id : Nat) : State :=
  if findIndex s.list id < 0 then s else { s with selectedId := some id }

/-- The function `insertAfterSelected()`.  `input` is the number read from the
input box, `none` when the box is empty or holds no number (the handler then
only flashes the box).  Nothing happens without a selection.  Otherwise the new
node is added at `idx + 1`, where `idx` is the index found for `selectedId`, and
the log line reads `selNode.value` with `selNode = list[idx]`, which raises a
`TypeError` when `list[idx]` is `undefined`. -/
def insertAfterSelected (s : State) (input : Option Int) : Outcome :=
  match s.selectedId with
  | none => { state := s, raised := false }
  | some sel =>
    match input with
    | none => { state := s, raised := false }
    | some value =>
      let idx := findIndex s.list sel
      let s1 := addNode s value (idx + 1).toNat
      match getAt s1.list idx with
      | some _ => { state := s1, raised := false }
      | none => { state := s1, raised := true }

/-- What `deleteSelected()` leaves to its timers: the removal of the sole node,
or the removal of the node at a captured index. -/
inductive Pending where
  | sole
  | multi (idx : Nat)
deriving DecidableEq

/-- The synchronous part of `deleteSelected()`: nothing is scheduled without a
selection or when no node has the selected id; otherwise the removal is
scheduled, with the index found now. -/
def deleteSelectedStart (s : State) : Option Pending :=
  match s.selectedId with
  | none => none
  | some sel =>
    if findIndex s.list sel < 0 then none
    else if s.list.length = 1 then some Pending.sole
    else some (Pending.multi (findIndex s.list sel).toNat)

/-- The timer callback of `deleteSelected()`, run on the state `s` it finds.
For the sole node: the list becomes empty and the selection is cleared.
Otherwise `list.splice(idx, 1)`, then the node now at
`Math.min(idx, list.length - 1)` becomes the selected one; reading its `id`
raises a `TypeError` when there is no such node. -/
def deleteSelectedFinish (p : Pending) (s : State) : Outcome :=
  match p with
  | Pending.sole => { state := { s with list := [], selectedId := none }, raised := false }
  | Pending.multi idx =>
    let l := s.list.eraseIdx idx
    match getAt l (min (idx : Int) ((l.length : Int) - 1)) with
    | some newSel => { state := { s with list := l, selectedId := some newSel.id },
                       raised := false }
    | none => { state := { s with list := l }, raised := true }

/-- A completed `deleteSelected()`: the synchronous part and then its timer
callback, with no other handler in between. -/
def deleteSelected (s : State) : Outcome :=
  match deleteSelectedStart s with
  | none => { state := s, raised := false }
  | some p => deleteSelectedFinish p s

/-- The function `resetList()`: the list is emptied, the selection cleared,
`nextId` set back to 1, and the nodes 10, 20, 30, 50 are added at the end. -/
def resetList (_ : State) : State :=
  let s0 : State := { list := [], selectedId := none, nextId := 1 }
  let s1 := addNode s0 10 s0.list.length
  let s2 := addNode s1 20 s1.list.length
  let s3 := addNode s2 30 s2.list.length
  addNode s3 50 s3.list.length

/-- The node after position `i`, as `redrawArrows` draws it: an arrow from each
node to the one after it in the array, and from the last node back to the
first (a self-loop when the node is alone). -/
def nextIdx (l : List Node) (i : Nat) : Nat :=
  if i + 1 < l.length then i + 1 else 0

/-- The states the page can be in when no handler is interleaved with a
pending timer: `resetList` runs at start-up and on the reset button, and then
nodes are selected, inserted and deleted, each handler running to its end. -/
inductive Reachable : State → Prop
  | reset (s : State) : Reachable (resetList s)
  | select (s : State) (id : Nat) : Reachable s → Reachable (selectNode s id)
  | insert (s : State) (input : Option Int) :
      Reachable s → Reachable (insertAfterSelected s input).state
  | delete (s : State) : Reachable s → Reachable (deleteSelected s).state

/-- The list of `resetList()`: 10, 20, 30, 50 with ids 1 to 4. -/
def initial : State :=
  resetList { list := [], selectedId := none, nextId := 1 }

/-- The invariant of the reachable states: the ids of the list are pairwise
different and all below `nextId`, and the selection, when there is one, is the
id of a node of the list. -/
def Inv (s : State) : Prop :=
  (s.list.map Node.id).Nodup ∧ (∀ n ∈ s.list, n.id < s.nextId) ∧
    (∀ sel, s.selectedId = some sel → ∃ n ∈ s.list, n.id = sel)

/-- The list 30, 50 (ids 3 and 4) with node 30 selected: the initial list after
node 10 was selected and the delete button pressed, twice, each deletion
running to its end. -/
def twoLeft : State :=
  (deleteSelected (deleteSelected (selectNode initial 1)).state).state

/-- The state after the delete button was pressed twice on `twoLeft` before
the first removal took place: both presses captured index 0, and then both
timer callbacks ran. -/
def staleState : State :=
  (deleteSelectedFinish (Pending.multi 0)
    (deleteSelectedFinish (Pending.multi 0) twoLeft).state).state

/-- The list 50 (id 4) alone and selected: `twoLeft` after one more completed
deletion. -/
def oneLeft : State :=
  (deleteSelected twoLeft).state

end CircularList

/-! ## Step manager of the circular visualizers (`src/CSLL/script.js` and `src/CDLL/script.js`)

The functions `clearSteps`, `startSteps`, `revealNextStep` and `finishSteps`
are the same in both files.  The `<li>` elements of `stepsListEl` are kept with
their `data-index`, their text and the one of the classes `pending`,
`current`, `done` they carry.  Timers are kept by handle: `setTimeout` hands
out the next handle and schedules the callback, `clearTimeout` unschedules it,
and a scheduled callback runs when it fires.  The handles of a browser are
positive integers, so the test `if (currentStepTimer)` only fails on `null`
and on a handle 0, which `setTimeout` never returns. -/

namespace StepManager

/-- The class of a step element: `pending`, `current` or `done`. -/
inductive Status where
  | pending
  | current
  | done
deriving DecidableEq

/-- A `<li class="step">` of the steps list: its `data-index`, its text and
its class. -/
structure StepEl where
  index : Nat
  text : String
  status : Status
deriving DecidableEq

/-- The globals of the step manager, the children of `stepsListEl`, and the
timers: `timers` holds the handles of the scheduled `revealNextStep` callbacks
that have neither fired nor been cleared, `nextHandle` is the handle the next
`setTimeout` returns. -/
structure State where
  currentStepTimer : Option Nat
  currentSteps : List String
  currentStepIndex : Int
  currentOperation : String
  stepsList : List StepEl
  timers : List Nat
  nextHandle : Nat
deriving DecidableEq

/-- The statement `if (currentStepTimer) clearTimeout(currentStepTimer)`: the
callback with that handle is unscheduled; the variable keeps the handle. -/
def clearTimer (s : State) : State :=
  match s.currentStepTimer with
  | none => s
  | some h => if h = 0 then s else { s with timers := s.timers.filter (fun x => x ≠ h) }

/-- The function `clearSteps()`. -/
def clearSteps (s : State) : State :=
  { clearTimer s with currentSteps := [], currentStepIndex := -1, stepsList := [],
                      currentOperation := "Idle" }

/-- The class the loop of `revealNextStep` gives to the element of index `i`
when the current step is `k`. -/
def markAt (k : Int) (i : Nat) : Status :=
  if (i : Int) < k then Status.done
  else if (i : Int) = k then Status.current
  else Status.pending

/-- The class of the element found by
`querySelector('.step[data-index="i"]')`, the first one with that index, is
replaced by `st`; nothing happens when there is none. -/
def setFirst (i : Nat) (st : Status) : List StepEl → List StepEl
  | [] => []
  | e :: rest =>
    if e.index = i then { e with status := st } :: rest else e :: setFirst i st rest

/-- The loop `for (let i = 0; i < currentSteps.length; i++)` of
`revealNextStep`. -/
def revealLoop (k : Int) (n : Nat) (els : List StepEl) : List StepEl :=
  (List.range n).foldl (fun acc i => setFirst i (markAt k i) acc) els

/-- The function `revealNextStep()`: the index moves on by one; past the last
step nothing else happens; otherwise the classes are set and the next call is
scheduled. -/
def revealNextStep (s : State) : State :=
  let s1 := { s with currentStepIndex := s.currentStepIndex + 1 }
  if s1.currentStepIndex ≥ (s1.currentSteps.length : Int) then s1
  else
    { s1 with stepsList := revealLoop s1.currentStepIndex s1.currentSteps.length s1.stepsList,
              currentStepTimer := some s1.nextHandle,
              timers := s1.timers ++ [s1.nextHandle],
              nextHandle := s1.nextHandle + 1 }

/-- The function `startSteps(operationTitle, stepsArray)`. -/
def startSteps (s : State) (operationTitle : String) (stepsArray : List String) : State :=
  let s1 := clearSteps s
  let s2 := { s1 with currentOperation := operationTitle,
                      currentSteps := stepsArray,
                      stepsList := s1.stepsList ++
                        stepsArray.enum.map (fun p => { index := p.1, text := p.2,
                                                        status := Status.pending }) }
  revealNextStep s2

/-- The function `finishSteps(extraStepText)`.  The argument is `none` when it
is left out; the test `if (extraStepText)` also fails on the empty string. -/
def finishSteps (s : State) (extraStepText : Option String) : State :=
  let s1 :=
    match extraStepText with
    | none => s
    | some t =>
      if t = "" then s
      else { s with currentSteps := s.currentSteps ++ [t],
                    stepsList := s.stepsList ++
                      [{ index := (s.currentSteps ++ [t]).length - 1, text := t,
                         status := Status.pending }] }
  let s2 := clearTimer s1
  { s2 with stepsList := s2.stepsList.map (fun e => { e with status := Status.done }) }

/-- The timer with handle `h` fires: when it is still scheduled, it is taken
off the schedule and `revealNextStep` runs. -/
def fire (s : State) (h : Nat) : State :=
  if h ∈ s.timers then revealNextStep { s with timers := s.timers.filter (fun x => x ≠ h) }
  else s

/-- The state when the script is loaded, before `init()`. -/
def initial : State :=
  { currentStepTimer := none, currentSteps := [], currentStepIndex := -1,
    currentOperation := "Idle", stepsList := [], timers := [], nextHandle := 1 }

/-- The states the step manager can be in: from the initial state by calls of
its functions and by firing timers. -/
inductive Reachable : State → Prop
  | init : Reachable initial
  | clear (s : State) : Reachable s → Reachable (clearSteps s)
  | start (s : State) (title : String) (steps : List String) :
      Reachable s → Reachable (startSteps s title steps)
  | finish (s : State) (extra : Option String) : Reachable s → Reachable (finishSteps s extra)
  | fire (s : State) (h : Nat) : Reachable s → Reachable (fire s h)

/-- The invariant of the reachable states: the only timer that can be
scheduled is the one whose handle `currentStepTimer` holds, handles are
positive and below `nextHandle`, and the steps list has one element for each
step, in order, the element of step `i` carrying the index `i`. -/
def Inv (s : State) : Prop :=
  (∀ h ∈ s.timers, s.currentStepTimer = some h) ∧
    (∀ h, s.currentStepTimer = some h → 0 < h ∧ h < s.nextHandle) ∧ 0 < s.nextHandle ∧
    s.stepsList.map StepEl.index = List.range s.currentSteps.length

/-- The classes of the steps list, in order. -/
def statuses (s : State) : List Status :=
  s.stepsList.map StepEl.status

/-- The steps of the `Initialize` sequence of `resetList()` in the singly
linked variant. -/
def initSteps : List String :=
  ["Create nodes: 10, 20, 30, 50", "Arrange nodes horizontally",
   "Set each .next pointer (circular)", "Draw horizontal arrows",
   "Draw tail→head arc below", "Initialization complete"]

/-- The state after `startSteps('Initialize', ..)` at page load. -/
def started : State :=
  startSteps initial "Initialize" initSteps

/-- The state after the timer has fired `n` times from `s`, each time the
timer whose handle `currentStepTimer` holds. -/
def play : Nat → State → State
  | 0, s => s
  | n + 1, s =>
    match s.currentStepTimer with
    | none => play n s
    | some h => play n (fire s h)

/-- The branch `if (extraStepText)` of `finishSteps`: the text is pushed on
`currentSteps` and a `pending` element carrying the new last index is appended
to the steps list. -/
def pushStep (s : State) (t : String) : State :=
  { s with currentSteps := s.currentSteps ++ [t],
           stepsList := s.stepsList ++
             [{ index := (s.currentSteps ++ [t]).length - 1, text := t,
                status := Status.pending }] }

end StepManager

/-! ## Steps panel of the linked-list visualizers (`src/DLL/script.js` and `src/SLL/script.js`)

The methods `displaySteps`, `clearSteps` and `markStepComplete` are the same
in `DLLVisualizer` and `SLLVisualizer`. -/

namespace StepsPanel

open StepManager (Status)

/-- A `<li class="step">` of the steps list: its text and the one of the
classes `pending`, `current`, `done` it carries. -/
structure StepEl where
  text : String
  status : Status
deriving DecidableEq

/-- The method `displaySteps(steps)`: the list is emptied and gets one element
for each step, the first one `current` and the others `pending`. -/
def displaySteps (steps : List String) : List StepEl :=
  steps.enum.map (fun p => { text := p.2,
                             status := if p.1 = 0 then Status.current else Status.pending })

/-- The method `clearSteps()`. -/
def clearSteps (_ : List StepEl) : List StepEl :=
  []

/-- The callback of `markStepComplete()` on one element: a `current` step
becomes `done`, a `pending` step becomes `current`. -/
def markStep (e : StepEl) : StepEl :=
  match e.status with
  | Status.current => { e with status := Status.done }
  | Status.pending => { e with status := Status.current }
  | Status.done => e

/-- The method `markStepComplete()`: `steps.forEach(callback)` runs the callback on
every element of the list; the value `false` the callback returns is ignored by
`forEach`, which has no early exit. -/
def markStepComplete (stepsList : List StepEl) : List StepEl :=
  stepsList.map markStep

/-- The steps `SLLVisualizer.insertAtHead()` displays for the input 7 on an
empty list. -/
def insertAtHeadSteps : List String :=
  ["Create new node with value 7", "Check if list is empty",
   "List is empty, set as head", "Update head to new node", "Operation completed"]

end StepsPanel

/-! ## Reset of the visualizers -/

namespace Sorting

/-- The method `clearSteps()` of the three sort visualizers:
`this.stepsListEl.innerHTML = ''`. -/
def clearSteps (_ : List String) : List String :=
  []

end Sorting

namespace BubbleSort

variable {α : Type}

/-- The method `reset()`: the flags are lowered, `array` is set back to a copy of
`originalArray` and the statistics are cleared.  The `renderArray` of `reset` is
outside a sort and is not logged in `frames`. -/
def reset (s : Visualizer α) : Visualizer α :=
  resetStats { s with isSorting := false, isPaused := false, array := s.originalArray }

/-- The method `reset()` on the visualizer and its steps panel, which `reset` empties
with `clearSteps()`. -/
def resetPage (p : Visualizer α × List String) : Visualizer α × List String :=
  (reset p.1, Sorting.clearSteps p.2)

end BubbleSort

namespace InsertionSort

variable {α : Type}

/-- The method `reset()`: the flags are lowered, `array` is set back to a copy of
`originalArray` and the statistics are cleared. -/
def reset (s : Visualizer α) : Visualizer α :=
  resetStats { s with isSorting := false, isPaused := false, array := s.originalArray }

/-- The method `reset()` on the visualizer and its steps panel, which `reset` empties
with `clearSteps()`. -/
def resetPage (p : Visualizer α × List String) : Visualizer α × List String :=
  (reset p.1, Sorting.clearSteps p.2)

end InsertionSort

namespace QuickSort

variable {α : Type}

/-- The method `reset()`: the flags are lowered, `array` is set back to a copy of
`originalArray` and the statistics are cleared. -/
def reset (s : Visualizer α) : Visualizer α :=
  resetStats { s with isSorting := false, isPaused := false, array := s.originalArray }

/-- The method `reset()` on the visualizer and its steps panel, which `reset` empties
with `clearSteps()`. -/
def resetPage (p : Visualizer α × List String) : Visualizer α × List String :=
  (reset p.1, Sorting.clearSteps p.2)

end QuickSort

namespace DLL

/-- The method `DLLVisualizer.reset()` on the visualizer and its steps panel: the list
is cleared, the selection dropped and the steps panel emptied. -/
def resetPage (p : Visualizer × List StepsPanel.StepEl) : Visualizer × List StepsPanel.StepEl :=
  ({ dll := clear p.1.dll, selectedNode := none }, StepsPanel.clearSteps p.2)

end DLL

namespace SLL

/-- The method `SLLVisualizer.reset()` on the visualizer and its steps panel: the list
is cleared, the selection dropped and the steps panel emptied. -/
def resetPage (p : Visualizer × List StepsPanel.StepEl) : Visualizer × List StepsPanel.StepEl :=
  ({ sll := clear p.1.sll, selectedNode := none }, StepsPanel.clearSteps p.2)

end SLL

namespace StepManager

/-- What can be seen of a playback state: the sequence, the index, the
operation title, the steps list and the number of scheduled timers.  The
handles of the timers are left out. -/
def view (s : State) : List String × Int × String × List StepEl × Nat :=
  (s.currentSteps, s.currentStepIndex, s.currentOperation, s.stepsList, s.timers.length)

/-- The steps of the `Initialize` sequence of `resetList()` in the doubly
linked variant. -/
def initStepsCDLL : List String :=
  ["Create nodes: 10, 20, 30, 50", "Arrange nodes horizontally",
   "Set each .next/.prev (circular links)", "Draw horizontal arrows",
   "Draw tail↔head arcs below", "Initialization complete"]

end StepManager

namespace CircularList

/-- The function `resetList()` on the list and the step manager: the list is
reset and `startSteps('Initialize', steps)` is called, `steps` being the six
texts of the variant. -/
def resetPage (steps : List String) (p : State × StepManager.State) :
    State × StepManager.State :=
  (resetList p.1, StepManager.startSteps p.2 "Initialize" steps)

end CircularList

/-! ## Inversions of an array -/

namespace Sorting

variable {α : Type}

/-- The number of inversions of `l`: the pairs of positions `i < j` with
`key l[i] > key l[j]`, counted position by position: each element is paired
with the later elements whose key is smaller. -/
def inversions (key : α → Int) : List α → Nat
  | [] => 0
  | a :: rest => rest.countP (fun b => key a > key b) + inversions key rest

/-- The test `l[i] > l[j]` on the keys, false when a position is outside `l`. -/
def gtAt (key : α → Int) (l : List α) (i j : Nat) : Bool :=
  match l[i]?, l[j]? with
  | some a, some b => decide (key a > key b)
  | _, _ => false

/-- The number of pairs of positions `i < j` of `l` with `l[i] > l[j]`. -/
def inversionCount (key : α → Int) (l : List α) : Nat :=
  ((List.range l.length).map fun i =>
    (List.range l.length).countP fun j => decide (i < j) && gtAt key l i j).sum

end Sorting

/-! ## The states a sort passes through -/

namespace Sorting

variable {β : Type}

/-- The predicate `MonoTrace R a l b`: the list `l` of states starts with `a`, ends with `b`, and
each state is related by `R` to the one after it. -/
def MonoTrace (R : β → β → Prop) (a : β) (l : List β) (b : β) : Prop :=
  List.Chain' R l ∧ l.head? = some a ∧ l.getLast? = some b

end Sorting

namespace BubbleSort

open Sorting

variable {α : Type}

/-- The counters of `s` are at most those of `t`. -/
def StatsLe (s t : Visualizer α) : Prop :=
  s.comparisons ≤ t.comparisons ∧ s.swaps ≤ t.swaps ∧ s.arrayAccess ≤ t.arrayAccess ∧
    s.currentPass ≤ t.currentPass

/-- The states the inner loop passes through, in order: the state at each
evaluation of the loop test, from index `j` on. -/
def innerStates (key : α → Int) (n i : Nat) (j : Nat) (swapped : Bool)
    (s : Visualizer α) : List (Visualizer α) :=
  if (j : Int) < (n : Int) - (i : Int) - 1 then
    if s.isSorting = false then [s]
    else
      let s1 := { s with arrayAccess := s.arrayAccess + 2, comparisons := s.comparisons + 1 }
      match s1.array[j]?, s1.array[j + 1]? with
      | some a, some b =>
        if key a > key b then
          let s2 := { s1 with array := (s1.array.set j b).set (j + 1) a,
                              swaps := s1.swaps + 1,
                              arrayAccess := s1.arrayAccess + 2 }
          let s3 := { s2 with frames := s2.frames ++ [s2.array] }
          s :: s1 :: s2 :: innerStates key n i (j + 1) true s3
        else s :: innerStates key n i (j + 1) swapped s1
      | _, _ => s :: innerStates key n i (j + 1) swapped s1
  else [s]
termination_by n - i - 1 - j
decreasing_by all_goals (simp_wf; omega)

/-- The states the outer loop passes through, in order: the state at each
evaluation of its loop test, from pass index `i` on, and between two of them
the states of the inner loop. -/
def outerStates (key : α → Int) (n : Nat) (i : Nat) (s : Visualizer α) :
    List (Visualizer α) :=
  if (i : Int) < (n : Int) - 1 then
    if s.isSorting = false then [s]
    else
      let s1 := { s with currentPass := i + 1 }
      let r := innerLoop key n i 0 false s1
      if r.2 = false then s :: innerStates key n i 0 false s1
      else s :: (innerStates key n i 0 false s1 ++ outerStates key n (i + 1) r.1)
  else [s]
termination_by n - i
decreasing_by all_goals (simp_wf; omega)

/-- The states a run of `startSort()` passes through from the call of
`resetStats()` on: the state `resetStats()` leaves, then the states of
`bubbleSort`. -/
def runStates (key : α → Int) (s : Visualizer α) : List (Visualizer α) :=
  let s2 := resetStats { s with isSorting := true, isPaused := false }
  outerStates key s2.array.length 0 s2

/-- The state `s` with another `originalArray` and with `f` put in front of
the log `frames`. -/
def rebase (o : List α) (f : List (List α)) (s : Visualizer α) : Visualizer α :=
  { s with originalArray := o, frames := f ++ s.frames }

/-- The statistics of a state. -/
def stats (s : Visualizer α) : Nat × Nat × Nat × Nat :=
  (s.comparisons, s.swaps, s.arrayAccess, s.currentPass)

end BubbleSort

namespace InsertionSort

open Sorting

variable {α : Type}

/-- The counters of `s` are at most those of `t`. -/
def StatsLe (s t : Visualizer α) : Prop :=
  s.comparisons ≤ t.comparisons ∧ s.shifts ≤ t.shifts ∧ s.arrayAccess ≤ t.arrayAccess

/-- The statistics of a state. -/
def stats (s : Visualizer α) : Nat × Nat × Nat :=
  (s.comparisons, s.shifts, s.arrayAccess)

/-- The states the shift loop passes through, in order: the state at each
evaluation of the loop test and after each update of the counters. -/
def shiftStates (key : α → Int) (k : α) (j : Int) (s : Visualizer α) : List (Visualizer α) :=
  if 0 ≤ j then
    if s.isSorting = false then [s]
    else
      let s1 := { s with comparisons := s.comparisons + 1, arrayAccess := s.arrayAccess + 1 }
      match s1.array[j.toNat]? with
      | some x =>
        if key x > key k then
          let s2 := { s1 with array := s1.array.set (j + 1).toNat x,
                              shifts := s1.shifts + 1,
                              arrayAccess := s1.arrayAccess + 2 }
          s :: s1 :: shiftStates key k (j - 1) s2
        else [s, s1]
      | none => [s, s1]
  else [s]
termination_by (j + 1).toNat
decreasing_by all_goals (simp_wf; omega)

/-- The states the main loop passes through, in order, from index `i` on:
the state at each evaluation of its loop test, the states of the shift loop,
and the state after the key is written back. -/
def mainStates (key : α → Int) (n : Nat) (i : Nat) (s : Visualizer α) : List (Visualizer α) :=
  if i < n then
    if s.isSorting = false then [s]
    else
      match s.array[i]? with
      | some k =>
        let s1 := { s with currentKey := some k, arrayAccess := s.arrayAccess + 1 }
        let r := shiftLoop key k ((i : Int) - 1) s1
        let insertPos : Int := r.2 + 1
        let s2 := { r.1 with array := r.1.array.set insertPos.toNat k,
                             arrayAccess := r.1.arrayAccess + 1 }
        s :: (shiftStates key k ((i : Int) - 1) s1 ++ mainStates key n (i + 1) s2)
      | none => [s]
  else [s]
termination_by n - i
decreasing_by all_goals (simp_wf; omega)

/-- The states a run of `startSort()` passes through from the call of
`resetStats()` on: the state `resetStats()` leaves, then the states of
`insertionSort`. -/
def runStates (key : α → Int) (s : Visualizer α) : List (Visualizer α) :=
  let s2 := resetStats { s with isSorting := true, isPaused := false }
  mainStates key s2.array.length 1 s2

end InsertionSort

namespace QuickSort

open Sorting

variable {α : Type}

/-- The counters of `s` are at most those of `t`. -/
def StatsLe (s t : Visualizer α) : Prop :=
  s.comparisons ≤ t.comparisons ∧ s.swaps ≤ t.swaps ∧ s.arrayAccess ≤ t.arrayAccess ∧
    s.maxRecursionDepth ≤ t.maxRecursionDepth

/-- The statistics of a state. -/
def stats (s : Visualizer α) : Nat × Nat × Nat × Int × Int :=
  (s.comparisons, s.swaps, s.arrayAccess, s.recursionDepth, s.maxRecursionDepth)

/-- The states the loop of `partition` passes through, in order: the state at
each evaluation of the loop test and after each update of the counters. -/
def partitionLoopStates (key : α → Int) (pivot : α) (high : Int) (j : Int) (i : Int)
    (s : Visualizer α) : List (Visualizer α) :=
  if j < high then
    if s.isSorting = false then [s]
    else
      let s1 := { s with comparisons := s.comparisons + 1, arrayAccess := s.arrayAccess + 1 }
      match getAt s1.array j with
      | some x =>
        if key x < key pivot then
          let i1 := i + 1
          if i1 ≠ j then
            let s2 := { s1 with array := swapAt s1.array i1 j,
                                swaps := s1.swaps + 1,
                                arrayAccess := s1.arrayAccess + 2 }
            s :: s1 :: partitionLoopStates key pivot high (j + 1) i1 s2
          else s :: partitionLoopStates key pivot high (j + 1) i1 s1
        else s :: partitionLoopStates key pivot high (j + 1) i s1
      | none => s :: partitionLoopStates key pivot high (j + 1) i s1
  else [s]
termination_by (high - j).toNat
decreasing_by all_goals (simp_wf; omega)

/-- The states `partition(low, high)` passes through, in order: the state on
entry, the states of its loop, and the state it returns. -/
def partitionStates (key : α → Int) (low high : Int) (s : Visualizer α) :
    List (Visualizer α) :=
  if s.isSorting = false then [s]
  else
    match getAt s.array high with
    | some pivot =>
      let s1 := { s with arrayAccess := s.arrayAccess + 1 }
      s :: (partitionLoopStates key pivot high low (low - 1) s1 ++
        [(partition key low high s).1])
    | none => [s]

/-- The states `quickSort(low, high)` passes through, in order: the state on
entry, the states of `partition` after the recursion level is counted, the
states of the call on the left side and of the call on the right side, and
the state on return. -/
def quickSortStates (key : α → Int) (low high : Int) (s : Visualizer α) :
    List (Visualizer α) :=
  if _ : s.isSorting = false ∨ low ≥ high then [s]
  else
    let r := partition key low high (enterCall s)
    s :: (partitionStates key low high (enterCall s) ++
      ((if _hp : r.1.isSorting = true ∧ r.2 ≠ -1 then
        let s2 := if hl : r.2 - 1 > low then quickSort key low (r.2 - 1) r.1 else r.1
        (if hl : r.2 - 1 > low then quickSortStates key low (r.2 - 1) r.1 else [r.1]) ++
          (if hr : r.2 + 1 < high then quickSortStates key (r.2 + 1) high s2 else [s2])
      else [r.1]) ++ [quickSort key low high s]))
termination_by (high - low).toNat
decreasing_by
  all_goals simp_wf
  all_goals
    have hb := partition_index key low high (enterCall s) (by omega)
    simp only [r] at _hp hb
    try simp only [r] at hl
    try simp only [r] at hr
    omega

/-- The states a run of `startSort()` passes through from the call of
`resetStats()` on: the state `resetStats()` leaves, then the states of
`quickSort(0, length - 1)`. -/
def runStates (key : α → Int) (s : Visualizer α) : List (Visualizer α) :=
  let s2 := resetStats { s with isSorting := true, isPaused := false }
  quickSortStates key 0 ((s2.array.length : Int) - 1) s2

/-- The state `s` with another `originalArray`. -/
def rebase (o : List α) (s : Visualizer α) : Visualizer α :=
  { s with originalArray := o }

end QuickSort

/-! ## Arrows of the circular doubly linked list (`src/CDLL/script.js`)

The links of the circular doubly linked list are not stored in the nodes: they
are the arrows that `redrawArrows` draws in the SVG layer, between the slots
the nodes stand in.  A forward arrow from slot `i` to slot `j` shows
`dll[i].next == dll[j]`, a backward arrow from slot `i` to slot `j` shows
`dll[i].prev == dll[j]`.  The arrows on the page are part of the state: they
change only when `redrawArrows` runs.  The widths read from the style sheet
(`--spacing`, `--node-width`) are parameters. -/

namespace CircularList

/-- The class `forward` or `backward` of an arrow. -/
inductive ArrowKind where
  | forward
  | backward
deriving DecidableEq

/-- An element of class `arrow` in the SVG layer: its direction, the slot it
starts at and the slot its head points to. -/
structure Arrow where
  kind : ArrowKind
  src : Nat
  dst : Nat
deriving DecidableEq

/-- The entries of `CONFIG` that decide which arrows are drawn. -/
structure Config where
  startX : Int
  spacing : Int
  nodeWidth : Int
  arrowMargin : Int

/-- The object `CONFIG` when the style sheet sets none of the custom properties. -/
def defaultConfig : Config :=
  { startX := 40, spacing := 160, nodeWidth := 86, arrowMargin := 14 }

/-- The function `drawHorizontalPair(iA, iB)`: a forward line from slot `iA` to slot
`iB` and a backward line from `iB` to `iA`, unless the room between the two
slots is below 25. -/
def drawHorizontalPair (cfg : Config) (iA iB : Nat) : List Arrow :=
  let x1 := cfg.startX + (iA : Int) * cfg.spacing + cfg.nodeWidth + cfg.arrowMargin
  let x2 := cfg.startX + (iB : Int) * cfg.spacing - cfg.arrowMargin
  if x2 - x1 < 25 then []
  else [{ kind := ArrowKind.forward, src := iA, dst := iB },
        { kind := ArrowKind.backward, src := iB, dst := iA }]

/-- The function `drawClosureArcs(iTail, iHead)`: a forward path from the tail slot to
the head slot and a backward path from the head slot to the tail slot. -/
def drawClosureArcs (iTail iHead : Nat) : List Arrow :=
  [{ kind := ArrowKind.forward, src := iTail, dst := iHead },
   { kind := ArrowKind.backward, src := iHead, dst := iTail }]

/-- The function `drawSelfLoop(index)`: a forward and a backward loop on the slot. -/
def drawSelfLoop (index : Nat) : List Arrow :=
  [{ kind := ArrowKind.forward, src := index, dst := index },
   { kind := ArrowKind.backward, src := index, dst := index }]

/-- The function `redrawArrows()` for a list of `count` nodes: the arrows on the page
are removed and drawn anew. -/
def redrawArrows (cfg : Config) (count : Nat) : List Arrow :=
  if count = 0 then []
  else if count = 1 then drawSelfLoop 0
  else
    ((List.range count).flatMap fun i =>
      if i = count - 1 then [] else drawHorizontalPair cfg i (i + 1)) ++
      drawClosureArcs (count - 1) 0

/-- The page of the doubly linked variant: the globals and the arrows that
are in the SVG layer. -/
structure Scene where
  state : State
  arrows : List Arrow
deriving DecidableEq

/-- The function `addNode(value, index)` on the page: the node is spliced in and
`layoutAndSyncArrows()` redraws the arrows. -/
def Scene.addNode (cfg : Config) (sc : Scene) (value : Int) (index : Nat) : Scene :=
  let s1 := CircularList.addNode sc.state value index
  { state := s1, arrows := redrawArrows cfg s1.list.length }

/-- The function `selectNode(id)` on the page: no arrow is touched. -/
def Scene.selectNode (sc : Scene) (id : Nat) : Scene :=
  { sc with state := CircularList.selectNode sc.state id }

/-- The function `insertAfterSelected()` on the page: the early returns leave the page
alone; otherwise `addNode` runs (and redraws the arrows) before the log line
that may raise. -/
def Scene.insertAfterSelected (cfg : Config) (sc : Scene) (input : Option Int) : Scene :=
  match sc.state.selectedId with
  | none => sc
  | some sel =>
    match input with
    | none => sc
    | some value => Scene.addNode cfg sc value (findIndex sc.state.list sel + 1).toNat

/-- A completed `deleteSelected()` on the page.  The callback of the sole node
empties the list and calls `redrawArrows()`.  The callback of the other case
splices the node out, sets `selectedId = newSel.id` and only then calls
`layoutAndSyncArrows()`: when reading `newSel.id` raises, the arrows are not
redrawn. -/
def Scene.deleteSelected (cfg : Config) (sc : Scene) : Scene :=
  match deleteSelectedStart sc.state with
  | none => sc
  | some Pending.sole =>
    let o := deleteSelectedFinish Pending.sole sc.state
    { state := o.state, arrows := redrawArrows cfg o.state.list.length }
  | some (Pending.multi idx) =>
    let o := deleteSelectedFinish (Pending.multi idx) sc.state
    if o.raised then { state := o.state, arrows := sc.arrows }
    else { state := o.state, arrows := redrawArrows cfg o.state.list.length }

/-- The function `resetList()` on the page: the list is emptied, `clearArrows()`
removes the arrows, and the four `addNode` calls redraw them. -/
def Scene.resetList (cfg : Config) (_ : Scene) : Scene :=
  let c0 : Scene := { state := { list := [], selectedId := none, nextId := 1 }, arrows := [] }
  let c1 := Scene.addNode cfg c0 10 c0.state.list.length
  let c2 := Scene.addNode cfg c1 20 c1.state.list.length
  let c3 := Scene.addNode cfg c2 30 c2.state.list.length
  Scene.addNode cfg c3 50 c3.state.list.length

/-- The pages the doubly linked variant can be in when no handler is
interleaved with a pending timer: `resetList` runs at start-up and on the reset
button, and then nodes are selected, inserted and deleted, each handler
running to its end. -/
inductive SceneReachable (cfg : Config) : Scene → Prop
  | reset (sc : Scene) : SceneReachable cfg (Scene.resetList cfg sc)
  | select (sc : Scene) (id : Nat) :
      SceneReachable cfg sc → SceneReachable cfg (Scene.selectNode sc id)
  | insert (sc : Scene) (input : Option Int) :
      SceneReachable cfg sc → SceneReachable cfg (Scene.insertAfterSelected cfg sc input)
  | delete (sc : Scene) :
      SceneReachable cfg sc → SceneReachable cfg (Scene.deleteSelected cfg sc)

/-- The slot the arrow of the given direction that starts at slot `i` points
to: the first such arrow in the SVG layer, if there is one. -/
def arrowFrom (arrows : List Arrow) (kind : ArrowKind) (i : Nat) : Option Nat :=
  (arrows.find? fun a => decide (a.kind = kind ∧ a.src = i)).map Arrow.dst

/-- The node an arrow of the given direction leads to from the node `n`: `n`
stands in the slot of its index in the array, and the arrow points to the slot
of the node it leads to. -/
def linkOf (sc : Scene) (kind : ArrowKind) (n : Node) : Option Node :=
  if findIndex sc.state.list n.id < 0 then none
  else
    match arrowFrom sc.arrows kind (findIndex sc.state.list n.id).toNat with
    | none => none
    | some j => sc.state.list[j]?

/-- The link `n.next`, read from the forward arrows. -/
def nextOf (sc : Scene) (n : Node) : Option Node :=
  linkOf sc ArrowKind.forward n

/-- The link `n.prev`, read from the backward arrows. -/
def prevOf (sc : Scene) (n : Node) : Option Node :=
  linkOf sc ArrowKind.backward n

/-- The test that `n` is the head, the first node of the array. -/
def isHead (sc : Scene) (n : Node) : Bool :=
  match sc.state.list with
  | [] => false
  | h :: _ => decide (n.id = h.id)

/-- The nodes met when following `next` from `cur` until the walk is back at
the head.  `fuel` bounds the number of nodes visited; `none` means that the
bound was hit or that a node without a forward arrow was met. -/
def traverse (sc : Scene) : Nat → Node → Option (List Node)
  | 0, _ => none
  | fuel + 1, cur =>
    match nextOf sc cur with
    | none => none
    | some nx =>
      if isHead sc nx then some [cur]
      else (traverse sc fuel nx).map (fun rest => cur :: rest)

/-- The page at start-up with the default widths. -/
def initialScene : Scene :=
  Scene.resetList defaultConfig { state := initial, arrows := [] }

/-- The page after node 20 was selected, 99 inserted after it and, the
selection still on node 20, that node deleted: the list 10, 99, 30, 50. -/
def editedScene : Scene :=
  Scene.deleteSelected defaultConfig
    (Scene.insertAfterSelected defaultConfig (Scene.selectNode initialScene 2) (some 99))

end CircularList

/-! ## Theorems -/

namespace Sorting

variable {α : Type}

theorem getElem?_split_fst (l r : List α) (x : α) :
    (l ++ x :: r)[l.length]? = some x := by
  rw [List.getElem?_append_right (le_refl _)]
  simp

theorem getElem?_split_snd (l r : List α) (x y : α) :
    (l ++ x :: y :: r)[l.length + 1]? = some y := by
  rw [List.getElem?_append_right (by omega)]
  simp

theorem set_split_fst (l r : List α) (x y : α) :
    (l ++ x :: r).set l.length y = l ++ y :: r := by
  rw [List.set_append_right _ _ (le_refl _)]
  simp

theorem set_split_snd (l r : List α) (x y z : α) :
    (l ++ x :: y :: r).set (l.length + 1) z = l ++ x :: z :: r := by
  rw [List.set_append_right _ _ (by omega)]
  simp

theorem set_split_swap (l r : List α) (x y : α) :
    ((l ++ x :: y :: r).set l.length y).set (l.length + 1) x = l ++ y :: x :: r := by
  rw [set_split_fst, set_split_snd]

end Sorting

namespace BubbleSort

open Sorting

variable {α : Type}

theorem innerLoop_spec (key : α → Int) (suf : List α) :
    ∀ (mid l : List α) (x : α) (sw : Bool) (s : Visualizer α) (n i j : Nat),
      s.isSorting = true → s.array = l ++ x :: (mid ++ suf) →
      n = l.length + 1 + mid.length + suf.length → i = suf.length → j = l.length →
      ∃ l' m,
        (innerLoop key n i j sw s).1.array = l' ++ m :: suf ∧
        l'.length = l.length + mid.length ∧
        Relation.ReflTransGen (SwapStep key) s.array (innerLoop key n i j sw s).1.array ∧
        ((∀ z ∈ l, key z ≤ key x) → ∀ z ∈ l', key z ≤ key m) ∧
        (innerLoop key n i j sw s).1.isSorting = true ∧
        ((innerLoop key n i j sw s).2 = false →
          sw = false ∧ (innerLoop key n i j sw s).1.array = s.array ∧
            Ascending key (x :: mid)) := by
  intro mid
  induction mid with
  | nil =>
    intro l x sw s n i j hs harr hn hi hj
    have hc : ¬ ((j : Int) < (n : Int) - (i : Int) - 1) := by
      simp only [List.length_nil] at hn; omega
    rw [innerLoop, if_neg hc]
    refine ⟨l, x, ?_, ?_, ?_, ?_, ?_, ?_⟩
    · simpa using harr
    · simp
    · exact Relation.ReflTransGen.refl
    · exact fun h => h
    · exact hs
    · intro h
      exact ⟨h, rfl, by simp [Ascending]⟩
  | cons y mid ih =>
    intro l x sw s n i j hs harr hn hi hj
    simp only [List.length_cons] at hn
    have hc : (j : Int) < (n : Int) - (i : Int) - 1 := by omega
    have hx : s.array[j]? = some x := by
      rw [harr, hj]; exact getElem?_split_fst _ _ _
    have hy : s.array[j + 1]? = some y := by
      rw [harr, hj]; exact getElem?_split_snd _ _ _ _
    rw [innerLoop, if_pos hc, if_neg (by simp [hs])]
    simp only [hx, hy]
    by_cases hgt : key x > key y
    · simp only [hgt, if_true]
      have hset : (s.array.set j y).set (j + 1) x = (l ++ [y]) ++ x :: (mid ++ suf) := by
        rw [harr, hj]
        exact (set_split_swap l (mid ++ suf) x y).trans (by simp)
      obtain ⟨l', m, h1, h2, h3, h4, h5, h6⟩ :=
        ih (l ++ [y]) x true
          { s with
            array := (s.array.set j y).set (j + 1) x
            swaps := s.swaps + 1
            arrayAccess := s.arrayAccess + 2 + 2
            comparisons := s.comparisons + 1
            frames := s.frames ++ [(s.array.set j y).set (j + 1) x] }
          n i (j + 1) hs hset (by simp; omega) hi (by simp; omega)
      refine ⟨l', m, h1, ?_, ?_, ?_, h5, ?_⟩
      · simp at h2 ⊢; omega
      · refine Relation.ReflTransGen.head ?_ h3
        show SwapStep key s.array ((s.array.set j y).set (j + 1) x)
        rw [hset, harr]
        simpa using SwapStep.mk l (mid ++ suf) x y hgt
      · intro hmax
        apply h4
        intro z hz
        rcases List.mem_append.1 hz with hz | hz
        · exact hmax z hz
        · simp at hz; subst hz; omega
      · intro hf
        have := (h6 hf).1
        simp at this
    · simp only [hgt, if_false]
      have harr2 : s.array = (l ++ [x]) ++ y :: (mid ++ suf) := by
        rw [harr]; simp
      obtain ⟨l', m, h1, h2, h3, h4, h5, h6⟩ :=
        ih (l ++ [x]) y sw
          { s with arrayAccess := s.arrayAccess + 2, comparisons := s.comparisons + 1 }
          n i (j + 1) hs harr2 (by simp; omega) hi (by simp; omega)
      refine ⟨l', m, h1, ?_, h3, ?_, h5, ?_⟩
      · simp at h2 ⊢; omega
      · intro hmax
        apply h4
        intro z hz
        rcases List.mem_append.1 hz with hz | hz
        · have := hmax z hz; omega
        · simp at hz; subst hz; omega
      · intro hf
        obtain ⟨hsw, ha, hasc⟩ := h6 hf
        refine ⟨hsw, ha, ?_⟩
        unfold Ascending at hasc ⊢
        rw [List.pairwise_cons] at hasc ⊢
        refine ⟨?_, List.pairwise_cons.2 hasc⟩
        intro b hb
        rcases List.mem_cons.1 hb with hb | hb
        · subst hb; omega
        · have := hasc.1 b hb; omega

theorem swapStep_perm (key : α → Int) {a b : List α} (h : SwapStep key a b) : a.Perm b := by
  cases h with
  | mk l r x y _ => exact List.Perm.append_left l (List.Perm.swap y x r)

theorem swapStep_stable (key : α → Int) {a b : List α} (h : SwapStep key a b) :
    StableWrt key a b := by
  cases h with
  | mk l r x y hxy =>
    intro k
    by_cases hx : key x = k
    · have hy : ¬ key y = k := by omega
      simp [List.filter_cons, hx, hy]
    · simp [List.filter_cons, hx]

theorem reach_perm (key : α → Int) {a b : List α}
    (h : Relation.ReflTransGen (SwapStep key) a b) : a.Perm b := by
  induction h with
  | refl => exact List.Perm.refl _
  | tail _ hstep ih => exact ih.trans (swapStep_perm key hstep)

theorem reach_stable (key : α → Int) {a b : List α}
    (h : Relation.ReflTransGen (SwapStep key) a b) : StableWrt key a b := by
  induction h with
  | refl => intro k; rfl
  | tail _ hstep ih => intro k; rw [swapStep_stable key hstep k, ih k]

theorem outerInv_init (key : α → Int) (s : Visualizer α) (hs : s.isSorting = true) :
    OuterInv key s.array.length 0 s :=
  ⟨hs, rfl, s.array, [], by simp, rfl, List.Pairwise.nil, by simp⟩

theorem pass_spec (key : α → Int) (n i : Nat) (s : Visualizer α)
    (hinv : OuterInv key n i s) (hlt : (i : Int) < (n : Int) - 1) :
    OuterInv key n (i + 1) (innerLoop key n i 0 false { s with currentPass := i + 1 }).1 ∧
    Relation.ReflTransGen (SwapStep key) s.array
      (innerLoop key n i 0 false { s with currentPass := i + 1 }).1.array ∧
    ((innerLoop key n i 0 false { s with currentPass := i + 1 }).2 = false →
      (innerLoop key n i 0 false { s with currentPass := i + 1 }).1.array = s.array ∧
      Ascending key s.array) := by
  obtain ⟨hs, hlen, pre, suf, harr, hsuf, hasc, hle⟩ := hinv
  have hpl : pre.length + suf.length = n := by rw [← hlen, harr]; simp
  cases pre with
  | nil => simp at hpl; omega
  | cons x mid =>
    simp only [List.length_cons] at hpl
    obtain ⟨l', m, h1, h2, h3, h4, h5, h6⟩ :=
      innerLoop_spec key suf mid [] x false { s with currentPass := i + 1 } n i 0
        hs (by simpa using harr) (by simp; omega) hsuf.symm rfl
    have hperm := reach_perm key h3
    rw [h1] at hperm
    have hperm2 : (x :: mid).Perm (l' ++ [m]) := by
      have : (x :: mid ++ suf).Perm ((l' ++ [m]) ++ suf) := by
        simpa [harr] using hperm
      exact (List.perm_append_right_iff suf).1 this
    refine ⟨⟨h5, ?_, l', m :: suf, h1, by simp [hsuf], ?_, ?_⟩, h3, ?_⟩
    · rw [h1]; simp at h2 ⊢; omega
    · refine List.pairwise_cons.2 ⟨?_, hasc⟩
      intro b hb
      exact hle m (hperm2.symm.subset (by simp)) b hb
    · intro a ha b hb
      rcases List.mem_cons.1 hb with hb | hb
      · subst hb; exact h4 (by simp) a ha
      · exact hle a (hperm2.symm.subset (by simp [ha])) b hb
    · intro hf
      obtain ⟨_, ha, hx⟩ := h6 hf
      refine ⟨ha, ?_⟩
      rw [harr]
      exact List.pairwise_append.2 ⟨hx, hasc, hle⟩

theorem outerLoop_spec (key : α → Int) (n : Nat) :
    ∀ (k i : Nat) (s : Visualizer α), n - i = k → OuterInv key n i s →
      Ascending key (outerLoop key n i s).array ∧
      Relation.ReflTransGen (SwapStep key) s.array (outerLoop key n i s).array := by
  intro k
  induction k using Nat.strong_induction_on with
  | _ k ih =>
    intro i s hk hinv
    by_cases hlt : (i : Int) < (n : Int) - 1
    · obtain ⟨hinv2, hreach, hexit⟩ := pass_spec key n i s hinv hlt
      rw [outerLoop, if_pos hlt, if_neg (by simp [hinv.1])]
      by_cases hsw : (innerLoop key n i 0 false { s with currentPass := i + 1 }).2 = false
      · simp only [hsw, if_true]
        obtain ⟨ha, hasc⟩ := hexit hsw
        exact ⟨by rw [ha]; exact hasc, hreach⟩
      · simp only [hsw, if_false]
        obtain ⟨h1, h2⟩ := ih (n - (i + 1)) (by omega) (i + 1) _ rfl hinv2
        exact ⟨h1, hreach.trans h2⟩
    · rw [outerLoop, if_neg hlt]
      refine ⟨?_, Relation.ReflTransGen.refl⟩
      obtain ⟨_, hlen, pre, suf, harr, hsuf, hasc, hle⟩ := hinv
      have hpl : pre.length + suf.length = n := by rw [← hlen, harr]; simp
      rw [harr]
      refine List.pairwise_append.2 ⟨?_, hasc, hle⟩
      match pre, hpl with
      | [], _ => exact List.Pairwise.nil
      | [a], _ => exact List.pairwise_singleton _ _
      | _ :: _ :: _, hpl => simp at hpl; omega

theorem startSort_spec (key : α → Int) (s : Visualizer α) (h : s.isSorting = false) :
    Ascending key (startSort key s).array ∧
    Relation.ReflTransGen (SwapStep key) s.array (startSort key s).array := by
  have := outerLoop_spec key s.array.length _ 0
    (resetStats { s with isSorting := true, isPaused := false }) rfl
    (outerInv_init key _ rfl)
  simpa [startSort, h, bubbleSort, resetStats] using this

theorem passStart_inv (key : α → Int) (s0 : Visualizer α) (h0 : s0.isSorting = true)
    {i : Nat} {s : Visualizer α} (h : PassStart key s0.array.length s0 i s) :
    OuterInv key s0.array.length i s := by
  induction h with
  | first => exact outerInv_init key s0 h0
  | next i s _ hlt _ _ ih => exact (pass_spec key _ i s ih hlt).1

theorem passStart_outerLoop (key : α → Int) (n : Nat) (s0 : Visualizer α)
    {i : Nat} {s : Visualizer α} (h : PassStart key n s0 i s) :
    outerLoop key n 0 s0 = outerLoop key n i s := by
  induction h with
  | first => rfl
  | next i s _ hlt hs hsw ih =>
    rw [ih]
    conv_lhs => rw [outerLoop, if_pos hlt, if_neg (by simp [hs])]
    simp [hsw]

theorem innerLoop_sorted (key : α → Int) (suf : List α) :
    ∀ (mid l : List α) (x : α) (sw : Bool) (s : Visualizer α) (n i j : Nat),
      s.isSorting = true → s.array = l ++ x :: (mid ++ suf) →
      n = l.length + 1 + mid.length + suf.length → i = suf.length → j = l.length →
      Ascending key (x :: mid) →
      innerLoop key n i j sw s =
        ({ s with arrayAccess := s.arrayAccess + 2 * mid.length,
                  comparisons := s.comparisons + mid.length }, sw) := by
  intro mid
  induction mid with
  | nil =>
    intro l x sw s n i j hs harr hn hi hj _
    have hc : ¬ ((j : Int) < (n : Int) - (i : Int) - 1) := by
      simp only [List.length_nil] at hn; omega
    rw [innerLoop, if_neg hc]
    simp
  | cons y mid ih =>
    intro l x sw s n i j hs harr hn hi hj hasc
    simp only [List.length_cons] at hn
    have hc : (j : Int) < (n : Int) - (i : Int) - 1 := by omega
    have hx : s.array[j]? = some x := by
      rw [harr, hj]; exact getElem?_split_fst _ _ _
    have hy : s.array[j + 1]? = some y := by
      rw [harr, hj]; exact getElem?_split_snd _ _ _ _
    have hxy : ¬ key x > key y := by
      have := (List.pairwise_cons.1 hasc).1 y (by simp)
      omega
    rw [innerLoop, if_pos hc, if_neg (by simp [hs])]
    simp only [hx, hy, hxy, if_false]
    rw [ih (l ++ [x]) y sw
      { s with arrayAccess := s.arrayAccess + 2, comparisons := s.comparisons + 1 }
      n i (j + 1) hs (by rw [harr]; simp) (by simp; omega) hi
      (by simp; omega) (List.pairwise_cons.1 hasc).2]
    simp only [List.length_cons, Prod.mk.injEq, and_true]
    congr 1 <;> omega

/-- C1: for every integer array (of any length, so in particular of length 0
to 20), a bubble sort started by `startSort` while no sort is running and run
to completion leaves `array` sorted ascending and a permutation of the input,
that is, equal to the ascending sort of the input. -/
theorem bubbleSort_sorts_input (s : Visualizer Int) (h : s.isSorting = false) :
    List.Sorted (· ≤ ·) (startSort id s).array ∧
    (startSort id s).array.Perm s.array ∧
    (startSort id s).array = List.insertionSort (· ≤ ·) s.array := by
  obtain ⟨hasc, hreach⟩ := startSort_spec id s h
  have hsorted : List.Sorted (· ≤ ·) (startSort id s).array := hasc
  have hperm : (startSort id s).array.Perm s.array := (reach_perm id hreach).symm
  exact ⟨hsorted, hperm,
    List.eq_of_perm_of_sorted (hperm.trans (List.perm_insertionSort _ _).symm) hsorted
      (List.sorted_insertionSort _ _)⟩

theorem bubbleSort_sorts_input_witness :
    (ready [3, 1, 2] : Visualizer Int).isSorting = false ∧
    (List.Sorted (· ≤ ·) (startSort id (ready [3, 1, 2])).array ∧
    (startSort id (ready [3, 1, 2])).array.Perm (ready [3, 1, 2] : Visualizer Int).array ∧
    (startSort id (ready [3, 1, 2])).array =
      List.insertionSort (· ≤ ·) (ready [3, 1, 2] : Visualizer Int).array) :=
  ⟨rfl, bubbleSort_sorts_input (ready [3, 1, 2]) rfl⟩

/-- C5: in a run of the outer loop from any state with `isSorting` raised,
whenever a pass ends with `swapped = false` at the early-exit test, the whole
array is in ascending order at that moment (stated for any key function; the
source is the instance `key = id` on integers). -/
theorem bubble_early_exit_sorted (key : α → Int) (s0 : Visualizer α)
    (h0 : s0.isSorting = true) (i : Nat) (s : Visualizer α)
    (hreach : PassStart key s0.array.length s0 i s)
    (hlt : (i : Int) < (s0.array.length : Int) - 1)
    (hsw : (innerLoop key s0.array.length i 0 false { s with currentPass := i + 1 }).2 = false) :
    Ascending key
      (innerLoop key s0.array.length i 0 false { s with currentPass := i + 1 }).1.array := by
  obtain ⟨ha, hasc⟩ := (pass_spec key _ i s (passStart_inv key s0 h0 hreach) hlt).2.2 hsw
  rw [ha]; exact hasc

theorem bubble_early_exit_sorted_witness :
    PassStart id 3 (sorting [2, 1, 3]) 1
      (innerLoop id 3 0 0 false { sorting [2, 1, 3] with currentPass := 0 + 1 }).1 ∧
    (innerLoop id 3 1 0 false
      { (innerLoop id 3 0 0 false { sorting [2, 1, 3] with currentPass := 0 + 1 }).1 with
        currentPass := 1 + 1 }).2 = false ∧
    Ascending id (innerLoop id 3 1 0 false
      { (innerLoop id 3 0 0 false { sorting [2, 1, 3] with currentPass := 0 + 1 }).1 with
        currentPass := 1 + 1 }).1.array :=
  have hp : PassStart id 3 (sorting [2, 1, 3]) 1
      (innerLoop id 3 0 0 false { sorting [2, 1, 3] with currentPass := 0 + 1 }).1 :=
    PassStart.next 0 (sorting [2, 1, 3]) PassStart.first (by decide) rfl
      (by simp [innerLoop, sorting, ready, resetStats])
  have hsw : (innerLoop id 3 1 0 false
      { (innerLoop id 3 0 0 false { sorting [2, 1, 3] with currentPass := 0 + 1 }).1 with
        currentPass := 1 + 1 }).2 = false := by
    simp [innerLoop, sorting, ready, resetStats]
  ⟨hp, hsw, bubble_early_exit_sorted id (sorting [2, 1, 3]) rfl 1 _ hp (by decide) hsw⟩

/-- C6 (amended): on an already-sorted integer array of length at least 2,
bubble sort runs exactly one pass (`currentPass` ends at 1) with zero swaps and
`length - 1` comparisons, and leaves the array as it was; on a shorter array no
pass runs at all (`currentPass`, `swaps` and `comparisons` all end at 0). -/
theorem bubble_sorted_input_one_pass (s : Visualizer Int) (h : s.isSorting = false)
    (hsorted : List.Sorted (· ≤ ·) s.array) :
    (2 ≤ s.array.length →
      (startSort id s).currentPass = 1 ∧ (startSort id s).swaps = 0 ∧
      (startSort id s).comparisons = s.array.length - 1 ∧
      (startSort id s).array = s.array) ∧
    (s.array.length < 2 →
      (startSort id s).currentPass = 0 ∧ (startSort id s).swaps = 0 ∧
      (startSort id s).comparisons = 0 ∧ (startSort id s).array = s.array) := by
  constructor
  · intro hlen
    obtain ⟨x, mid, harr⟩ : ∃ x mid, s.array = x :: mid := by
      cases hs : s.array with
      | nil => simp [hs] at hlen
      | cons x mid => exact ⟨x, mid, rfl⟩
    have hlt : ((0 : Nat) : Int) < ((s.array.length : Nat) : Int) - 1 := by omega
    have hmid : s.array.length = mid.length + 1 := by simp [harr]
    have hin := innerLoop_sorted id [] mid [] x false
      { resetStats { s with isSorting := true, isPaused := false } with currentPass := 0 + 1 }
      s.array.length 0 0 rfl (by simp [resetStats, harr]) (by simp; omega) rfl rfl
      (by rw [harr] at hsorted; exact hsorted)
    simp only [startSort, h, bubbleSort, resetStats]
    rw [outerLoop, if_pos hlt]
    simp only [resetStats, hmid, Nat.zero_add] at hin
    simp [hin, hmid]
  · intro hlen
    have hge : ¬ (((0 : Nat) : Int) < ((s.array.length : Nat) : Int) - 1) := by omega
    simp only [startSort, h, bubbleSort, resetStats]
    rw [outerLoop, if_neg hge]
    simp

theorem bubble_sorted_input_one_pass_witness :
    (ready [1, 2, 2, 5] : Visualizer Int).isSorting = false ∧
    List.Sorted (· ≤ ·) (ready [1, 2, 2, 5] : Visualizer Int).array ∧
    (startSort id (ready [1, 2, 2, 5])).currentPass = 1 ∧
    (startSort id (ready [1, 2, 2, 5])).swaps = 0 ∧
    (startSort id (ready [1, 2, 2, 5])).comparisons = 3 :=
  have hs : List.Sorted (· ≤ ·) (ready [1, 2, 2, 5] : Visualizer Int).array := by
    simp [ready, List.Sorted]
  have h := (bubble_sorted_input_one_pass (ready [1, 2, 2, 5]) rfl hs).1 (by simp [ready])
  ⟨rfl, hs, h.1, h.2.1, h.2.2.1⟩

/-- C6 as stated fails on a one-element array: `[7]` is sorted, yet no pass
runs and `currentPass` ends at 0, not 1. -/
theorem bubble_sorted_input_one_pass_counterexample :
    List.Sorted (· ≤ ·) ([7] : List Int) ∧
    (startSort id (ready [7])).currentPass = 0 ∧
    (startSort id (ready [7])).currentPass ≠ 1 := by
  simp [startSort, ready, resetStats, bubbleSort, outerLoop]

/-- C7 (amended): bubble sort on `[5,3,4,1]` runs three passes, draws the
arrays `[3,5,4,1]`, `[3,4,5,1]`, `[3,4,1,5]`, `[3,1,4,5]`, `[1,3,4,5]` after
its successive swaps, and ends with array `[1,3,4,5]` and a swaps counter
equal to 5. -/
theorem bubble_scenario_5341 :
    (startSort id (ready [5, 3, 4, 1])).frames =
      [[3, 5, 4, 1], [3, 4, 5, 1], [3, 4, 1, 5], [3, 1, 4, 5], [1, 3, 4, 5]] ∧
    (startSort id (ready [5, 3, 4, 1])).array = [1, 3, 4, 5] ∧
    (startSort id (ready [5, 3, 4, 1])).currentPass = 3 ∧
    (startSort id (ready [5, 3, 4, 1])).swaps = 5 := by
  simp [startSort, ready, resetStats, bubbleSort, outerLoop, innerLoop]

/-- C7 as stated fails: on `[5,3,4,1]` the swaps counter does not end at 4. -/
theorem bubble_scenario_5341_counterexample :
    (startSort id (ready [5, 3, 4, 1])).swaps ≠ 4 := by
  simp [startSort, ready, resetStats, bubbleSort, outerLoop, innerLoop]

/-- C8: bubble sort is stable.  For elements of any type compared through
`key` only, the output of a completed run is ascending by key, is reached from
the input by exchanges of neighbours whose keys are strictly out of order (a
pair with equal keys is never swapped), and for every key value the elements
with that key keep the relative order they had in the input. -/
theorem bubbleSort_stable (key : α → Int) (s : Visualizer α) (h : s.isSorting = false) :
    Ascending key (startSort key s).array ∧
    Relation.ReflTransGen (SwapStep key) s.array (startSort key s).array ∧
    StableWrt key s.array (startSort key s).array := by
  obtain ⟨hasc, hreach⟩ := startSort_spec key s h
  exact ⟨hasc, hreach, reach_stable key hreach⟩

theorem bubbleSort_stable_witness :
    (ready [(2, 0), (1, 1), (2, 2), (1, 3)] : Visualizer (Int × Nat)).isSorting = false ∧
    StableWrt Prod.fst (ready [(2, 0), (1, 1), (2, 2), (1, 3)] : Visualizer (Int × Nat)).array
      (startSort Prod.fst (ready [(2, 0), (1, 1), (2, 2), (1, 3)])).array :=
  ⟨rfl, (bubbleSort_stable Prod.fst (ready [(2, 0), (1, 1), (2, 2), (1, 3)]) rfl).2.2⟩

end BubbleSort

namespace InsertionSort

open Sorting

variable {α : Type}

theorem shiftLoop_spec (key : α → Int) (k : α) :
    ∀ (l : List α) (x0 : α) (rest : List α) (s : Visualizer α) (j : Int),
      s.isSorting = true → s.array = l ++ x0 :: rest → j = (l.length : Int) - 1 →
      ∃ l1 l2 x1, l = l1 ++ l2 ∧ (∀ z ∈ l2, key z > key k) ∧
        (l1 = [] ∨ ∃ l0 z, l1 = l0 ++ [z] ∧ key z ≤ key k) ∧
        (shiftLoop key k j s).2 = (l1.length : Int) - 1 ∧
        (shiftLoop key k j s).1.array = l1 ++ x1 :: (l2 ++ rest) ∧
        (shiftLoop key k j s).1.isSorting = true := by
  intro l
  induction l using List.reverseRecOn with
  | nil =>
    intro x0 rest s j hs harr hj
    have hc : ¬ (0 ≤ j) := by simp at hj; omega
    rw [shiftLoop, if_neg hc]
    exact ⟨[], [], x0, rfl, by simp, Or.inl rfl, by simpa using hj, by simpa using harr, hs⟩
  | append_singleton l0 y ih =>
    intro x0 rest s j hs harr hj
    have hj' : j = (l0.length : Int) := by simp at hj; omega
    have hc : 0 ≤ j := by omega
    have harr' : s.array = l0 ++ y :: x0 :: rest := by rw [harr]; simp
    have hy : s.array[j.toNat]? = some y := by
      rw [harr', hj']; exact getElem?_split_fst _ _ _
    rw [shiftLoop, if_pos hc, if_neg (by simp [hs])]
    simp only [hy]
    by_cases hgt : key y > key k
    · simp only [hgt, if_true]
      have hset : s.array.set (j + 1).toNat y = l0 ++ y :: (y :: rest) := by
        rw [harr', hj']
        exact set_split_snd l0 rest y x0 y
      obtain ⟨l1, l2, x1, h1, h2, h3, h4, h5, h6⟩ :=
        ih y (y :: rest)
          { s with
            array := s.array.set (j + 1).toNat y
            shifts := s.shifts + 1
            arrayAccess := s.arrayAccess + 1 + 2
            comparisons := s.comparisons + 1 }
          (j - 1) hs hset (by omega)
      refine ⟨l1, l2 ++ [y], x1, by rw [h1]; simp, ?_, h3, h4, ?_, h6⟩
      · intro z hz
        rcases List.mem_append.1 hz with hz | hz
        · exact h2 z hz
        · simp at hz; subst hz; exact hgt
      · rw [h5]; simp
    · simp only [hgt, if_false]
      refine ⟨l0 ++ [y], [], x0, by simp, by simp, Or.inr ⟨l0, y, rfl, by omega⟩, ?_, ?_, hs⟩
      · simp; omega
      · simpa using harr

theorem insertStep_perm (key : α → Int) {a b : List α} (h : InsertStep key a b) : a.Perm b := by
  cases h with
  | mk l1 l2 rest k _ =>
    rw [List.append_assoc]
    refine List.Perm.append_left l1 ?_
    rw [← List.cons_append]
    exact (List.perm_middle).trans (List.Perm.refl _) |>.trans (by simp)

theorem insertStep_stable (key : α → Int) {a b : List α} (h : InsertStep key a b) :
    StableWrt key a b := by
  cases h with
  | mk l1 l2 rest k hgt =>
    intro c
    by_cases hk : key k = c
    · have hl2 : l2.filter (fun e => decide (key e = c)) = [] := by
        rw [List.filter_eq_nil_iff]
        intro z hz
        have := hgt z hz
        simp; omega
      simp [List.filter_cons, hk, hl2]
    · simp [List.filter_cons, hk]

theorem insert_reach_perm (key : α → Int) {a b : List α}
    (h : Relation.ReflTransGen (InsertStep key) a b) : a.Perm b := by
  induction h with
  | refl => exact List.Perm.refl _
  | tail _ hstep ih => exact ih.trans (insertStep_perm key hstep)

theorem insert_reach_stable (key : α → Int) {a b : List α}
    (h : Relation.ReflTransGen (InsertStep key) a b) : StableWrt key a b := by
  induction h with
  | refl => intro k; rfl
  | tail _ hstep ih => intro k; rw [insertStep_stable key hstep k, ih k]

theorem ascending_insert (key : α → Int) (l1 l2 : List α) (k : α)
    (hasc : Ascending key (l1 ++ l2)) (h2 : ∀ z ∈ l2, key z > key k)
    (h1 : l1 = [] ∨ ∃ l0 z, l1 = l0 ++ [z] ∧ key z ≤ key k) :
    Ascending key (l1 ++ k :: l2) := by
  unfold Ascending at hasc ⊢
  obtain ⟨hp1, hp2, hp12⟩ := List.pairwise_append.1 hasc
  have hle : ∀ a ∈ l1, key a ≤ key k := by
    rcases h1 with h1 | ⟨l0, z, h1, hz⟩
    · subst h1; simp
    · subst h1
      intro a ha
      rcases List.mem_append.1 ha with ha | ha
      · have := (List.pairwise_append.1 hp1).2.2 a ha z (by simp)
        omega
      · simp at ha; subst ha; exact hz
  refine List.pairwise_append.2 ⟨hp1, List.pairwise_cons.2 ⟨?_, hp2⟩, ?_⟩
  · intro b hb
    have := h2 b hb
    omega
  · intro a ha b hb
    rcases List.mem_cons.1 hb with hb | hb
    · subst hb; exact hle a ha
    · exact hp12 a ha b hb

theorem mainLoop_spec (key : α → Int) (n : Nat) :
    ∀ (post pre : List α) (s : Visualizer α) (i : Nat),
      s.isSorting = true → s.array = pre ++ post → i = pre.length → n = pre.length + post.length →
      Ascending key pre →
      Ascending key (mainLoop key n i s).array ∧
      Relation.ReflTransGen (InsertStep key) s.array (mainLoop key n i s).array := by
  intro post
  induction post with
  | nil =>
    intro pre s i hs harr hi hn hasc
    have hc : ¬ (i < n) := by simp at hn; omega
    rw [mainLoop, if_neg hc]
    exact ⟨by rw [harr]; simpa using hasc, Relation.ReflTransGen.refl⟩
  | cons k post ih =>
    intro pre s i hs harr hi hn hasc
    simp only [List.length_cons] at hn
    have hc : i < n := by omega
    have hk : s.array[i]? = some k := by
      rw [harr, hi]; exact getElem?_split_fst _ _ _
    obtain ⟨l1, l2, x1, h1, h2, h3, h4, h5, h6⟩ :=
      shiftLoop_spec key k pre k post
        { s with currentKey := some k, arrayAccess := s.arrayAccess + 1 }
        ((i : Int) - 1) hs harr (by omega)
    rw [mainLoop, if_pos hc, if_neg (by simp [hs])]
    simp only [hk]
    have hset : (shiftLoop key k ((i : Int) - 1)
          { s with currentKey := some k, arrayAccess := s.arrayAccess + 1 }).1.array.set
        ((shiftLoop key k ((i : Int) - 1)
          { s with currentKey := some k, arrayAccess := s.arrayAccess + 1 }).2 + 1).toNat k
        = (l1 ++ k :: l2) ++ post := by
      rw [h5, h4]
      have : ((l1.length : Int) - 1 + 1).toNat = l1.length := by omega
      rw [this, set_split_fst]
      simp
    obtain ⟨r1, r2⟩ := ih (l1 ++ k :: l2)
      { (shiftLoop key k ((i : Int) - 1)
          { s with currentKey := some k, arrayAccess := s.arrayAccess + 1 }).1 with
        array := (shiftLoop key k ((i : Int) - 1)
          { s with currentKey := some k, arrayAccess := s.arrayAccess + 1 }).1.array.set
            ((shiftLoop key k ((i : Int) - 1)
              { s with currentKey := some k, arrayAccess := s.arrayAccess + 1 }).2 + 1).toNat k
        arrayAccess := (shiftLoop key k ((i : Int) - 1)
          { s with currentKey := some k, arrayAccess := s.arrayAccess + 1 }).1.arrayAccess + 1 }
      (i + 1) h6 hset (by rw [hi, h1]; simp; omega) (by rw [hn, h1]; simp; omega)
      (ascending_insert key l1 l2 k (h1 ▸ hasc) h2 h3)
    refine ⟨r1, Relation.ReflTransGen.head ?_ r2⟩
    show InsertStep key s.array _
    rw [hset, harr, h1]
    simpa using InsertStep.mk l1 l2 post k h2

theorem insertion_startSort_spec (key : α → Int) (s : Visualizer α) (h : s.isSorting = false) :
    Ascending key (startSort key s).array ∧
    Relation.ReflTransGen (InsertStep key) s.array (startSort key s).array := by
  cases harr : s.array with
  | nil =>
    have hc : ¬ (1 < 0) := by omega
    simp [startSort, h, insertionSort, resetStats, harr, mainLoop, Ascending]
    exact Relation.ReflTransGen.refl
  | cons a post =>
    have := mainLoop_spec key s.array.length post [a]
      (resetStats { s with isSorting := true, isPaused := false }) 1 rfl
      (by simp [resetStats, harr]) rfl (by simp [harr]; omega) (List.pairwise_singleton _ _)
    simpa [startSort, h, insertionSort, resetStats, harr] using this

/-- C2: for every integer array (of any length, so in particular of length 0
to 20), an insertion sort started by `startSort` while no sort is running and
run to completion leaves `array` sorted ascending and a permutation of the
input, that is, equal to the ascending sort of the input. -/
theorem insertionSort_sorts_input (s : Visualizer Int) (h : s.isSorting = false) :
    List.Sorted (· ≤ ·) (startSort id s).array ∧
    (startSort id s).array.Perm s.array ∧
    (startSort id s).array = List.insertionSort (· ≤ ·) s.array := by
  obtain ⟨hasc, hreach⟩ := insertion_startSort_spec id s h
  have hsorted : List.Sorted (· ≤ ·) (startSort id s).array := hasc
  have hperm : (startSort id s).array.Perm s.array := (insert_reach_perm id hreach).symm
  exact ⟨hsorted, hperm,
    List.eq_of_perm_of_sorted (hperm.trans (List.perm_insertionSort _ _).symm) hsorted
      (List.sorted_insertionSort _ _)⟩

theorem insertionSort_sorts_input_witness :
    (ready [3, 1, 2] : Visualizer Int).isSorting = false ∧
    (List.Sorted (· ≤ ·) (startSort id (ready [3, 1, 2])).array ∧
    (startSort id (ready [3, 1, 2])).array.Perm (ready [3, 1, 2] : Visualizer Int).array ∧
    (startSort id (ready [3, 1, 2])).array =
      List.insertionSort (· ≤ ·) (ready [3, 1, 2] : Visualizer Int).array) :=
  ⟨rfl, insertionSort_sorts_input (ready [3, 1, 2]) rfl⟩

/-- C9: insertion sort is stable.  For elements of any type compared through
`key` only, the output of a completed run is ascending by key, is reached from
the input by moves of a key element to the left over elements whose keys are
all strictly greater (the key is never shifted past an element equal to it),
and for every key value the elements with that key keep the relative order
they had in the input. -/
theorem insertionSort_stable (key : α → Int) (s : Visualizer α) (h : s.isSorting = false) :
    Ascending key (startSort key s).array ∧
    Relation.ReflTransGen (InsertStep key) s.array (startSort key s).array ∧
    StableWrt key s.array (startSort key s).array := by
  obtain ⟨hasc, hreach⟩ := insertion_startSort_spec key s h
  exact ⟨hasc, hreach, insert_reach_stable key hreach⟩

theorem insertionSort_stable_witness :
    (ready [(2, 0), (1, 1), (2, 2), (1, 3)] : Visualizer (Int × Nat)).isSorting = false ∧
    StableWrt Prod.fst (ready [(2, 0), (1, 1), (2, 2), (1, 3)] : Visualizer (Int × Nat)).array
      (startSort Prod.fst (ready [(2, 0), (1, 1), (2, 2), (1, 3)])).array :=
  ⟨rfl, (insertionSort_stable Prod.fst (ready [(2, 0), (1, 1), (2, 2), (1, 3)]) rfl).2.2⟩

end InsertionSort

namespace QuickSort

open Sorting

variable {α : Type}

theorem getAt_split (A B : List α) (x : α) (k : Int) (hk : k = (A.length : Int)) :
    getAt (A ++ x :: B) k = some x := by
  subst hk
  simp only [getAt, Int.toNat_ofNat, Int.natCast_nonneg, if_true]
  exact getElem?_split_fst _ _ _

theorem swapAt_split (A B C : List α) (z y : α) (i j : Int) (hi : i = (A.length : Int))
    (hj : j = (A.length : Int) + 1 + (B.length : Int)) :
    swapAt (A ++ z :: (B ++ y :: C)) i j = A ++ y :: (B ++ z :: C) := by
  have h1 : getAt (A ++ z :: (B ++ y :: C)) i = some z := getAt_split _ _ _ _ hi
  have h2 : getAt (A ++ z :: (B ++ y :: C)) j = some y := by
    have e : A ++ z :: (B ++ y :: C) = (A ++ z :: B) ++ y :: C := by simp
    rw [e]
    exact getAt_split _ _ _ _ (by simp; omega)
  have hi' : i.toNat = A.length := by omega
  have hj' : j.toNat = (A ++ y :: B).length := by simp; omega
  simp only [swapAt, h1, h2]
  rw [hi', set_split_fst, hj']
  have e : A ++ y :: (B ++ y :: C) = (A ++ y :: B) ++ y :: C := by simp
  rw [e, set_split_fst]
  simp

theorem partitionLoop_spec (key : α → Int) (pivot : α) (pre post : List α) (high : Int) :
    ∀ (rest small large : List α) (s : Visualizer α) (i j : Int),
      s.isSorting = true →
      s.array = pre ++ (small ++ (large ++ (rest ++ pivot :: post))) →
      i = (pre.length : Int) + small.length - 1 →
      j = (pre.length : Int) + small.length + large.length →
      high = j + rest.length →
      (∀ z ∈ small, key z < key pivot) → (∀ z ∈ large, key pivot ≤ key z) →
      ∃ small' large',
        (partitionLoop key pivot high j i s).2 =
          some ((pre.length : Int) + small'.length - 1) ∧
        (partitionLoop key pivot high j i s).1.array =
          pre ++ (small' ++ (large' ++ pivot :: post)) ∧
        (small' ++ large').Perm (small ++ large ++ rest) ∧
        (∀ z ∈ small', key z < key pivot) ∧ (∀ z ∈ large', key pivot ≤ key z) ∧
        (partitionLoop key pivot high j i s).1.isSorting = true := by
  intro rest
  induction rest with
  | nil =>
    intro small large s i j hs harr hi hj hh hsm hlg
    have hc : ¬ (j < high) := by simp at hh; omega
    rw [partitionLoop, if_neg hc]
    exact ⟨small, large, by simp [hi], by simpa using harr, by simp, hsm, hlg, hs⟩
  | cons y rest ih =>
    intro small large s i j hs harr hi hj hh hsm hlg
    simp only [List.length_cons, Nat.cast_add, Nat.cast_one] at hh
    have hc : j < high := by omega
    have hy : getAt s.array j = some y := by
      have e : s.array = (pre ++ small ++ large) ++ y :: (rest ++ pivot :: post) := by
        rw [harr]; simp
      rw [e]
      exact getAt_split _ _ _ _ (by simp; omega)
    rw [partitionLoop, if_pos hc, if_neg (by simp [hs])]
    simp only [hy]
    by_cases hlt : key y < key pivot
    · simp only [hlt, if_true]
      cases large with
      | nil =>
        have hij : ¬ (i + 1 ≠ j) := by simp at hj; omega
        rw [if_neg hij]
        obtain ⟨small', large', h1, h2, h3, h4, h5, h6⟩ :=
          ih (small ++ [y]) []
            { s with comparisons := s.comparisons + 1, arrayAccess := s.arrayAccess + 1 }
            (i + 1) (j + 1) hs (by rw [harr]; simp) (by simp; omega) (by simp at hj ⊢; omega)
            (by omega)
            (by
              intro z hz
              rcases List.mem_append.1 hz with hz | hz
              · exact hsm z hz
              · simp at hz; subst hz; exact hlt)
            (by simp)
        refine ⟨small', large', h1, h2, ?_, h4, h5, h6⟩
        exact h3.trans (by simp)
      | cons z large =>
        have hij : i + 1 ≠ j := by simp at hj; omega
        rw [if_pos hij]
        have hswap : swapAt s.array (i + 1) j =
            pre ++ ((small ++ [y]) ++ ((large ++ [z]) ++ (rest ++ pivot :: post))) := by
          have e : s.array = (pre ++ small) ++ z :: (large ++ y :: (rest ++ pivot :: post)) := by
            rw [harr]; simp
          rw [e, swapAt_split _ _ _ _ _ _ _ (by simp; omega) (by simp at hj ⊢; omega)]
          simp
        obtain ⟨small', large', h1, h2, h3, h4, h5, h6⟩ :=
          ih (small ++ [y]) (large ++ [z])
            { s with
              array := swapAt s.array (i + 1) j
              swaps := s.swaps + 1
              arrayAccess := s.arrayAccess + 1 + 2
              comparisons := s.comparisons + 1 }
            (i + 1) (j + 1) hs hswap (by simp; omega) (by simp at hj ⊢; omega)
            (by omega)
            (by
              intro w hw
              rcases List.mem_append.1 hw with hw | hw
              · exact hsm w hw
              · simp at hw; subst hw; exact hlt)
            (by
              intro w hw
              rcases List.mem_append.1 hw with hw | hw
              · exact hlg w (by simp [hw])
              · simp at hw; subst hw; exact hlg w (by simp))
        refine ⟨small', large', h1, h2, ?_, h4, h5, h6⟩
        refine h3.trans ?_
        simp only [List.append_assoc, List.singleton_append, List.cons_append]
        refine List.Perm.append_left small ?_
        have p1 : (y :: (large ++ z :: rest)).Perm (y :: z :: (large ++ rest)) :=
          List.Perm.cons y List.perm_middle
        have p2 : (z :: (large ++ y :: rest)).Perm (z :: y :: (large ++ rest)) :=
          List.Perm.cons z List.perm_middle
        exact p1.trans ((List.Perm.swap z y _).trans p2.symm)
    · simp only [hlt, if_false]
      obtain ⟨small', large', h1, h2, h3, h4, h5, h6⟩ :=
        ih small (large ++ [y])
          { s with comparisons := s.comparisons + 1, arrayAccess := s.arrayAccess + 1 }
          i (j + 1) hs (by rw [harr]; simp) hi (by simp; omega) (by omega) hsm
          (by
            intro w hw
            rcases List.mem_append.1 hw with hw | hw
            · exact hlg w hw
            · simp at hw; subst hw; omega)
      refine ⟨small', large', h1, h2, ?_, h4, h5, h6⟩
      exact h3.trans (by simp)

theorem partition_spec (key : α → Int) (pivot : α) (pre seg post : List α)
    (s : Visualizer α) (low high : Int)
    (hs : s.isSorting = true) (harr : s.array = pre ++ (seg ++ pivot :: post))
    (hlow : low = (pre.length : Int)) (hhigh : high = (pre.length : Int) + seg.length) :
    ∃ small large,
      (partition key low high s).2 = (pre.length : Int) + small.length ∧
      (partition key low high s).1.array = pre ++ (small ++ pivot :: (large ++ post)) ∧
      (small ++ large).Perm seg ∧
      (∀ z ∈ small, key z < key pivot) ∧ (∀ z ∈ large, key pivot ≤ key z) ∧
      (partition key low high s).1.isSorting = true := by
  have hp : getAt s.array high = some pivot := by
    have e : s.array = (pre ++ seg) ++ pivot :: post := by rw [harr]; simp
    rw [e]
    exact getAt_split _ _ _ _ (by simp; omega)
  obtain ⟨small, large, h1, h2, h3, h4, h5, h6⟩ :=
    partitionLoop_spec key pivot pre post high seg [] []
      { s with arrayAccess := s.arrayAccess + 1 } (low - 1) low hs
      (by simpa using harr) (by simp; omega) (by simp; omega) (by omega) (by simp) (by simp)
  rw [partition, if_neg (by simp [hs])]
  simp only [hp, h1]
  have hperm : (small ++ large).Perm seg := by simpa using h3
  have hlen : small.length + large.length = seg.length := by
    have := hperm.length_eq
    simpa using this
  cases large with
  | nil =>
    have hne : ¬ ((pre.length : Int) + small.length - 1 + 1 ≠ high) := by
      simp at hlen; omega
    rw [if_neg hne]
    exact ⟨small, [], by simp, by simpa using h2, hperm, h4, h5, h6⟩
  | cons z large =>
    have hne : (pre.length : Int) + small.length - 1 + 1 ≠ high := by
      simp at hlen; omega
    rw [if_pos hne]
    refine ⟨small, large ++ [z], by simp, ?_, ?_, h4, ?_, h6⟩
    · simp only []
      rw [h2]
      have e : pre ++ (small ++ (z :: large ++ pivot :: post)) =
          (pre ++ small) ++ z :: (large ++ pivot :: post) := by simp
      rw [e, swapAt_split _ _ _ _ _ _ _ (by simp) (by simp at hlen ⊢; omega)]
      simp
    · refine List.Perm.trans ?_ hperm
      refine List.Perm.append_left small ?_
      exact (List.perm_append_singleton z large)
    · intro w hw
      rcases List.mem_append.1 hw with hw | hw
      · exact h5 w (by simp [hw])
      · simp at hw; subst hw; exact h5 w (by simp)

theorem ascending_of_length_le_one (key : α → Int) (l : List α) (h : l.length ≤ 1) :
    Ascending key l := by
  match l, h with
  | [], _ => exact List.Pairwise.nil
  | [a], _ => exact List.pairwise_singleton _ _
  | _ :: _ :: _, h => simp at h

theorem sortedSeg_leaveCall (key : α → Int) {pre seg post : List α} {t : Visualizer α}
    (h : SortedSeg key pre seg post t) : SortedSeg key pre seg post (leaveCall t) := h

theorem quickSort_spec (key : α → Int) :
    ∀ (m : Nat) (seg pre post : List α) (s : Visualizer α) (low high : Int),
      seg.length = m → s.isSorting = true → s.array = pre ++ (seg ++ post) →
      low = (pre.length : Int) → high = (pre.length : Int) + seg.length - 1 →
      SortedSeg key pre seg post (quickSort key low high s) := by
  intro m
  induction m using Nat.strong_induction_on with
  | _ m ih =>
    intro seg pre post s low high hm hs harr hlow hhigh
    by_cases hle : seg.length ≤ 1
    · have hc : s.isSorting = false ∨ low ≥ high := Or.inr (by omega)
      rw [quickSort, dif_pos hc]
      exact ⟨seg, harr, List.Perm.refl _, ascending_of_length_le_one key seg hle, hs⟩
    · have hc : ¬ (s.isSorting = false ∨ low ≥ high) := by
        simp only [hs, Bool.true_eq_false, false_or]; omega
      obtain ⟨seg0, pivot, hseg⟩ : ∃ seg0 pivot, seg = seg0 ++ [pivot] := by
        rcases List.eq_nil_or_concat seg with h | ⟨l, a, h⟩
        · subst h; simp at hle
        · exact ⟨l, a, by simpa using h⟩
      subst hseg
      simp only [List.length_append, List.length_singleton] at hm hhigh hle
      rw [quickSort, dif_neg hc]
      simp only []
      obtain ⟨small, large, p1, p2, p3, p4, p5, p6⟩ :=
        partition_spec key pivot pre seg0 post (enterCall s) low high hs
          (by simp [enterCall, harr]) hlow (by push_cast at hhigh; omega)
      have hlen : small.length + large.length = seg0.length := by
        simpa using p3.length_eq
      generalize partition key low high (enterCall s) = r at p1 p2 p6 ⊢
      rw [dif_pos ⟨p6, by rw [p1]; omega⟩]
      refine sortedSeg_leaveCall key ?_
      -- the left side of the pivot
      have hL : SortedSeg key pre small (pivot :: (large ++ post))
          (if _ : r.2 - 1 > low then quickSort key low (r.2 - 1) r.1 else r.1) := by
        split
        · exact ih small.length (by omega) small pre (pivot :: (large ++ post)) _ low _ rfl p6 p2
            hlow (by rw [p1])
        · rename_i hl
          rw [p1] at hl
          exact ⟨small, p2, List.Perm.refl _,
            ascending_of_length_le_one key small (by omega), p6⟩
      generalize (if _ : r.2 - 1 > low then quickSort key low (r.2 - 1) r.1 else r.1) = sL
        at hL ⊢
      obtain ⟨small', q1, q2, q3, q4⟩ := hL
      have q1' : sL.array = (pre ++ (small' ++ [pivot])) ++ (large ++ post) := by
        rw [q1]; simp
      have hsl : small'.length = small.length := q2.length_eq
      -- the right side of the pivot
      have hR : SortedSeg key (pre ++ (small' ++ [pivot])) large post
          (if _ : r.2 + 1 < high then quickSort key (r.2 + 1) high sL else sL) := by
        split
        · exact ih large.length (by omega) large (pre ++ (small' ++ [pivot])) post sL _ high rfl
            q4 q1' (by rw [p1]; simp; omega) (by simp; omega)
        · rename_i hr
          rw [p1] at hr
          exact ⟨large, q1', List.Perm.refl _,
            ascending_of_length_le_one key large (by omega), q4⟩
      obtain ⟨large', r1, r2, r3, r4⟩ := hR
      refine ⟨small' ++ pivot :: large', by rw [r1]; simp, ?_, ?_, r4⟩
      · have : (small' ++ pivot :: large').Perm (small ++ pivot :: large) :=
          List.Perm.append q2 (List.Perm.cons pivot r2)
        refine this.trans ?_
        have h2 : (small ++ pivot :: large).Perm (pivot :: (small ++ large)) := List.perm_middle
        refine h2.trans ?_
        refine (List.Perm.cons pivot p3).trans ?_
        exact (List.perm_append_singleton pivot seg0).symm
      · refine List.pairwise_append.2 ⟨q3, List.pairwise_cons.2 ⟨?_, r3⟩, ?_⟩
        · intro b hb
          exact p5 b (r2.subset hb)
        · intro a ha b hb
          have ha' := p4 a (q2.subset ha)
          rcases List.mem_cons.1 hb with hb | hb
          · subst hb; omega
          · have := p5 b (r2.subset hb); omega

theorem quickSort_whole (key : α → Int) (s : Visualizer α) (hs : s.isSorting = true) :
    Ascending key (quickSort key 0 ((s.array.length : Int) - 1) s).array ∧
    (quickSort key 0 ((s.array.length : Int) - 1) s).array.Perm s.array := by
  obtain ⟨seg', h1, h2, h3, _⟩ :=
    quickSort_spec key s.array.length s.array [] [] s 0 ((s.array.length : Int) - 1) rfl hs
      (by simp) (by simp) (by simp)
  simp only [List.nil_append, List.append_nil] at h1
  rw [h1]
  exact ⟨h3, h2⟩

/-- C3: for every integer array (of any length, so in particular of length 0
to 20), `quickSort(0, length - 1)` run to completion while the sort is running
leaves `array` sorted ascending and a permutation of the input, that is, equal
to the ascending sort of the input. -/
theorem quickSort_sorts_input (s : Visualizer Int) (hs : s.isSorting = true) :
    List.Sorted (· ≤ ·) (quickSort id 0 ((s.array.length : Int) - 1) s).array ∧
    (quickSort id 0 ((s.array.length : Int) - 1) s).array.Perm s.array ∧
    (quickSort id 0 ((s.array.length : Int) - 1) s).array =
      List.insertionSort (· ≤ ·) s.array := by
  obtain ⟨hasc, hperm⟩ := quickSort_whole id s hs
  have hsorted : List.Sorted (· ≤ ·) (quickSort id 0 ((s.array.length : Int) - 1) s).array :=
    hasc
  exact ⟨hsorted, hperm,
    List.eq_of_perm_of_sorted (hperm.trans (List.perm_insertionSort _ _).symm) hsorted
      (List.sorted_insertionSort _ _)⟩

theorem quickSort_sorts_input_witness :
    (sorting [3, 1, 2] : Visualizer Int).isSorting = true ∧
    (List.Sorted (· ≤ ·)
      (quickSort id 0 (((sorting [3, 1, 2] : Visualizer Int).array.length : Int) - 1)
        (sorting [3, 1, 2])).array ∧
    (quickSort id 0 (((sorting [3, 1, 2] : Visualizer Int).array.length : Int) - 1)
        (sorting [3, 1, 2])).array.Perm (sorting [3, 1, 2] : Visualizer Int).array ∧
    (quickSort id 0 (((sorting [3, 1, 2] : Visualizer Int).array.length : Int) - 1)
        (sorting [3, 1, 2])).array =
      List.insertionSort (· ≤ ·) (sorting [3, 1, 2] : Visualizer Int).array) :=
  ⟨rfl, quickSort_sorts_input (sorting [3, 1, 2]) rfl⟩

theorem list_split_range (a : List α) (lo hi : Nat) (h1 : lo ≤ hi) (h2 : hi < a.length) :
    ∃ pre seg pivot post, a = pre ++ (seg ++ pivot :: post) ∧ pre.length = lo ∧
      seg.length = hi - lo := by
  refine ⟨a.take lo, (a.drop lo).take (hi - lo), a[hi], a.drop (hi + 1), ?_, ?_, ?_⟩
  · have e1 : a = a.take lo ++ a.drop lo := (List.take_append_drop lo a).symm
    have e2 : a.drop lo = (a.drop lo).take (hi - lo) ++ (a.drop lo).drop (hi - lo) :=
      (List.take_append_drop (hi - lo) (a.drop lo)).symm
    have e3 : (a.drop lo).drop (hi - lo) = a[hi] :: a.drop (hi + 1) := by
      rw [List.drop_drop]
      have : lo + (hi - lo) = hi := by omega
      rw [this]
      exact List.drop_eq_getElem_cons h2
    rw [← e3, ← e2, ← e1]
  · simp; omega
  · simp; omega

theorem getAt_mid (A B C : List α) (k : Int) (h1 : (A.length : Int) ≤ k)
    (h2 : k < (A.length : Int) + B.length) :
    ∃ x ∈ B, getAt (A ++ (B ++ C)) k = some x := by
  have hk : 0 ≤ k := by omega
  have hlt : k.toNat - A.length < B.length := by omega
  refine ⟨B[k.toNat - A.length], List.getElem_mem _, ?_⟩
  simp only [getAt, hk, if_true]
  rw [List.getElem?_append_right (by omega), List.getElem?_append_left hlt]
  exact List.getElem?_eq_getElem hlt

theorem getAt_outside (A B B' C : List α) (k : Int) (hB : B.length = B'.length)
    (hk : k < (A.length : Int) ∨ (A.length : Int) + B.length ≤ k) :
    getAt (A ++ (B ++ C)) k = getAt (A ++ (B' ++ C)) k := by
  by_cases h0 : 0 ≤ k
  · simp only [getAt, h0, if_true]
    rcases hk with hk | hk
    · rw [List.getElem?_append_left (by omega), List.getElem?_append_left (by omega)]
    · rw [List.getElem?_append_right (by omega), List.getElem?_append_right (by omega),
        List.getElem?_append_right (by omega), List.getElem?_append_right (by omega), hB]
  · simp [getAt, h0]

theorem segment_split (A B C : List α) (low high : Int) (hlow : low = (A.length : Int))
    (hhigh : high - low + 1 = (B.length : Int)) :
    segment (A ++ (B ++ C)) low high = B := by
  have e1 : low.toNat = A.length := by omega
  have e2 : (high - low + 1).toNat = B.length := by omega
  simp [segment, e1, e2]

/-- C4: for every array, every state in which the sort is running and all
indices `0 <= low < high < length`, `partition(low, high)` returns an index `p`
with `low <= p <= high` such that afterwards `array[p]` is the pivot (the
element that was at `array[high]`), every element at `low..p-1` is strictly
less than the pivot, every element at `p+1..high` is greater than or equal to
it, the range `low..high` is a permutation of its former content and every
position outside `low..high` is unchanged. -/
theorem partition_contract (key : α → Int) (s : Visualizer α) (low high : Int)
    (hs : s.isSorting = true) (h0 : 0 ≤ low) (hlt : low < high)
    (hlen : high < (s.array.length : Int)) :
    ∃ pivot, getAt s.array high = some pivot ∧
      low ≤ (partition key low high s).2 ∧ (partition key low high s).2 ≤ high ∧
      getAt (partition key low high s).1.array (partition key low high s).2 = some pivot ∧
      (∀ k, low ≤ k → k < (partition key low high s).2 →
        ∃ x, getAt (partition key low high s).1.array k = some x ∧ key x < key pivot) ∧
      (∀ k, (partition key low high s).2 < k → k ≤ high →
        ∃ x, getAt (partition key low high s).1.array k = some x ∧ key pivot ≤ key x) ∧
      (segment (partition key low high s).1.array low high).Perm (segment s.array low high) ∧
      (∀ k, k < low ∨ high < k →
        getAt (partition key low high s).1.array k = getAt s.array k) := by
  obtain ⟨pre, seg, pivot, post, harr, hpre, hseg⟩ :=
    list_split_range s.array low.toNat high.toNat (by omega) (by omega)
  have hlow : low = (pre.length : Int) := by omega
  have hhigh : high = (pre.length : Int) + seg.length := by omega
  obtain ⟨small, large, p1, p2, p3, p4, p5, _⟩ :=
    partition_spec key pivot pre seg post s low high hs harr hlow hhigh
  have hlen2 : small.length + large.length = seg.length := by simpa using p3.length_eq
  refine ⟨pivot, ?_, ?_, ?_, ?_, ?_, ?_, ?_, ?_⟩
  · have e : s.array = (pre ++ seg) ++ pivot :: post := by rw [harr]; simp
    rw [e]
    exact getAt_split _ _ _ _ (by simp; omega)
  · rw [p1]; omega
  · rw [p1]; omega
  · rw [p1, p2]
    have e : pre ++ (small ++ pivot :: (large ++ post)) =
        (pre ++ small) ++ pivot :: (large ++ post) := by simp
    rw [e]
    exact getAt_split _ _ _ _ (by simp)
  · intro k hk1 hk2
    rw [p1] at hk2
    rw [p2]
    obtain ⟨x, hx, hget⟩ := getAt_mid pre small (pivot :: (large ++ post)) k (by omega) (by omega)
    exact ⟨x, hget, p4 x hx⟩
  · intro k hk1 hk2
    rw [p1] at hk1
    rw [p2]
    have e : pre ++ (small ++ pivot :: (large ++ post)) =
        (pre ++ (small ++ [pivot])) ++ (large ++ post) := by simp
    rw [e]
    obtain ⟨x, hx, hget⟩ := getAt_mid (pre ++ (small ++ [pivot])) large post k
      (by simp; omega) (by simp; omega)
    exact ⟨x, hget, p5 x hx⟩
  · rw [p2, harr]
    have e1 : pre ++ (small ++ pivot :: (large ++ post)) =
        pre ++ ((small ++ pivot :: large) ++ post) := by simp
    have e2 : pre ++ (seg ++ pivot :: post) = pre ++ ((seg ++ [pivot]) ++ post) := by simp
    rw [e1, e2, segment_split _ _ _ _ _ hlow (by simp; omega),
      segment_split _ _ _ _ _ hlow (by simp; omega)]
    have h2 : (small ++ pivot :: large).Perm (pivot :: (small ++ large)) := List.perm_middle
    exact h2.trans ((List.Perm.cons pivot p3).trans (List.perm_append_singleton pivot seg).symm)
  · intro k hk
    rw [p2, harr]
    have e1 : pre ++ (small ++ pivot :: (large ++ post)) =
        pre ++ ((small ++ pivot :: large) ++ post) := by simp
    have e2 : pre ++ (seg ++ pivot :: post) = pre ++ ((seg ++ [pivot]) ++ post) := by simp
    rw [e1, e2]
    exact getAt_outside pre _ _ post k (by simp; omega) (by simp; omega)

theorem partition_contract_witness :
    (sorting [5, 1, 4, 2, 3] : Visualizer Int).isSorting = true ∧
    (0 : Int) ≤ 1 ∧ (1 : Int) < 4 ∧
    (4 : Int) < ((sorting [5, 1, 4, 2, 3] : Visualizer Int).array.length : Int) ∧
    ∃ pivot, getAt (sorting [5, 1, 4, 2, 3] : Visualizer Int).array 4 = some pivot ∧
      1 ≤ (partition id 1 4 (sorting [5, 1, 4, 2, 3])).2 ∧
      (partition id 1 4 (sorting [5, 1, 4, 2, 3])).2 ≤ 4 ∧
      getAt (partition id 1 4 (sorting [5, 1, 4, 2, 3])).1.array
        (partition id 1 4 (sorting [5, 1, 4, 2, 3])).2 = some pivot ∧
      (∀ k, 1 ≤ k → k < (partition id 1 4 (sorting [5, 1, 4, 2, 3])).2 →
        ∃ x, getAt (partition id 1 4 (sorting [5, 1, 4, 2, 3])).1.array k = some x ∧
          id x < id pivot) ∧
      (∀ k, (partition id 1 4 (sorting [5, 1, 4, 2, 3])).2 < k → k ≤ 4 →
        ∃ x, getAt (partition id 1 4 (sorting [5, 1, 4, 2, 3])).1.array k = some x ∧
          id pivot ≤ id x) ∧
      (segment (partition id 1 4 (sorting [5, 1, 4, 2, 3])).1.array 1 4).Perm
        (segment (sorting [5, 1, 4, 2, 3] : Visualizer Int).array 1 4) ∧
      (∀ k, k < 1 ∨ 4 < k →
        getAt (partition id 1 4 (sorting [5, 1, 4, 2, 3])).1.array k =
          getAt (sorting [5, 1, 4, 2, 3] : Visualizer Int).array k) :=
  ⟨rfl, by decide, by decide, by decide,
    partition_contract id (sorting [5, 1, 4, 2, 3]) 1 4 rfl (by decide) (by decide) (by decide)⟩

theorem partition_example :
    (partition id 1 4 (sorting [5, 1, 4, 2, 3])).1.array = [5, 1, 2, 3, 4] ∧
    (partition id 1 4 (sorting [5, 1, 4, 2, 3])).2 = 3 := by
  simp [partition, partitionLoop, sorting, getAt, swapAt]

end QuickSort

namespace DLL

@[simp] theorem write_apply (heap : Nat → Node) (a : Nat) (v : Node) (b : Nat) :
    write heap a v b = if b = a then v else heap b := rfl

@[simp] theorem setNext_next (heap : Nat → Node) (a : Nat) (v : Option Nat) (b : Nat) :
    (setNext heap a v b).next = if b = a then v else (heap b).next := by
  unfold setNext write
  split <;> simp_all

@[simp] theorem setNext_prev (heap : Nat → Node) (a : Nat) (v : Option Nat) (b : Nat) :
    (setNext heap a v b).prev = (heap b).prev := by
  unfold setNext write
  split <;> simp_all

@[simp] theorem setPrev_prev (heap : Nat → Node) (a : Nat) (v : Option Nat) (b : Nat) :
    (setPrev heap a v b).prev = if b = a then v else (heap b).prev := by
  unfold setPrev write
  split <;> simp_all

@[simp] theorem setPrev_next (heap : Nat → Node) (a : Nat) (v : Option Nat) (b : Nat) :
    (setPrev heap a v b).next = (heap b).next := by
  unfold setPrev write
  split <;> simp_all

@[simp] theorem nextOK_nil (heap : Nat → Node) (n : Option Nat) : NextOK heap [] n ↔ True :=
  Iff.rfl

@[simp] theorem nextOK_cons (heap : Nat → Node) (a : Nat) (rest : List Nat) (n : Option Nat) :
    NextOK heap (a :: rest) n ↔ (heap a).next = headOr rest n ∧ NextOK heap rest n :=
  Iff.rfl

@[simp] theorem prevOK_nil (heap : Nat → Node) (p : Option Nat) : PrevOK heap p [] ↔ True :=
  Iff.rfl

@[simp] theorem prevOK_cons (heap : Nat → Node) (p : Option Nat) (a : Nat) (rest : List Nat) :
    PrevOK heap p (a :: rest) ↔ (heap a).prev = p ∧ PrevOK heap (some a) rest :=
  Iff.rfl

@[simp] theorem headOr_nil (n : Option Nat) : headOr [] n = n := rfl

@[simp] theorem headOr_cons (a : Nat) (l : List Nat) (n : Option Nat) :
    headOr (a :: l) n = some a := rfl

@[simp] theorem lastOr_nil (p : Option Nat) : lastOr [] p = p := rfl

@[simp] theorem setNext_data (heap : Nat → Node) (a : Nat) (v : Option Nat) (b : Nat) :
    (setNext heap a v b).data = (heap b).data := by
  unfold setNext write
  split <;> simp_all

@[simp] theorem setPrev_data (heap : Nat → Node) (a : Nat) (v : Option Nat) (b : Nat) :
    (setPrev heap a v b).data = (heap b).data := by
  unfold setPrev write
  split <;> simp_all

theorem nextOK_congr {heap heap' : Nat → Node} {l : List Nat} {n : Option Nat}
    (h : ∀ a ∈ l, (heap' a).next = (heap a).next) (hl : NextOK heap l n) :
    NextOK heap' l n := by
  induction l with
  | nil => trivial
  | cons a rest ih =>
    exact ⟨(h a (by simp)).trans hl.1, ih (fun b hb => h b (by simp [hb])) hl.2⟩

theorem prevOK_congr {heap heap' : Nat → Node} {l : List Nat} {p : Option Nat}
    (h : ∀ a ∈ l, (heap' a).prev = (heap a).prev) (hl : PrevOK heap p l) :
    PrevOK heap' p l := by
  induction l generalizing p with
  | nil => trivial
  | cons a rest ih =>
    exact ⟨(h a (by simp)).trans hl.1, ih (fun b hb => h b (by simp [hb])) hl.2⟩

theorem headOr_append (l1 l2 : List Nat) (n : Option Nat) :
    headOr (l1 ++ l2) n = headOr l1 (headOr l2 n) := by
  cases l1 <;> rfl

theorem lastOr_cons (a : Nat) (l : List Nat) (p : Option Nat) :
    lastOr (a :: l) p = lastOr l (some a) := by
  cases l with
  | nil => rfl
  | cons b rest =>
    unfold lastOr
    rw [List.getLast?_cons_cons]
    cases h : (b :: rest).getLast? with
    | none => simp at h
    | some c => rfl

theorem nextOK_append (heap : Nat → Node) (l1 l2 : List Nat) (n : Option Nat) :
    NextOK heap (l1 ++ l2) n ↔ NextOK heap l1 (headOr l2 n) ∧ NextOK heap l2 n := by
  induction l1 with
  | nil => simp
  | cons a rest ih =>
    rw [List.cons_append, nextOK_cons, nextOK_cons, ih, headOr_append]
    tauto

theorem prevOK_append (heap : Nat → Node) (p : Option Nat) (l1 l2 : List Nat) :
    PrevOK heap p (l1 ++ l2) ↔ PrevOK heap p l1 ∧ PrevOK heap (lastOr l1 p) l2 := by
  induction l1 generalizing p with
  | nil => simp
  | cons a rest ih =>
    rw [List.cons_append, prevOK_cons, prevOK_cons, ih, lastOr_cons]
    tauto

theorem nextOK_unique (heap : Nat → Node) :
    ∀ (x y : List Nat), NextOK heap x none → NextOK heap y none →
      headOr x none = headOr y none → x = y := by
  intro x
  induction x with
  | nil =>
    intro y _ _ h
    cases y with
    | nil => rfl
    | cons b y => simp at h
  | cons a x ih =>
    intro y hx hy h
    cases y with
    | nil => simp at h
    | cons b y =>
      simp only [headOr_cons, Option.some.injEq] at h
      subst h
      rw [ih y hx.2 hy.2 (hx.1.symm.trans hy.1)]

theorem nextOK_nodup (heap : Nat → Node) :
    ∀ (l : List Nat), NextOK heap l none → l.Nodup := by
  intro l
  induction l with
  | nil => intro _; exact List.nodup_nil
  | cons a rest ih =>
    intro h
    refine List.nodup_cons.2 ⟨?_, ih h.2⟩
    intro hmem
    obtain ⟨r1, r2, hr⟩ := List.append_of_mem hmem
    have h2 : NextOK heap (a :: r2) none := by
      have := h.2
      rw [hr, nextOK_append] at this
      exact this.2
    have e := nextOK_unique heap (a :: rest) (a :: r2) h h2 rfl
    have hl := congrArg List.length e
    rw [hr] at hl
    simp at hl
    omega

theorem wellFormedWith_nodup {d : DoublyLinkedList} {l : List Nat} (h : WellFormedWith d l) :
    l.Nodup :=
  nextOK_nodup d.heap l h.1

theorem clear_wellFormedWith (d : DoublyLinkedList) : WellFormedWith (clear d) [] := by
  simp [WellFormedWith, clear, NextOK, PrevOK]

theorem insertAtHead_wellFormedWith (d : DoublyLinkedList) (l : List Nat) (v : Int)
    (h : WellFormedWith d l) :
    (insertAtHead d v).2 = d.fresh ∧
    WellFormedWith (insertAtHead d v).1 (d.fresh :: l) := by
  have hnd := wellFormedWith_nodup h
  obtain ⟨hn, hp, hfr, hh, ht, hs⟩ := h
  cases l with
  | nil =>
    simp only [List.head?_nil] at hh
    simp [insertAtHead, alloc, hh, WellFormedWith, NextOK, PrevOK, headOr, hs]
  | cons a rest =>
    simp only [List.head?_cons] at hh
    have hlt : ∀ b ∈ a :: rest, b ≠ d.fresh := fun b hb => Nat.ne_of_lt (hfr b hb)
    have ha : a ≠ d.fresh := hlt a (by simp)
    simp only [insertAtHead, alloc, hh, true_and]
    refine ⟨?_, ?_, ?_, ?_, ?_, ?_⟩
    · refine ⟨by simp [headOr], nextOK_congr ?_ hn⟩
      intro b hb
      simp [hlt b hb]
    · refine ⟨by simp [Ne.symm ha], by simp, prevOK_congr ?_ hp.2⟩
      intro b hb
      have hba : b ≠ a := by
        rintro rfl
        exact (List.nodup_cons.1 hnd).1 hb
      simp [hba, hlt b (by simp [hb])]
    · intro b hb
      rcases List.mem_cons.1 hb with hb | hb
      · simp [hb]
      · exact Nat.lt_succ_of_lt (hfr b hb)
    · simp
    · simp only [ht]
      rw [List.getLast?_cons_cons]
    · simp [hs]

theorem insertAtTail_wellFormedWith (d : DoublyLinkedList) (l : List Nat) (v : Int)
    (h : WellFormedWith d l) :
    (insertAtTail d v).2 = d.fresh ∧
    WellFormedWith (insertAtTail d v).1 (l ++ [d.fresh]) := by
  have hnd := wellFormedWith_nodup h
  obtain ⟨hn, hp, hfr, hh, ht, hs⟩ := h
  rcases List.eq_nil_or_concat l with hl | ⟨init, t, hl⟩
  · subst hl
    simp only [List.getLast?_nil] at ht
    simp [insertAtTail, alloc, ht, WellFormedWith, NextOK, PrevOK, headOr, hs]
  · subst hl
    simp only [List.concat_eq_append] at hn hp hnd hfr hh ht hs ⊢
    have ht : d.tail = some t := by rw [ht]; simp
    have hlt : ∀ b ∈ init ++ [t], b ≠ d.fresh := fun b hb => Nat.ne_of_lt (hfr b hb)
    have htf : t ≠ d.fresh := hlt t (by simp)
    have htn : t ∉ init := by
      intro hmem
      have := List.disjoint_of_nodup_append hnd hmem
      simp at this
    rw [nextOK_append] at hn
    rw [prevOK_append] at hp
    simp only [insertAtTail, alloc, ht, true_and]
    refine ⟨?_, ?_, ?_, ?_, ?_, ?_⟩
    · rw [nextOK_append, nextOK_append]
      refine ⟨⟨nextOK_congr ?_ hn.1, ?_⟩, ?_⟩
      · intro b hb
        have hbt : b ≠ t := by rintro rfl; exact htn hb
        simp [hbt, hlt b (by simp [hb])]
      · simp [htf]
      · simp [Ne.symm htf]
    · rw [prevOK_append, prevOK_append]
      refine ⟨⟨prevOK_congr ?_ hp.1, ?_⟩, ?_⟩
      · intro b hb
        simp [hlt b (by simp [hb])]
      · have := hp.2.1
        simp [htf, this]
      · simp [lastOr]
    · intro b hb
      rcases List.mem_append.1 hb with hb | hb
      · exact Nat.lt_succ_of_lt (hfr b hb)
      · simp at hb; subst hb; exact Nat.lt_succ_self _
    · rw [hh]
      cases init <;> simp
    · simp
    · simp [hs]; omega

theorem alloc_wellFormedWith (d : DoublyLinkedList) (l : List Nat) (v : Int)
    (h : WellFormedWith d l) : WellFormedWith (alloc d v).1 l := by
  have hnd := wellFormedWith_nodup h
  obtain ⟨hn, hp, hfr, hh, ht, hs⟩ := h
  have hlt : ∀ b ∈ l, b ≠ d.fresh := fun b hb => Nat.ne_of_lt (hfr b hb)
  refine ⟨nextOK_congr ?_ hn, prevOK_congr ?_ hp, ?_, hh, ht, hs⟩
  · intro b hb; simp [alloc, hlt b hb]
  · intro b hb; simp [alloc, hlt b hb]
  · intro b hb; exact Nat.lt_succ_of_lt (hfr b hb)

theorem getLast?_split (l1 : List Nat) (t u : Nat) (l3 : List Nat) :
    ∃ z ∈ u :: l3, (l1 ++ t :: u :: l3).getLast? = some z := by
  refine ⟨(u :: l3).getLast (by simp), List.getLast_mem _, ?_⟩
  have e : l1 ++ t :: u :: l3 = (l1 ++ [t]) ++ (u :: l3) := by simp
  rw [e, List.getLast?_append_of_ne_nil _ (by simp), List.getLast?_eq_getLast]

theorem insertAtTail_data (d : DoublyLinkedList) (v : Int) :
    ((insertAtTail d v).1.heap (insertAtTail d v).2).data = v := by
  simp only [insertAtTail, alloc]
  cases h : d.tail with
  | none => simp
  | some t => by_cases e : d.fresh = t <;> simp [e]

theorem insertAtHead_data (d : DoublyLinkedList) (v : Int) :
    ((insertAtHead d v).1.heap (insertAtHead d v).2).data = v := by
  simp only [insertAtHead, alloc]
  cases h : d.head with
  | none => simp
  | some t => by_cases e : d.fresh = t <;> simp [e]

theorem insertAfter_wellFormedWith (d : DoublyLinkedList) (l1 l2 : List Nat) (t : Nat)
    (v : Int) (h : WellFormedWith d (l1 ++ t :: l2)) :
    ∃ d' n, insertAfter d t v = some (d', n) ∧ n ∉ l1 ++ t :: l2 ∧
      (d'.heap n).data = v ∧ WellFormedWith d' (l1 ++ t :: n :: l2) := by
  have h1 := alloc_wellFormedWith d _ v h
  have hnd := wellFormedWith_nodup h
  obtain ⟨hn, hp, hfr, hh, ht, hs⟩ := h
  cases l2 with
  | nil =>
    have ht' : d.tail = some t := by rw [ht]; simp
    obtain ⟨e, hw⟩ := insertAtTail_wellFormedWith (alloc d v).1 (l1 ++ [t]) v h1
    refine ⟨(insertAtTail (alloc d v).1 v).1, (insertAtTail (alloc d v).1 v).2, ?_, ?_, ?_, ?_⟩
    · simp [insertAfter, alloc, ht']
    · rw [e]
      intro hmem
      have := hfr _ hmem
      simp [alloc] at this
    · exact insertAtTail_data _ _
    · rw [e]
      simpa using hw
  | cons u l3 =>
    obtain ⟨z, hz, hlast⟩ := getLast?_split l1 t u l3
    rw [List.nodup_append] at hnd
    obtain ⟨hnd1, hnd2, hdisj⟩ := hnd
    have htl1 : t ∉ l1 := fun hm => hdisj hm (by simp)
    have htl3 : t ∉ u :: l3 := (List.nodup_cons.1 hnd2).1
    have hul3 : u ∉ l3 := (List.nodup_cons.1 (List.nodup_cons.1 hnd2).2).1
    have hul1 : u ∉ l1 := fun hm => hdisj hm (by simp)
    have htail : ¬ (some t = d.tail) := by
      rw [ht, hlast]
      intro e
      injection e with e
      exact htl3 (e ▸ hz)
    have hlt : ∀ b ∈ l1 ++ t :: u :: l3, b ≠ d.fresh := fun b hb => Nat.ne_of_lt (hfr b hb)
    have htf : t ≠ d.fresh := hlt t (by simp)
    have huf : u ≠ d.fresh := hlt u (by simp)
    have hut : u ≠ t := fun e => htl3 (by simp [e])
    rw [nextOK_append] at hn
    rw [prevOK_append] at hp
    have hnext : (d.heap t).next = some u := hn.2.1
    refine ⟨{ heap := setNext (setPrev (setPrev (setNext
                (write d.heap d.fresh { data := v, next := none, prev := none })
                d.fresh (some u)) d.fresh (some t)) u (some d.fresh)) t (some d.fresh),
              fresh := d.fresh + 1, head := d.head, tail := d.tail, size := d.size + 1 },
      d.fresh, ?_, ?_, ?_, ?_⟩
    · simp [insertAfter, alloc, htail, htf, hnext]
    · intro hmem
      exact Nat.lt_irrefl _ (hfr _ hmem)
    · simp
    · refine ⟨?_, ?_, ?_, ?_, ?_, ?_⟩
      · rw [nextOK_append]
        refine ⟨nextOK_congr ?_ hn.1, ?_, ?_, nextOK_congr ?_ hn.2.2⟩
        · intro b hb
          have hbt : b ≠ t := fun e => htl1 (e ▸ hb)
          simp [hbt, hlt b (by simp [hb])]
        · simp
        · simp [Ne.symm htf, hnext]
        · intro b hb
          have hbt : b ≠ t := fun e => htl3 (e ▸ hb)
          simp [hbt, hlt b (by simp [hb])]
      · rw [prevOK_append]
        refine ⟨prevOK_congr ?_ hp.1, ?_, ?_, ?_, prevOK_congr ?_ hp.2.2.2⟩
        · intro b hb
          have hbu : b ≠ u := fun e => hul1 (e ▸ hb)
          simp [hbu, hlt b (by simp [hb])]
        · simp [hut.symm, htf, hp.2.1]
        · simp [Ne.symm huf]
        · simp
        · intro b hb
          have hbu : b ≠ u := fun e => hul3 (e ▸ hb)
          simp [hbu, hlt b (by simp [hb])]
      · intro b hb
        simp only [List.mem_append, List.mem_cons] at hb
        have : b = d.fresh ∨ b ∈ l1 ++ t :: u :: l3 := by
          simp only [List.mem_append, List.mem_cons]; tauto
        rcases this with e | hm
        · simp [e]
        · exact Nat.lt_succ_of_lt (hfr b hm)
      · show d.head = _
        rw [hh]
        cases l1 <;> simp
      · show d.tail = _
        rw [ht, hlast]
        obtain ⟨z', _, hlast'⟩ := getLast?_split (l1 ++ [t]) d.fresh u l3
        have e1 : l1 ++ t :: d.fresh :: u :: l3 = (l1 ++ [t, d.fresh]) ++ (u :: l3) := by simp
        have e2 : l1 ++ t :: u :: l3 = (l1 ++ [t]) ++ (u :: l3) := by simp
        rw [e2, List.getLast?_append_of_ne_nil _ (by simp)] at hlast
        rw [e1, List.getLast?_append_of_ne_nil _ (by simp), hlast]
      · show d.size + 1 = _
        rw [hs]
        simp
        omega

theorem head?_split (init : List Nat) (p : Nat) (rest : List Nat) :
    ∃ z ∈ init ++ [p], (init ++ p :: rest).head? = some z := by
  cases init with
  | nil => exact ⟨p, by simp, rfl⟩
  | cons a init => exact ⟨a, by simp, rfl⟩

theorem insertBefore_wellFormedWith (d : DoublyLinkedList) (l1 l2 : List Nat) (t : Nat)
    (v : Int) (h : WellFormedWith d (l1 ++ t :: l2)) :
    ∃ d' n, insertBefore d t v = some (d', n) ∧ n ∉ l1 ++ t :: l2 ∧
      (d'.heap n).data = v ∧ WellFormedWith d' (l1 ++ n :: t :: l2) := by
  have h1 := alloc_wellFormedWith d _ v h
  have hnd := wellFormedWith_nodup h
  obtain ⟨hn, hp, hfr, hh, ht, hs⟩ := h
  rcases List.eq_nil_or_concat l1 with hl | ⟨init, p, hl⟩
  · subst hl
    have hh' : d.head = some t := by rw [hh]; simp
    obtain ⟨e, hw⟩ := insertAtHead_wellFormedWith (alloc d v).1 (t :: l2) v (by simpa using h1)
    refine ⟨(insertAtHead (alloc d v).1 v).1, (insertAtHead (alloc d v).1 v).2, ?_, ?_, ?_, ?_⟩
    · simp [insertBefore, alloc, hh']
    · rw [e]
      intro hmem
      have := hfr _ hmem
      simp [alloc] at this
    · exact insertAtHead_data _ _
    · rw [e]
      simpa using hw
  · subst hl
    simp only [List.concat_eq_append, List.append_assoc, List.singleton_append] at *
    obtain ⟨z, hz, hfirst⟩ := head?_split init p (t :: l2)
    rw [List.nodup_append] at hnd
    obtain ⟨hnd1, hnd2, hdisj⟩ := hnd
    have hpt : p ≠ t := fun e => (List.nodup_cons.1 hnd2).1 (by simp [e])
    have hpl2 : p ∉ l2 := fun hm => (List.nodup_cons.1 hnd2).1 (by simp [hm])
    have htl2 : t ∉ l2 := (List.nodup_cons.1 (List.nodup_cons.1 hnd2).2).1
    have htinit : t ∉ init := fun hm => hdisj hm (by simp)
    have hpinit : p ∉ init := fun hm => hdisj hm (by simp)
    have hhead : ¬ (some t = d.head) := by
      rw [hh, hfirst]
      intro e
      injection e with e
      subst e
      rcases List.mem_append.1 hz with hz | hz
      · exact htinit hz
      · simp at hz; exact hpt hz.symm
    have hlt : ∀ b ∈ init ++ p :: t :: l2, b ≠ d.fresh := fun b hb => Nat.ne_of_lt (hfr b hb)
    have htf : t ≠ d.fresh := hlt t (by simp)
    have hpf : p ≠ d.fresh := hlt p (by simp)
    rw [nextOK_append] at hn
    rw [prevOK_append] at hp
    have hprev : (d.heap t).prev = some p := hp.2.2.1
    refine ⟨{ heap := setPrev (setNext (setNext (setPrev
                (write d.heap d.fresh { data := v, next := none, prev := none })
                d.fresh (some p)) d.fresh (some t)) p (some d.fresh)) t (some d.fresh),
              fresh := d.fresh + 1, head := d.head, tail := d.tail, size := d.size + 1 },
      d.fresh, ?_, ?_, ?_, ?_⟩
    · simp [insertBefore, alloc, hhead, htf, hprev]
    · intro hmem
      exact Nat.lt_irrefl _ (hfr _ hmem)
    · simp
    · refine ⟨?_, ?_, ?_, ?_, ?_, ?_⟩
      · rw [nextOK_append]
        refine ⟨nextOK_congr ?_ hn.1, ?_, ?_, nextOK_congr ?_ hn.2.2⟩
        · intro b hb
          have hbp : b ≠ p := fun e => hpinit (e ▸ hb)
          simp [hbp, hlt b (by simp [hb])]
        · simp
        · simp [Ne.symm hpf]
        · intro b hb
          have hbp : b ≠ p := by
            rintro rfl
            rcases List.mem_cons.1 hb with hb | hb
            · exact hpt hb
            · exact hpl2 hb
          simp [hbp, hlt b (by simp [hb])]
      · rw [prevOK_append]
        refine ⟨prevOK_congr ?_ hp.1, ?_, ?_, ?_, prevOK_congr ?_ hp.2.2.2⟩
        · intro b hb
          have hbt : b ≠ t := fun e => htinit (e ▸ hb)
          simp [hbt, hlt b (by simp [hb])]
        · simp [hpt, hpf, hp.2.1]
        · simp [Ne.symm htf]
        · simp
        · intro b hb
          have hbt : b ≠ t := fun e => htl2 (e ▸ hb)
          simp [hbt, hlt b (by simp [hb])]
      · intro b hb
        have : b = d.fresh ∨ b ∈ init ++ p :: t :: l2 := by
          simp only [List.mem_append, List.mem_cons] at hb ⊢; tauto
        rcases this with e | hm
        · simp [e]
        · exact Nat.lt_succ_of_lt (hfr b hm)
      · show d.head = _
        rw [hh]
        cases init <;> simp
      · show d.tail = _
        rw [ht]
        have e1 : init ++ p :: d.fresh :: t :: l2 = (init ++ [p, d.fresh]) ++ (t :: l2) := by simp
        have e2 : init ++ p :: t :: l2 = (init ++ [p]) ++ (t :: l2) := by simp
        rw [e1, e2, List.getLast?_append_of_ne_nil _ (by simp),
          List.getLast?_append_of_ne_nil _ (by simp)]
      · show d.size + 1 = _
        rw [hs]
        simp
        omega

theorem delete_wellFormedWith (d : DoublyLinkedList) (l1 l2 : List Nat) (t : Nat)
    (h : WellFormedWith d (l1 ++ t :: l2)) :
    ∃ d', delete d t = some d' ∧ WellFormedWith d' (l1 ++ l2) := by
  have hnd := wellFormedWith_nodup h
  obtain ⟨hn, hp, hfr, hh, ht, hs⟩ := h
  by_cases hsize : d.size = 1
  · -- the only node
    have hlen : l1.length + l2.length = 0 := by
      rw [hs] at hsize
      simp at hsize
      omega
    have e1 : l1 = [] := List.length_eq_zero.1 (by omega)
    have e2 : l2 = [] := List.length_eq_zero.1 (by omega)
    subst e1 e2
    refine ⟨{ d with head := none, tail := none, size := d.size - 1 },
      by simp [delete, hsize], ?_⟩
    simp [WellFormedWith, hsize]
  · have hlen : l1.length + l2.length ≠ 0 := by
      intro e
      apply hsize
      rw [hs]
      simp
      omega
    rw [List.nodup_append] at hnd
    obtain ⟨hnd1, hnd2, hdisj⟩ := hnd
    have htl1 : t ∉ l1 := fun hm => hdisj hm (by simp)
    have htl2 : t ∉ l2 := (List.nodup_cons.1 hnd2).1
    rw [nextOK_append] at hn
    rw [prevOK_append] at hp
    rcases List.eq_nil_or_concat l1 with hl | ⟨init, p, hl⟩
    · -- the target is the head
      subst hl
      have hh' : some t = d.head := by rw [hh]; simp
      cases l2 with
      | nil => simp at hlen
      | cons u l3 =>
        have hnext : (d.heap t).next = some u := hn.2.1
        have hul3 : u ∉ l3 := (List.nodup_cons.1 (List.nodup_cons.1 hnd2).2).1
        refine ⟨{ d with head := some u, heap := setPrev d.heap u none, size := d.size - 1 },
          by simp [delete, hsize, hh', hnext], ?_, ?_, ?_, ?_, ?_, ?_⟩
        · exact nextOK_congr (by intro b _; simp) hn.2.2
        · refine ⟨by simp, prevOK_congr ?_ hp.2.2.2⟩
          intro b hb
          have hbu : b ≠ u := fun e => hul3 (e ▸ hb)
          simp [hbu]
        · intro b hb
          exact hfr b (by simp at hb ⊢; tauto)
        · simp
        · show d.tail = _
          rw [ht]
          simp [List.getLast?_cons_cons]
        · show d.size - 1 = _
          rw [hs]; simp
    · subst hl
      simp only [List.concat_eq_append] at *
      obtain ⟨z, hz, hfirst⟩ := head?_split init p (t :: l2)
      have hpt : p ≠ t := fun e => htl1 (by simp [e])
      have hpinit : p ∉ init := by
        intro hm
        have := List.disjoint_of_nodup_append hnd1 hm
        simp at this
      have hhead : ¬ (some t = d.head) := by
        rw [hh]
        simp only [List.append_assoc, List.singleton_append]
        rw [hfirst]
        intro e
        injection e with e
        subst e
        exact htl1 hz
      have hprev : (d.heap t).prev = some p := by
        have := hp.2.1
        simpa [lastOr] using this
      rw [nextOK_append] at hn
      rw [prevOK_append] at hp
      cases l2 with
      | nil =>
        -- the target is the tail
        have ht' : d.tail = some t := by rw [ht]; simp
        refine ⟨{ d with tail := some p, heap := setNext d.heap p none, size := d.size - 1 },
          by simp [delete, hsize, hhead, ht', hprev], ?_, ?_, ?_, ?_, ?_, ?_⟩
        · simp only [List.append_nil]
          rw [nextOK_append]
          refine ⟨nextOK_congr ?_ hn.1.1, by simp⟩
          intro b hb
          have hbp : b ≠ p := fun e => hpinit (e ▸ hb)
          simp [hbp]
        · simp only [List.append_nil]
          rw [prevOK_append]
          exact ⟨prevOK_congr (by intro b _; simp) hp.1.1,
            prevOK_congr (by intro b _; simp) hp.1.2⟩
        · intro b hb
          exact hfr b (by simp at hb ⊢; tauto)
        · show d.head = _
          rw [hh]
          cases init <;> simp
        · simp
        · show d.size - 1 = _
          rw [hs]; simp
          omega
      | cons u l3 =>
        -- the target is in the middle
        obtain ⟨z', hz', hlast⟩ := getLast?_split (init ++ [p]) t u l3
        have htail : ¬ (some t = d.tail) := by
          rw [ht, hlast]
          intro e
          injection e with e
          exact htl2 (e ▸ hz')
        have hnext : (d.heap t).next = some u := hn.2.1
        have hul3 : u ∉ l3 := (List.nodup_cons.1 (List.nodup_cons.1 hnd2).2).1
        have hut : u ≠ t := fun e => htl2 (by simp [e])
        have hup : u ≠ p := fun e => hdisj (show p ∈ init ++ [p] by simp) (by simp [e])
        have hpl3 : p ∉ l3 := fun hm => hdisj (show p ∈ init ++ [p] by simp) (by simp [hm])
        have huinit : u ∉ init := fun hm => hdisj (show u ∈ init ++ [p] by simp [hm]) (by simp)
        refine ⟨{ d with heap := setPrev (setNext d.heap p (some u)) u (some p),
                         size := d.size - 1 },
          by simp [delete, hsize, hhead, htail, hprev, hnext, Ne.symm hpt], ?_, ?_, ?_, ?_, ?_,
            ?_⟩
        · rw [nextOK_append, nextOK_append]
          refine ⟨⟨nextOK_congr ?_ hn.1.1, by simp⟩, nextOK_congr ?_ hn.2.2⟩
          · intro b hb
            have hbp : b ≠ p := fun e => hpinit (e ▸ hb)
            simp [hbp]
          · intro b hb
            have hbp : b ≠ p := by
              rintro rfl
              rcases List.mem_cons.1 hb with hb | hb
              · exact hup hb.symm
              · exact hpl3 hb
            simp [hbp]
        · rw [prevOK_append, prevOK_append]
          refine ⟨⟨prevOK_congr ?_ hp.1.1, ?_⟩, ?_, prevOK_congr ?_ hp.2.2.2⟩
          · intro b hb
            have hbu : b ≠ u := fun e => huinit (e ▸ hb)
            simp [hbu]
          · have := hp.1.2
            simpa [Ne.symm hup] using this
          · simp [lastOr]
          · intro b hb
            have hbu : b ≠ u := fun e => hul3 (e ▸ hb)
            simp [hbu]
        · intro b hb
          exact hfr b (by simp at hb ⊢; tauto)
        · show d.head = _
          rw [hh]
          cases init <;> simp
        · show d.tail = _
          rw [ht, List.getLast?_append_of_ne_nil _ (by simp),
            List.getLast?_append_of_ne_nil _ (by simp), List.getLast?_cons_cons]
        · show d.size - 1 = _
          rw [hs]; simp
          omega

theorem toArrayLoop_chain (heap : Nat → Node) :
    ∀ (l : List Nat) (fuel : Nat) (acc : List Nat), NextOK heap l none → l.length ≤ fuel →
      toArrayLoop heap fuel (headOr l none) acc = some (acc ++ l) := by
  intro l
  induction l with
  | nil =>
    intro fuel acc _ _
    cases fuel <;> simp [toArrayLoop]
  | cons a rest ih =>
    intro fuel acc h hlen
    cases fuel with
    | zero => simp at hlen
    | succ f =>
      simp only [headOr_cons, toArrayLoop]
      rw [h.1, ih f (acc ++ [a]) h.2 (by simpa using hlen)]
      simp

theorem length_le_fresh {l : List Nat} {n : Nat} (hnd : l.Nodup) (h : ∀ a ∈ l, a < n) :
    l.length ≤ n := by
  have hsub : l ⊆ List.range n := fun a ha => List.mem_range.2 (h a ha)
  simpa using (List.subperm_of_subset hnd hsub).length_le

theorem toArray_wellFormedWith {d : DoublyLinkedList} {l : List Nat}
    (h : WellFormedWith d l) : toArray d = some l := by
  have hlen := length_le_fresh (wellFormedWith_nodup h) h.2.2.1
  have hhead : d.head = headOr l none := by
    rw [h.2.2.2.1]; cases l <;> rfl
  unfold toArray
  rw [hhead, toArrayLoop_chain d.heap l d.fresh [] h.1 hlen]
  simp

/-- C10: well-formedness of `DoublyLinkedList` is preserved by every
operation.  If `d` is well formed with node sequence `l` (`head.prev` and
`tail.next` empty, `head`, `tail` and `size == 0` empty together, `next` and
`prev` mutually inverse along the chain, forward traversal from `head` ending
at `tail`, `size` the number of nodes traversed), then `toArray()` returns `l`
and the list is again well formed after `insertAtHead`, `insertAtTail`, after
`insertAfter`, `insertBefore` and `delete` with any target node of `l` (none of
which raises an error), and after `clear`. -/
theorem wellFormed_preserved (d : DoublyLinkedList) (l : List Nat) (v : Int)
    (h : WellFormedWith d l) :
    toArray d = some l ∧
    WellFormed (insertAtHead d v).1 ∧
    WellFormed (insertAtTail d v).1 ∧
    (∀ t ∈ l, ∃ d' n, insertAfter d t v = some (d', n) ∧ WellFormed d') ∧
    (∀ t ∈ l, ∃ d' n, insertBefore d t v = some (d', n) ∧ WellFormed d') ∧
    (∀ t ∈ l, ∃ d', delete d t = some d' ∧ WellFormed d') ∧
    WellFormed (clear d) := by
  refine ⟨toArray_wellFormedWith h, ⟨_, (insertAtHead_wellFormedWith d l v h).2⟩,
    ⟨_, (insertAtTail_wellFormedWith d l v h).2⟩, ?_, ?_, ?_, ⟨_, clear_wellFormedWith d⟩⟩
  · intro t ht
    obtain ⟨l1, l2, hl⟩ := List.append_of_mem ht
    subst hl
    obtain ⟨d', n, h1, _, _, h2⟩ := insertAfter_wellFormedWith d l1 l2 t v h
    exact ⟨d', n, h1, _, h2⟩
  · intro t ht
    obtain ⟨l1, l2, hl⟩ := List.append_of_mem ht
    subst hl
    obtain ⟨d', n, h1, _, _, h2⟩ := insertBefore_wellFormedWith d l1 l2 t v h
    exact ⟨d', n, h1, _, h2⟩
  · intro t ht
    obtain ⟨l1, l2, hl⟩ := List.append_of_mem ht
    subst hl
    obtain ⟨d', h1, h2⟩ := delete_wellFormedWith d l1 l2 t h
    exact ⟨d', h1, _, h2⟩

theorem twoNodes_wellFormedWith : WellFormedWith twoNodes [0, 1] := by
  simp [WellFormedWith, twoNodes, insertAtTail, alloc, empty]

theorem wellFormed_preserved_witness :
    WellFormedWith twoNodes [0, 1] ∧
    (toArray twoNodes = some [0, 1] ∧
    WellFormed (insertAtHead twoNodes 30).1 ∧
    WellFormed (insertAtTail twoNodes 30).1 ∧
    (∀ t ∈ [0, 1], ∃ d' n, insertAfter twoNodes t 30 = some (d', n) ∧ WellFormed d') ∧
    (∀ t ∈ [0, 1], ∃ d' n, insertBefore twoNodes t 30 = some (d', n) ∧ WellFormed d') ∧
    (∀ t ∈ [0, 1], ∃ d', delete twoNodes t = some d' ∧ WellFormed d') ∧
    WellFormed (clear twoNodes)) :=
  ⟨twoNodes_wellFormedWith, wellFormed_preserved twoNodes [0, 1] 30 twoNodes_wellFormedWith⟩

theorem wellFormedWith_unique {d : DoublyLinkedList} {l l' : List Nat}
    (h : WellFormedWith d l) (h' : WellFormedWith d l') : l = l' := by
  have e := (toArray_wellFormedWith h).symm.trans (toArray_wellFormedWith h')
  exact Option.some.inj e

/-- C11: for every well-formed `DoublyLinkedList` with node sequence `l` and
every node `t` of `l`, `delete(t)` raises no error and afterwards `toArray()`
returns `l` with exactly `t` removed, the other nodes in their previous order,
and `size` is one less; when `t` was the head the new head is the old head's
successor and its `prev` link is empty, and when `t` was the tail the new tail
is the old tail's predecessor and its `next` link is empty. -/
theorem delete_removes_target (d : DoublyLinkedList) (l : List Nat) (t : Nat)
    (h : WellFormedWith d l) (ht : t ∈ l) :
    ∃ d', delete d t = some d' ∧ toArray d = some l ∧
      toArray d' = some (l.erase t) ∧ t ∉ l.erase t ∧ (l.erase t).length + 1 = l.length ∧
      d'.size = d.size - 1 ∧
      (d.head = some t →
        d'.head = (d.heap t).next ∧ ∀ x, d'.head = some x → (d'.heap x).prev = none) ∧
      (d.tail = some t →
        d'.tail = (d.heap t).prev ∧ ∀ x, d'.tail = some x → (d'.heap x).next = none) := by
  obtain ⟨l1, l2, hl⟩ := List.append_of_mem ht
  subst hl
  have hnd := wellFormedWith_nodup h
  obtain ⟨d', hdel, hw⟩ := delete_wellFormedWith d l1 l2 t h
  have hnd' := (List.nodup_append.1 hnd)
  have htl1 : t ∉ l1 := fun hm => hnd'.2.2 hm (by simp)
  have htl2 : t ∉ l2 := (List.nodup_cons.1 hnd'.2.1).1
  have herase : (l1 ++ t :: l2).erase t = l1 ++ l2 := by
    rw [List.erase_append_right _ htl1, List.erase_cons_head]
  rw [herase]
  have hn := h.1
  have hp := h.2.1
  rw [nextOK_append] at hn
  rw [prevOK_append] at hp
  refine ⟨d', hdel, toArray_wellFormedWith h, toArray_wellFormedWith hw, ?_, by simp; omega,
    ?_, ?_, ?_⟩
  · intro hm
    rcases List.mem_append.1 hm with hm | hm
    · exact htl1 hm
    · exact htl2 hm
  · rw [hw.2.2.2.2.2, h.2.2.2.2.2]
    simp
    omega
  · intro hhd
    have hl1 : l1 = [] := by
      cases l1 with
      | nil => rfl
      | cons a rest =>
        have e := h.2.2.2.1
        rw [hhd, List.cons_append, List.head?_cons] at e
        injection e with e
        exact absurd (e ▸ List.mem_cons_self a rest) htl1
    subst hl1
    refine ⟨?_, ?_⟩
    · rw [hw.2.2.2.1, hn.2.1]
      cases l2 <;> rfl
    · intro x hx
      rw [hw.2.2.2.1] at hx
      cases l2 with
      | nil => simp at hx
      | cons b rest =>
        simp at hx
        subst hx
        exact hw.2.1.1
  · intro htl
    have hl2 : l2 = [] := by
      cases l2 with
      | nil => rfl
      | cons u l3 =>
        obtain ⟨z, hz, hlast⟩ := getLast?_split l1 t u l3
        have := h.2.2.2.2.1
        rw [htl, hlast] at this
        injection this with this
        exact absurd (this ▸ hz) htl2
    subst hl2
    simp only [List.append_nil] at hw
    refine ⟨?_, ?_⟩
    · rw [hw.2.2.2.2.1, hp.2.1]
      unfold lastOr
      cases l1.getLast? <;> rfl
    · intro x hx
      rw [hw.2.2.2.2.1] at hx
      rcases List.eq_nil_or_concat l1 with e | ⟨init, p, e⟩
      · subst e; simp at hx
      · subst e
        simp at hx
        subst hx
        have := hw.1
        rw [List.concat_eq_append, nextOK_append] at this
        exact this.2.1

theorem delete_removes_target_witness :
    WellFormedWith twoNodes [0, 1] ∧ 0 ∈ [0, 1] ∧
    ∃ d', delete twoNodes 0 = some d' ∧ toArray twoNodes = some [0, 1] ∧
      toArray d' = some ([0, 1].erase 0) ∧ 0 ∉ [0, 1].erase 0 ∧
      ([0, 1].erase 0).length + 1 = [0, 1].length ∧
      d'.size = twoNodes.size - 1 ∧
      (twoNodes.head = some 0 →
        d'.head = (twoNodes.heap 0).next ∧ ∀ x, d'.head = some x → (d'.heap x).prev = none) ∧
      (twoNodes.tail = some 0 →
        d'.tail = (twoNodes.heap 0).prev ∧ ∀ x, d'.tail = some x → (d'.heap x).next = none) :=
  ⟨twoNodes_wellFormedWith, by simp,
    delete_removes_target twoNodes [0, 1] 0 twoNodes_wellFormedWith (by simp)⟩

/-- C12: for every well-formed `DoublyLinkedList` with node sequence `l`, every
node `t` at position `k` of `l` and every value `v`, `insertBefore(t, v)` raises
no error and returns a node `n` that was not in the list and holds `v`;
afterwards `toArray()` returns `l` with `n` inserted at position `k`, right
before `t`, the other nodes in their previous order; `size` is one more, and
when `t` was the head the new node is the head. -/
theorem insertBefore_inserts (d : DoublyLinkedList) (l : List Nat) (t k : Nat) (v : Int)
    (h : WellFormedWith d l) (hk : l[k]? = some t) :
    ∃ d' n, insertBefore d t v = some (d', n) ∧ toArray d = some l ∧
      n ∉ l ∧ (d'.heap n).data = v ∧
      toArray d' = some (l.take k ++ n :: l.drop k) ∧
      (l.drop k).head? = some t ∧
      d'.size = d.size + 1 ∧
      (d.head = some t → d'.head = some n) := by
  have hklt : k < l.length := by
    by_contra hge
    rw [List.getElem?_eq_none (by omega)] at hk
    simp at hk
  have hget : l[k] = t := by
    rw [List.getElem?_eq_getElem hklt] at hk
    exact Option.some.inj hk
  have hdrop : l.drop k = t :: l.drop (k + 1) := by
    rw [← hget]; exact List.drop_eq_getElem_cons hklt
  have hsplit : l = l.take k ++ t :: l.drop (k + 1) := by
    rw [← hdrop, List.take_append_drop]
  have h' : WellFormedWith d (l.take k ++ t :: l.drop (k + 1)) := by rw [← hsplit]; exact h
  obtain ⟨d', n, hins, hn, hdata, hw⟩ :=
    insertBefore_wellFormedWith d (l.take k) (l.drop (k + 1)) t v h'
  refine ⟨d', n, hins, toArray_wellFormedWith h, by rw [hsplit]; exact hn, hdata, ?_, ?_, ?_, ?_⟩
  · rw [hdrop]; exact toArray_wellFormedWith hw
  · rw [hdrop]; rfl
  · rw [hw.2.2.2.2.2, h.2.2.2.2.2]
    have e1 : (l.take k ++ n :: t :: l.drop (k + 1)).length = l.length + 1 := by
      have := congrArg List.length hsplit
      simp at this ⊢
      omega
    rw [e1]; simp
  · intro hhd
    have hnd := wellFormedWith_nodup h'
    have htl1 : t ∉ l.take k := fun hm => (List.nodup_append.1 hnd).2.2 hm (by simp)
    have hl1 : l.take k = [] := by
      cases e : l.take k with
      | nil => rfl
      | cons a rest =>
        have e2 := h'.2.2.2.1
        rw [hhd, e, List.cons_append, List.head?_cons] at e2
        injection e2 with e2
        rw [e] at htl1
        exact absurd (e2 ▸ List.mem_cons_self a rest) htl1
    rw [hw.2.2.2.1, hl1]
    rfl

theorem insertBefore_inserts_witness :
    WellFormedWith twoNodes [0, 1] ∧ [0, 1][1]? = some 1 ∧
    ∃ d' n, insertBefore twoNodes 1 30 = some (d', n) ∧ toArray twoNodes = some [0, 1] ∧
      n ∉ [0, 1] ∧ (d'.heap n).data = 30 ∧
      toArray d' = some ([0, 1].take 1 ++ n :: [0, 1].drop 1) ∧
      ([0, 1].drop 1).head? = some 1 ∧
      d'.size = twoNodes.size + 1 ∧
      (twoNodes.head = some 1 → d'.head = some n) :=
  ⟨twoNodes_wellFormedWith, rfl,
    insertBefore_inserts twoNodes [0, 1] 1 1 30 twoNodes_wellFormedWith rfl⟩

end DLL

namespace SLL

@[simp] theorem sll_setNext_next (heap : Nat → Node) (a : Nat) (v : Option Nat) (b : Nat) :
    (setNext heap a v b).next = if b = a then v else (heap b).next := by
  unfold setNext
  split <;> simp_all

@[simp] theorem sll_setNext_data (heap : Nat → Node) (a : Nat) (v : Option Nat) (b : Nat) :
    (setNext heap a v b).data = (heap b).data := by
  unfold setNext
  split <;> simp_all

@[simp] theorem sll_nextOK_nil (heap : Nat → Node) (n : Option Nat) :
    NextOK heap [] n ↔ True :=
  Iff.rfl

@[simp] theorem sll_nextOK_cons (heap : Nat → Node) (a : Nat) (rest : List Nat)
    (n : Option Nat) :
    NextOK heap (a :: rest) n ↔ (heap a).next = headOr rest n ∧ NextOK heap rest n :=
  Iff.rfl

@[simp] theorem sll_headOr_nil (n : Option Nat) : headOr [] n = n := rfl

@[simp] theorem sll_headOr_cons (a : Nat) (l : List Nat) (n : Option Nat) :
    headOr (a :: l) n = some a := rfl

theorem sll_headOr_append (l1 l2 : List Nat) (n : Option Nat) :
    headOr (l1 ++ l2) n = headOr l1 (headOr l2 n) := by
  cases l1 <;> rfl

theorem sll_nextOK_congr {heap heap' : Nat → Node} {l : List Nat} {n : Option Nat}
    (h : ∀ a ∈ l, (heap' a).next = (heap a).next) (hl : NextOK heap l n) :
    NextOK heap' l n := by
  induction l with
  | nil => trivial
  | cons a rest ih =>
    exact ⟨(h a (by simp)).trans hl.1, ih (fun b hb => h b (by simp [hb])) hl.2⟩

theorem sll_nextOK_append (heap : Nat → Node) (l1 l2 : List Nat) (n : Option Nat) :
    NextOK heap (l1 ++ l2) n ↔ NextOK heap l1 (headOr l2 n) ∧ NextOK heap l2 n := by
  induction l1 with
  | nil => simp
  | cons a rest ih =>
    rw [List.cons_append, sll_nextOK_cons, sll_nextOK_cons, ih, sll_headOr_append]
    tauto

theorem sll_nextOK_unique (heap : Nat → Node) :
    ∀ (x y : List Nat), NextOK heap x none → NextOK heap y none →
      headOr x none = headOr y none → x = y := by
  intro x
  induction x with
  | nil =>
    intro y _ _ h
    cases y with
    | nil => rfl
    | cons b y => simp at h
  | cons a x ih =>
    intro y hx hy h
    cases y with
    | nil => simp at h
    | cons b y =>
      simp only [sll_headOr_cons, Option.some.injEq] at h
      subst h
      rw [ih y hx.2 hy.2 (hx.1.symm.trans hy.1)]

theorem sll_nextOK_nodup (heap : Nat → Node) :
    ∀ (l : List Nat), NextOK heap l none → l.Nodup := by
  intro l
  induction l with
  | nil => intro _; exact List.nodup_nil
  | cons a rest ih =>
    intro h
    refine List.nodup_cons.2 ⟨?_, ih h.2⟩
    intro hmem
    obtain ⟨r1, r2, hr⟩ := List.append_of_mem hmem
    have h2 : NextOK heap (a :: r2) none := by
      have := h.2
      rw [hr, sll_nextOK_append] at this
      exact this.2
    have e := sll_nextOK_unique heap (a :: rest) (a :: r2) h h2 rfl
    have hl := congrArg List.length e
    rw [hr] at hl
    simp at hl
    omega

theorem chainWith_nodup {d : SinglyLinkedList} {l : List Nat} (h : ChainWith d l) :
    l.Nodup :=
  sll_nextOK_nodup d.heap l h.1

theorem sll_length_le_fresh {l : List Nat} {n : Nat} (hnd : l.Nodup) (h : ∀ a ∈ l, a < n) :
    l.length ≤ n := by
  have hsub : l ⊆ List.range n := fun a ha => List.mem_range.2 (h a ha)
  simpa using (List.subperm_of_subset hnd hsub).length_le

theorem chainWith_length_le {d : SinglyLinkedList} {l : List Nat} (h : ChainWith d l) :
    l.length ≤ d.fresh :=
  sll_length_le_fresh (chainWith_nodup h) h.2.1

theorem sll_toArrayLoop_chain (heap : Nat → Node) :
    ∀ (l : List Nat) (fuel : Nat) (acc : List Nat), NextOK heap l none → l.length ≤ fuel →
      toArrayLoop heap fuel (headOr l none) acc = some (acc ++ l) := by
  intro l
  induction l with
  | nil =>
    intro fuel acc _ _
    cases fuel <;> simp [toArrayLoop]
  | cons a rest ih =>
    intro fuel acc h hlen
    cases fuel with
    | zero => simp at hlen
    | succ f =>
      simp only [sll_headOr_cons, toArrayLoop]
      rw [h.1, ih f (acc ++ [a]) h.2 (by simpa using hlen)]
      simp

theorem toArray_chainWith {d : SinglyLinkedList} {l : List Nat} (h : ChainWith d l) :
    toArray d = some l := by
  unfold toArray
  rw [h.2.2, sll_toArrayLoop_chain d.heap l d.fresh [] h.1 (chainWith_length_le h)]
  simp

theorem follow_chain (heap : Nat → Node) :
    ∀ (l : List Nat), NextOK heap l none →
      follow heap l.length (headOr l none) = none ∧
      ∀ k, k < l.length → follow heap k (headOr l none) = l[k]? := by
  intro l
  induction l with
  | nil => intro _; exact ⟨rfl, fun k hk => by simp at hk⟩
  | cons a rest ih =>
    intro h
    obtain ⟨h1, h2⟩ := ih h.2
    refine ⟨?_, ?_⟩
    · simp only [List.length_cons, sll_headOr_cons, follow]
      rw [h.1]; exact h1
    · intro k hk
      cases k with
      | zero => simp [follow]
      | succ k =>
        simp only [sll_headOr_cons, follow, List.getElem?_cons_succ]
        rw [h.1]
        exact h2 k (by simpa using hk)

theorem alloc_chainWith (d : SinglyLinkedList) (l : List Nat) (v : Int)
    (h : ChainWith d l) : ChainWith (alloc d v).1 l := by
  obtain ⟨hn, hfr, hh⟩ := h
  have hlt : ∀ b ∈ l, b ≠ d.fresh := fun b hb => Nat.ne_of_lt (hfr b hb)
  refine ⟨sll_nextOK_congr ?_ hn, ?_, hh⟩
  · intro b hb; simp [alloc, hlt b hb]
  · intro b hb; exact Nat.lt_succ_of_lt (hfr b hb)

theorem sll_insertAtHead_chain (d : SinglyLinkedList) (l : List Nat) (v : Int)
    (h : ChainWith d l) :
    (insertAtHead d v).2 = d.fresh ∧ ((insertAtHead d v).1.heap d.fresh).data = v ∧
    (insertAtHead d v).1.size = d.size + 1 ∧
    ChainWith (insertAtHead d v).1 (d.fresh :: l) := by
  obtain ⟨hn, hfr, hh⟩ := h
  have hlt : ∀ b ∈ l, b ≠ d.fresh := fun b hb => Nat.ne_of_lt (hfr b hb)
  have hfr' : ∀ a ∈ d.fresh :: l, a < d.fresh + 1 := by
    intro b hb
    rcases List.mem_cons.1 hb with hb | hb
    · simp [hb]
    · exact Nat.lt_succ_of_lt (hfr b hb)
  cases l with
  | nil =>
    simp only [sll_headOr_nil] at hh
    have e : insertAtHead d v =
        ({ heap := (alloc d v).1.heap, fresh := d.fresh + 1, head := some d.fresh,
           size := d.size + 1 }, d.fresh) := by
      simp [insertAtHead, alloc, hh]
    rw [e]
    exact ⟨rfl, by simp [alloc], rfl, by simp [alloc], hfr', rfl⟩
  | cons a rest =>
    simp only [sll_headOr_cons] at hh
    have e : insertAtHead d v =
        ({ heap := setNext (alloc d v).1.heap d.fresh (some a), fresh := d.fresh + 1,
           head := some d.fresh, size := d.size + 1 }, d.fresh) := by
      simp [insertAtHead, alloc, hh]
    rw [e]
    refine ⟨rfl, by simp [alloc], rfl, ⟨by simp, sll_nextOK_congr ?_ hn⟩, hfr', rfl⟩
    intro b hb
    simp [alloc, hlt b hb]

theorem lastLoop_chain (heap : Nat → Node) :
    ∀ (rest : List Nat) (c : Nat) (fuel : Nat), NextOK heap (c :: rest) none →
      rest.length ≤ fuel → lastLoop heap fuel c = (c :: rest).getLast? := by
  intro rest
  induction rest with
  | nil =>
    intro c fuel h _
    have hc : (heap c).next = none := h.1
    cases fuel <;> simp [lastLoop, hc]
  | cons b rest ih =>
    intro c fuel h hlen
    have hc : (heap c).next = some b := h.1
    cases fuel with
    | zero => simp at hlen
    | succ f =>
      simp only [lastLoop, hc]
      rw [ih b f h.2 (by simpa using hlen), List.getLast?_cons_cons]

theorem sll_insertAtTail_chain (d : SinglyLinkedList) (l : List Nat) (v : Int)
    (h : ChainWith d l) :
    ∃ d', insertAtTail d v = some (d', d.fresh) ∧ (d'.heap d.fresh).data = v ∧
      d'.size = d.size + 1 ∧ ChainWith d' (l ++ [d.fresh]) := by
  have hlen := chainWith_length_le h
  have hnd := chainWith_nodup h
  have h1 := alloc_chainWith d l v h
  obtain ⟨hn, hfr, hh⟩ := h
  have hlt : ∀ b ∈ l, b ≠ d.fresh := fun b hb => Nat.ne_of_lt (hfr b hb)
  have hfr' : ∀ a ∈ l ++ [d.fresh], a < d.fresh + 1 := by
    intro b hb
    rcases List.mem_append.1 hb with hb | hb
    · exact Nat.lt_succ_of_lt (hfr b hb)
    · simp at hb; simp [hb]
  rcases List.eq_nil_or_concat l with hl | ⟨init, t, hl⟩
  · subst hl
    simp only [sll_headOr_nil] at hh
    refine ⟨{ heap := (alloc d v).1.heap, fresh := d.fresh + 1, head := some d.fresh,
              size := d.size + 1 },
      by simp [insertAtTail, alloc, hh], by simp [alloc], rfl, by simp [alloc], hfr', rfl⟩
  · subst hl
    simp only [List.concat_eq_append] at *
    obtain ⟨c, rest, hcr⟩ : ∃ c rest, init ++ [t] = c :: rest := by
      cases init with
      | nil => exact ⟨t, [], rfl⟩
      | cons a init => exact ⟨a, init ++ [t], rfl⟩
    have hhead : d.head = some c := by rw [hh, hcr]; rfl
    have hlast : lastLoop (alloc d v).1.heap (alloc d v).1.fresh c = some t := by
      have hn1 := h1.1
      rw [hcr] at hn1
      rw [lastLoop_chain _ rest c _ hn1 (by
        have := congrArg List.length hcr
        simp [alloc] at this hlen ⊢
        omega), ← hcr]
      simp
    have htf : t ≠ d.fresh := hlt t (by simp)
    have htn : t ∉ init := by
      intro hmem
      have := List.disjoint_of_nodup_append hnd hmem
      simp at this
    rw [sll_nextOK_append] at hn
    have hlast' : lastLoop (fun b => if b = d.fresh then { data := v, next := none }
        else d.heap b) (d.fresh + 1) c = some t := hlast
    refine ⟨{ heap := setNext (alloc d v).1.heap t (some d.fresh), fresh := d.fresh + 1,
              head := d.head, size := d.size + 1 },
      by simp only [insertAtTail, alloc, hhead, hlast'], ?_, rfl, ?_, hfr', ?_⟩
    · simp [alloc]
    · rw [sll_nextOK_append, sll_nextOK_append]
      refine ⟨⟨sll_nextOK_congr ?_ hn.1, ?_⟩, ?_⟩
      · intro b hb
        have hbt : b ≠ t := by rintro rfl; exact htn hb
        simp [alloc, hbt, hlt b (by simp [hb])]
      · simp
      · simp [alloc, Ne.symm htf]
    · show d.head = _
      rw [hh]
      cases init <;> rfl

theorem sll_insertAfter_chain (d : SinglyLinkedList) (l1 l2 : List Nat) (t : Nat) (v : Int)
    (h : ChainWith d (l1 ++ t :: l2)) :
    (insertAfter d t v).2 = d.fresh ∧ ((insertAfter d t v).1.heap d.fresh).data = v ∧
    (insertAfter d t v).1.size = d.size + 1 ∧
    ChainWith (insertAfter d t v).1 (l1 ++ t :: d.fresh :: l2) := by
  have hnd := chainWith_nodup h
  obtain ⟨hn, hfr, hh⟩ := h
  have hlt : ∀ b ∈ l1 ++ t :: l2, b ≠ d.fresh := fun b hb => Nat.ne_of_lt (hfr b hb)
  have htf : t ≠ d.fresh := hlt t (by simp)
  rw [List.nodup_append] at hnd
  obtain ⟨_, hnd2, hdisj⟩ := hnd
  have htl1 : t ∉ l1 := fun hm => hdisj hm (by simp)
  have htl2 : t ∉ l2 := (List.nodup_cons.1 hnd2).1
  rw [sll_nextOK_append] at hn
  have hnext : (d.heap t).next = headOr l2 none := hn.2.1
  refine ⟨rfl, by simp [insertAfter, alloc, Ne.symm htf], rfl, ?_, ?_, ?_⟩
  · show NextOK _ (l1 ++ t :: d.fresh :: l2) none
    rw [sll_nextOK_append]
    refine ⟨sll_nextOK_congr ?_ hn.1, ?_, ?_, sll_nextOK_congr ?_ hn.2.2⟩
    · intro b hb
      have hbt : b ≠ t := fun e => htl1 (e ▸ hb)
      simp [insertAfter, alloc, hbt, hlt b (by simp [hb])]
    · simp [insertAfter, alloc]
    · simp only [insertAfter, alloc]
      simp [Ne.symm htf, htf, hnext]
    · intro b hb
      have hbt : b ≠ t := fun e => htl2 (e ▸ hb)
      simp [insertAfter, alloc, hbt, hlt b (by simp [hb])]
  · intro b hb
    have : b = d.fresh ∨ b ∈ l1 ++ t :: l2 := by
      simp only [List.mem_append, List.mem_cons] at hb ⊢; tauto
    rcases this with e | hm
    · simp [insertAfter, alloc, e]
    · exact Nat.lt_succ_of_lt (hfr b hm)
  · show d.head = _
    rw [hh]
    cases l1 <;> rfl

theorem predLoop_absent (heap : Nat → Node) (t : Nat) :
    ∀ (l : List Nat) (fuel : Nat), NextOK heap l none → t ∉ l → l.length ≤ fuel →
      predLoop heap t fuel (headOr l none) = some none := by
  intro l
  induction l with
  | nil =>
    intro fuel _ _ _
    cases fuel <;> rfl
  | cons a rest ih =>
    intro fuel h ht hlen
    have hne : (heap a).next ≠ some t := by
      rw [h.1]
      intro e
      cases rest with
      | nil => simp at e
      | cons b rest =>
        simp at e
        exact ht (by simp [e])
    cases fuel with
    | zero => simp at hlen
    | succ f =>
      simp only [sll_headOr_cons, predLoop, hne, if_false]
      rw [h.1]
      exact ih f h.2 (fun hm => ht (by simp [hm])) (by simpa using hlen)

theorem predLoop_found (heap : Nat → Node) (t p : Nat) (l2 : List Nat) :
    ∀ (init : List Nat) (fuel : Nat), NextOK heap (init ++ p :: t :: l2) none →
      (init ++ p :: t :: l2).Nodup → init.length ≤ fuel →
      predLoop heap t fuel (headOr (init ++ p :: t :: l2) none) = some (some p) := by
  intro init
  induction init with
  | nil =>
    intro fuel h _ _
    have hp : (heap p).next = some t := h.1
    cases fuel <;> simp [predLoop, hp]
  | cons a init ih =>
    intro fuel h hnd hlen
    rw [List.cons_append] at h hnd
    have h := (sll_nextOK_cons _ _ _ _).1 h
    have hne : (heap a).next ≠ some t := by
      rw [h.1, sll_headOr_append]
      intro e
      have hnd2 := List.nodup_cons.1 (List.nodup_append.1 (List.nodup_cons.1 hnd).2).2.1
      cases init with
      | nil =>
        simp at e
        exact hnd2.1 (by simp [e])
      | cons b init =>
        simp at e
        subst e
        exact (List.nodup_append.1 (List.nodup_cons.1 hnd).2).2.2
          (show b ∈ b :: init by simp) (by simp)
    cases fuel with
    | zero => simp at hlen
    | succ f =>
      simp only [List.cons_append, sll_headOr_cons, predLoop, hne, if_false]
      rw [h.1]
      exact ih f h.2 (List.nodup_cons.1 hnd).2 (by simpa using hlen)

theorem sll_delete_chain (d : SinglyLinkedList) (l1 l2 : List Nat) (t : Nat)
    (h : ChainWith d (l1 ++ t :: l2)) :
    ∃ d', delete d t = some d' ∧ d'.size = d.size - 1 ∧ ChainWith d' (l1 ++ l2) := by
  have hnd := chainWith_nodup h
  have hlen := chainWith_length_le h
  obtain ⟨hn, hfr, hh⟩ := h
  have hnd0 := hnd
  rw [List.nodup_append] at hnd
  obtain ⟨hnd1, hnd2, hdisj⟩ := hnd
  have htl1 : t ∉ l1 := fun hm => hdisj hm (by simp)
  have htl2 : t ∉ l2 := (List.nodup_cons.1 hnd2).1
  have hfr' : ∀ a ∈ l1 ++ l2, a < d.fresh := by
    intro b hb
    exact hfr b (by simp at hb ⊢; tauto)
  have hn0 := hn
  rw [sll_nextOK_append] at hn
  have hnext : (d.heap t).next = headOr l2 none := hn.2.1
  rcases List.eq_nil_or_concat l1 with hl | ⟨init, p, hl⟩
  · subst hl
    have hhd : some t = d.head := by rw [hh]; rfl
    refine ⟨{ d with head := (d.heap t).next, size := d.size - 1 },
      by simp [delete, hhd], rfl, hn.2.2, hfr', ?_⟩
    show (d.heap t).next = _
    rw [hnext]; rfl
  · subst hl
    simp only [List.concat_eq_append, List.append_assoc, List.singleton_append] at *
    have hpt : p ≠ t := fun e => htl1 (by simp [e])
    have hhd : ¬ (some t = d.head) := by
      rw [hh]
      intro e
      cases init with
      | nil => simp at e; exact hpt e.symm
      | cons a init =>
        simp at e
        exact htl1 (by simp [e])
    have hpred : predLoop d.heap t d.fresh d.head = some (some p) := by
      rw [hh]
      refine predLoop_found d.heap t p l2 init d.fresh hn0 hnd0 ?_
      simp at hlen
      omega
    have hpinit : p ∉ init := by
      intro hm
      have := List.disjoint_of_nodup_append hnd1 hm
      simp at this
    have hpl2 : p ∉ l2 := fun hm => hdisj (show p ∈ init ++ [p] by simp) (by simp [hm])
    rw [sll_nextOK_append] at hn
    refine ⟨{ d with heap := setNext d.heap p (d.heap t).next, size := d.size - 1 },
      by simp [delete, hhd, hpred], rfl, ?_, hfr', ?_⟩
    · show NextOK _ (init ++ p :: l2) none
      rw [sll_nextOK_append]
      refine ⟨sll_nextOK_congr ?_ hn.1.1, ?_, sll_nextOK_congr ?_ hn.2.2⟩
      · intro b hb
        have hbp : b ≠ p := fun e => hpinit (e ▸ hb)
        simp [hbp]
      · simp [hnext]
      · intro b hb
        have hbp : b ≠ p := fun e => hpl2 (e ▸ hb)
        simp [hbp]
    · show d.head = _
      rw [hh]
      cases init <;> rfl

theorem sll_delete_absent (d : SinglyLinkedList) (l : List Nat) (t : Nat)
    (h : ChainWith d l) (ht : t ∉ l) :
    delete d t = some { d with size := d.size - 1 } := by
  have hlen := chainWith_length_le h
  obtain ⟨hn, hfr, hh⟩ := h
  have hhd : ¬ (some t = d.head) := by
    rw [hh]
    intro e
    cases l with
    | nil => simp at e
    | cons a l =>
      simp at e
      exact ht (by simp [e])
  have hpred : predLoop d.heap t d.fresh d.head = some none := by
    rw [hh]
    exact predLoop_absent d.heap t l d.fresh hn ht hlen
  simp [delete, hhd, hpred]

theorem reverseLoop_chain :
    ∀ (todo done : List Nat) (heap : Nat → Node) (fuel : Nat),
      NextOK heap done.reverse none → NextOK heap todo none → (done ++ todo).Nodup →
      todo.length ≤ fuel →
      ∃ heap', reverseLoop heap fuel (headOr done.reverse none) (headOr todo none) =
          some (heap', headOr (done ++ todo).reverse none) ∧
        NextOK heap' (done ++ todo).reverse none ∧
        (∀ b, (heap' b).data = (heap b).data) := by
  intro todo
  induction todo with
  | nil =>
    intro done heap fuel hd _ _ _
    refine ⟨heap, ?_, by simpa using hd, fun _ => rfl⟩
    cases fuel <;> simp [reverseLoop]
  | cons c todo ih =>
    intro done heap fuel hd ht hnd hlen
    cases fuel with
    | zero => simp at hlen
    | succ f =>
      have hcd : c ∉ done := fun hm => (List.nodup_append.1 hnd).2.2 hm (by simp)
      have hct : c ∉ todo := (List.nodup_cons.1 (List.nodup_append.1 hnd).2.1).1
      have hd' : NextOK (setNext heap c (headOr done.reverse none)) (done ++ [c]).reverse none := by
        rw [List.reverse_append]
        refine ⟨by simp, sll_nextOK_congr ?_ hd⟩
        intro b hb
        have hbc : b ≠ c := fun e => hcd (by simpa [e] using hb)
        simp [hbc]
      have ht' : NextOK (setNext heap c (headOr done.reverse none)) todo none := by
        refine sll_nextOK_congr ?_ ht.2
        intro b hb
        have hbc : b ≠ c := fun e => hct (e ▸ hb)
        simp [hbc]
      obtain ⟨heap', h1, h2, h4⟩ :=
        ih (done ++ [c]) (setNext heap c (headOr done.reverse none)) f hd' ht'
          (by simpa using hnd) (by simpa using hlen)
      have hstep : reverseLoop heap (f + 1) (headOr done.reverse none) (headOr (c :: todo) none)
          = reverseLoop (setNext heap c (headOr done.reverse none)) f
              (headOr (done ++ [c]).reverse none) (headOr todo none) := by
        simp only [sll_headOr_cons, reverseLoop]
        rw [ht.1]
        simp
      refine ⟨heap', ?_, by simpa using h2, ?_⟩
      · rw [hstep, h1]; simp
      · intro b
        rw [h4 b]; simp

theorem sll_reverse_chain (d : SinglyLinkedList) (l : List Nat) (h : ChainWith d l) :
    ∃ d', reverse d = some d' ∧ d'.size = d.size ∧ d'.fresh = d.fresh ∧
      (∀ b, (d'.heap b).data = (d.heap b).data) ∧ ChainWith d' l.reverse := by
  have hnd := chainWith_nodup h
  have hlen := chainWith_length_le h
  obtain ⟨hn, hfr, hh⟩ := h
  obtain ⟨heap', h1, h2, h3⟩ :=
    reverseLoop_chain l [] d.heap d.fresh (by simp) hn (by simpa using hnd) hlen
  simp only [List.reverse_nil, sll_headOr_nil, List.nil_append] at h1 h2
  refine ⟨{ d with heap := heap', head := headOr l.reverse none }, ?_, rfl, rfl, h3, h2, ?_, rfl⟩
  · simp [reverse, hh, h1]
  · intro b hb
    exact hfr b (by simpa using hb)

theorem setNext_self (heap : Nat → Node) (a : Nat) (v : Option Nat)
    (h : (heap a).next = v) : setNext heap a v = heap := by
  funext b
  unfold setNext
  by_cases hb : b = a
  · subst hb
    rw [if_pos rfl, ← h]
  · rw [if_neg hb]

theorem sll_reverse_short (d : SinglyLinkedList) (l : List Nat) (h : ChainWith d l)
    (hlt : l.length < 2) : reverse d = some d := by
  have hlen := chainWith_length_le h
  obtain ⟨hn, hfr, hh⟩ := h
  match l, hlt with
  | [], _ =>
    simp only [sll_headOr_nil] at hh
    have e : reverseLoop d.heap d.fresh none d.head = some (d.heap, none) := by
      rw [hh]; cases d.fresh <;> rfl
    simp only [reverse, e]
    rw [← hh]
  | [c], _ =>
    simp only [sll_headOr_cons] at hh
    have hc : (d.heap c).next = none := hn.1
    obtain ⟨f, hf⟩ : ∃ f, d.fresh = f + 1 := ⟨d.fresh - 1, by simp at hlen; omega⟩
    have e : reverseLoop d.heap d.fresh none d.head = some (d.heap, some c) := by
      rw [hh, hf]
      simp only [reverseLoop, hc]
      rw [setNext_self d.heap c none hc]
    simp only [reverse, e]
    rw [← hh]

theorem sll_clear_wellFormedWith (d : SinglyLinkedList) : WellFormedWith (clear d) [] :=
  ⟨⟨trivial, by simp, rfl⟩, rfl⟩

theorem twoNodes_sll_wellFormedWith : WellFormedWith twoNodes [1, 0] := by
  refine ⟨⟨?_, ?_, ?_⟩, ?_⟩ <;> simp [twoNodes, insertAtHead, alloc, empty]

/-- C13: the size invariant of `SinglyLinkedList` is preserved by every
operation.  If the chain from `head` is acyclic with node sequence `l` and
`size` is the length of `l` (so that following `next` from `head` exactly
`size` times reaches an empty link), then `toArray()` returns `l`, following
`next` from `head` for `size` steps reaches an empty link, and the invariant
holds again after `insertAtHead`, `insertAtTail`, after `insertAfter` and
`delete` with any target node of `l`, after `reverse` and after `clear`; none of
the loops involved fails to end. -/
theorem sll_wellFormed_preserved (d : SinglyLinkedList) (l : List Nat) (v : Int)
    (h : WellFormedWith d l) :
    toArray d = some l ∧
    follow d.heap l.length d.head = none ∧
    WellFormed (insertAtHead d v).1 ∧
    (∃ d' n, insertAtTail d v = some (d', n) ∧ WellFormed d') ∧
    (∀ t ∈ l, WellFormed (insertAfter d t v).1) ∧
    (∀ t ∈ l, ∃ d', delete d t = some d' ∧ WellFormed d') ∧
    (∃ d', reverse d = some d' ∧ WellFormed d') ∧
    WellFormed (clear d) := by
  obtain ⟨hc, hs⟩ := h
  refine ⟨toArray_chainWith hc, ?_, ?_, ?_, ?_, ?_, ?_, ⟨[], sll_clear_wellFormedWith d⟩⟩
  · rw [hc.2.2]; exact (follow_chain d.heap l hc.1).1
  · obtain ⟨_, _, h3, h4⟩ := sll_insertAtHead_chain d l v hc
    exact ⟨_, h4, by rw [h3, hs]; simp⟩
  · obtain ⟨d', h1, _, h3, h4⟩ := sll_insertAtTail_chain d l v hc
    exact ⟨d', _, h1, _, h4, by rw [h3, hs]; simp⟩
  · intro t ht
    obtain ⟨l1, l2, hl⟩ := List.append_of_mem ht
    subst hl
    obtain ⟨_, _, h3, h4⟩ := sll_insertAfter_chain d l1 l2 t v hc
    exact ⟨_, h4, by rw [h3, hs]; simp; omega⟩
  · intro t ht
    obtain ⟨l1, l2, hl⟩ := List.append_of_mem ht
    subst hl
    obtain ⟨d', h1, h2, h3⟩ := sll_delete_chain d l1 l2 t hc
    exact ⟨d', h1, _, h3, by rw [h2, hs]; simp; omega⟩
  · obtain ⟨d', h1, h2, _, _, h3⟩ := sll_reverse_chain d l hc
    exact ⟨d', h1, _, h3, by rw [h2, hs]; simp⟩

theorem sll_wellFormed_preserved_witness :
    WellFormedWith twoNodes [1, 0] ∧
    (toArray twoNodes = some [1, 0] ∧
    follow twoNodes.heap [1, 0].length twoNodes.head = none ∧
    WellFormed (insertAtHead twoNodes 30).1 ∧
    (∃ d' n, insertAtTail twoNodes 30 = some (d', n) ∧ WellFormed d') ∧
    (∀ t ∈ [1, 0], WellFormed (insertAfter twoNodes t 30).1) ∧
    (∀ t ∈ [1, 0], ∃ d', delete twoNodes t = some d' ∧ WellFormed d') ∧
    (∃ d', reverse twoNodes = some d' ∧ WellFormed d') ∧
    WellFormed (clear twoNodes)) :=
  ⟨twoNodes_sll_wellFormedWith,
    sll_wellFormed_preserved twoNodes [1, 0] 30 twoNodes_sll_wellFormedWith⟩

/-- C14: for every acyclic `SinglyLinkedList` with node sequence `l`,
`reverse()` ends and afterwards `toArray()` returns exactly the reverse of `l`,
every node keeps its data and `size` is unchanged; a list with fewer than two
nodes is left unchanged altogether.  The same holds for
`SLLVisualizer.reverseList()` on a list whose `size` is the length of `l`. -/
theorem sll_reverse_reverses (d : SinglyLinkedList) (l : List Nat) (h : ChainWith d l) :
    toArray d = some l ∧
    (∃ d', reverse d = some d' ∧ toArray d' = some l.reverse ∧ d'.size = d.size ∧
      (∀ b, (d'.heap b).data = (d.heap b).data) ∧ (l.length < 2 → d' = d)) ∧
    (∀ sel, d.size = (l.length : Int) →
      ∃ v', Visualizer.reverseList { sll := d, selectedNode := sel } = some v' ∧
        toArray v'.sll = some l.reverse ∧ v'.sll.size = d.size ∧ v'.selectedNode = sel ∧
        (l.length < 2 → v'.sll = d)) := by
  obtain ⟨d', h1, h2, _, h4, h5⟩ := sll_reverse_chain d l h
  have hshort : l.length < 2 → d' = d := by
    intro hlt
    have := sll_reverse_short d l h hlt
    rw [h1] at this
    exact Option.some.inj this
  refine ⟨toArray_chainWith h, ⟨d', h1, toArray_chainWith h5, h2, h4, hshort⟩, ?_⟩
  intro sel hs
  by_cases hlt : d.size < 2
  · have hl : l.length < 2 := by rw [hs] at hlt; omega
    refine ⟨{ sll := d, selectedNode := sel }, by simp [Visualizer.reverseList, hlt], ?_, rfl,
      rfl, fun _ => rfl⟩
    have hrev : l.reverse = l := by
      match l, hl with
      | [], _ => rfl
      | [_], _ => rfl
    rw [hrev]
    exact toArray_chainWith h
  · have hl : ¬ l.length < 2 := by rw [hs] at hlt; omega
    exact ⟨{ sll := d', selectedNode := sel }, by simp [Visualizer.reverseList, hlt, h1],
      toArray_chainWith h5, h2, rfl, fun hx => absurd hx hl⟩

theorem sll_reverse_reverses_witness :
    ChainWith twoNodes [1, 0] ∧
    (toArray twoNodes = some [1, 0] ∧
    (∃ d', reverse twoNodes = some d' ∧ toArray d' = some [1, 0].reverse ∧
      d'.size = twoNodes.size ∧
      (∀ b, (d'.heap b).data = (twoNodes.heap b).data) ∧ ([1, 0].length < 2 → d' = twoNodes)) ∧
    (∀ sel, twoNodes.size = (([1, 0] : List Nat).length : Int) →
      ∃ v', Visualizer.reverseList { sll := twoNodes, selectedNode := sel } = some v' ∧
        toArray v'.sll = some [1, 0].reverse ∧ v'.sll.size = twoNodes.size ∧
        v'.selectedNode = sel ∧ ([1, 0].length < 2 → v'.sll = twoNodes))) :=
  ⟨twoNodes_sll_wellFormedWith.1,
    sll_reverse_reverses twoNodes [1, 0] twoNodes_sll_wellFormedWith.1⟩

end SLL

namespace CircularList

theorem findIndex_neg_iff (l : List Node) (id : Nat) :
    findIndex l id < 0 ↔ ∀ n ∈ l, n.id ≠ id := by
  induction l with
  | nil => simp [findIndex]
  | cons a rest ih =>
    unfold findIndex
    by_cases ha : a.id = id
    · simp [ha]
    · simp only [ha, if_false]
      by_cases hr : findIndex rest id < 0
      · simp only [hr, if_true]
        have := ih.1 hr
        simp [ha]
        exact this
      · simp only [hr, if_false]
        have h1 : ¬ (findIndex rest id + 1 < 0) := by omega
        have h2 : ¬ ∀ n ∈ rest, n.id ≠ id := fun h => hr (ih.2 h)
        simp only [h1, false_iff]
        intro h
        exact h2 (fun n hn => h n (by simp [hn]))

theorem findIndex_ge (l : List Node) (id : Nat) : -1 ≤ findIndex l id := by
  induction l with
  | nil => simp [findIndex]
  | cons a rest ih =>
    unfold findIndex
    split
    · omega
    · split <;> omega

theorem findIndex_eq_of_nodup (l : List Node) (k : Nat) (n : Node)
    (hnd : (l.map Node.id).Nodup) (hk : l[k]? = some n) :
    findIndex l n.id = (k : Int) := by
  induction l generalizing k with
  | nil => simp at hk
  | cons a rest ih =>
    cases k with
    | zero =>
      simp at hk
      subst hk
      simp [findIndex]
    | succ k =>
      simp only [List.getElem?_cons_succ] at hk
      simp only [List.map_cons, List.nodup_cons] at hnd
      have hmem : n ∈ rest := List.getElem?_mem hk
      have hne : a.id ≠ n.id := by
        intro e
        exact hnd.1 (by rw [e]; exact List.mem_map_of_mem _ hmem)
      have := ih k hnd.2 hk
      unfold findIndex
      simp only [hne, if_false, this]
      have h1 : ¬ ((k : Int) < 0) := by omega
      simp [h1]

theorem getAt_natCast (l : List Node) (k : Nat) : getAt l (k : Int) = l[k]? := by
  simp [getAt]

theorem addNode_ids (s : State) (v : Int) (index : Nat)
    (hnd : (s.list.map Node.id).Nodup) (hlt : ∀ n ∈ s.list, n.id < s.nextId) :
    ((addNode s v index).list.map Node.id).Nodup ∧
    (∀ n ∈ (addNode s v index).list, n.id < (addNode s v index).nextId) ∧
    (∀ n ∈ s.list, n ∈ (addNode s v index).list) := by
  have hsplit : s.list = s.list.take index ++ s.list.drop index :=
    (List.take_append_drop index s.list).symm
  have hmem : ∀ n, n ∈ s.list ↔ n ∈ s.list.take index ∨ n ∈ s.list.drop index := by
    intro n
    conv_lhs => rw [hsplit]
    exact List.mem_append
  refine ⟨?_, ?_, ?_⟩
  · have hperm : ((addNode s v index).list.map Node.id).Perm (s.nextId :: s.list.map Node.id) := by
      simp only [addNode, List.map_append, List.map_cons]
      refine List.perm_middle.trans (List.Perm.cons _ ?_)
      rw [← List.map_append, List.take_append_drop]
    rw [hperm.nodup_iff, List.nodup_cons]
    refine ⟨?_, hnd⟩
    intro hm
    obtain ⟨n, hn, e⟩ := List.mem_map.1 hm
    have := hlt n hn
    omega
  · intro n hn
    simp only [addNode, List.mem_append, List.mem_cons] at hn ⊢
    rcases hn with hn | hn | hn
    · exact Nat.lt_succ_of_lt (hlt n ((hmem n).2 (Or.inl hn)))
    · subst hn; simp
    · exact Nat.lt_succ_of_lt (hlt n ((hmem n).2 (Or.inr hn)))
  · intro n hn
    simp only [addNode, List.mem_append, List.mem_cons]
    rcases (hmem n).1 hn with h | h
    · exact Or.inl h
    · exact Or.inr (Or.inr h)

theorem inv_resetList (s : State) : Inv (resetList s) := by
  refine ⟨?_, ?_, ?_⟩
  · simp [resetList, addNode]
  · simp [resetList, addNode]
  · intro sel h
    simp [resetList, addNode] at h

theorem inv_selectNode (s : State) (id : Nat) (h : Inv s) : Inv (selectNode s id) := by
  unfold selectNode
  by_cases hf : findIndex s.list id < 0
  · rw [if_pos hf]; exact h
  · rw [if_neg hf]
    refine ⟨h.1, h.2.1, ?_⟩
    intro sel hsel
    simp only [Option.some.injEq] at hsel
    subst hsel
    by_contra hne
    exact hf ((findIndex_neg_iff _ _).2 (fun n hn e => hne ⟨n, hn, e⟩))

theorem inv_insertAfterSelected (s : State) (input : Option Int) (h : Inv s) :
    Inv (insertAfterSelected s input).state := by
  unfold insertAfterSelected
  cases hsel : s.selectedId with
  | none => exact h
  | some sel =>
    cases input with
    | none => exact h
    | some value =>
      obtain ⟨h1, h2, h3⟩ := addNode_ids s value (findIndex s.list sel + 1).toNat h.1 h.2.1
      have hinv : Inv (addNode s value (findIndex s.list sel + 1).toNat) := by
        refine ⟨h1, h2, ?_⟩
        intro sel' hsel'
        obtain ⟨n, hn, e⟩ := h.2.2 sel' (by simpa [addNode] using hsel')
        exact ⟨n, h3 n hn, e⟩
      simp only []
      split <;> exact hinv

theorem inv_deleteSelected (s : State) (h : Inv s) : Inv (deleteSelected s).state := by
  unfold deleteSelected
  cases hp : deleteSelectedStart s with
  | none => exact h
  | some p =>
    cases p with
    | sole =>
      refine ⟨by simp [deleteSelectedFinish], by simp [deleteSelectedFinish], ?_⟩
      intro sel hsel
      simp [deleteSelectedFinish] at hsel
    | multi idx =>
      have hsub : (s.list.eraseIdx idx).Sublist s.list := List.eraseIdx_sublist _ _
      have hnd : ((s.list.eraseIdx idx).map Node.id).Nodup :=
        h.1.sublist (hsub.map _)
      have hlt : ∀ n ∈ s.list.eraseIdx idx, n.id < s.nextId :=
        fun n hn => h.2.1 n (hsub.subset hn)
      simp only [deleteSelectedFinish]
      split
      · rename_i newSel hget
        refine ⟨hnd, hlt, ?_⟩
        intro sel hsel
        simp only [Option.some.injEq] at hsel
        subst hsel
        refine ⟨newSel, ?_, rfl⟩
        unfold getAt at hget
        split at hget
        · exact List.getElem?_mem hget
        · simp at hget
      · refine ⟨hnd, hlt, ?_⟩
        intro sel hsel
        exfalso
        rename_i hget
        -- the list after the removal is not empty, so the read cannot fail
        have hs : s.selectedId ≠ none := by rw [show s.selectedId = some sel from hsel]; simp
        unfold deleteSelectedStart at hp
        cases hsel0 : s.selectedId with
        | none => exact hs hsel0
        | some sel0 =>
          simp only [hsel0] at hp
          split at hp
          · simp at hp
          · rename_i hfi
            split at hp
            · simp at hp
            · rename_i hlen
              have hne : s.list ≠ [] := by
                intro e
                rw [e] at hfi
                simp [findIndex] at hfi
              have hl0 : 0 < s.list.length := List.length_pos.2 hne
              have hlen2 : 2 ≤ s.list.length := by omega
              have hel : (s.list.eraseIdx idx).length + 1 ≥ s.list.length := by
                rw [List.length_eraseIdx]
                split <;> omega
              unfold getAt at hget
              have hnn : (0 : Int) ≤ min (idx : Int) (((s.list.eraseIdx idx).length : Int) - 1) := by
                omega
              rw [if_pos hnn] at hget
              rw [List.getElem?_eq_none_iff] at hget
              omega

theorem reachable_inv {s : State} (h : Reachable s) : Inv s := by
  induction h with
  | reset s => exact inv_resetList s
  | select s id _ ih => exact inv_selectNode s id ih
  | insert s input _ ih => exact inv_insertAfterSelected s input ih
  | delete s _ ih => exact inv_deleteSelected s ih

theorem findIndex_spec (l : List Node) (id : Nat) (k : Nat)
    (h : findIndex l id = (k : Int)) : ∃ n, l[k]? = some n ∧ n.id = id := by
  induction l generalizing k with
  | nil => simp [findIndex] at h
  | cons a rest ih =>
    unfold findIndex at h
    by_cases ha : a.id = id
    · simp only [ha, if_true] at h
      have : k = 0 := by omega
      subst this
      exact ⟨a, by simp, ha⟩
    · simp only [ha, if_false] at h
      by_cases hr : findIndex rest id < 0
      · simp only [hr, if_true] at h
        omega
      · simp only [hr, if_false] at h
        cases k with
        | zero => have := findIndex_ge rest id; omega
        | succ k =>
          obtain ⟨n, hn, e⟩ := ih k (by push_cast at h; omega)
          exact ⟨n, by simpa using hn, e⟩

theorem insertAfterSelected_at (s : State) (k : Nat) (sel : Nat) (v : Int)
    (hsel : s.selectedId = some sel) (hk : findIndex s.list sel = (k : Int)) :
    insertAfterSelected s (some v) =
      { state := addNode s v (k + 1), raised := false } := by
  obtain ⟨n, hn, _⟩ := findIndex_spec s.list sel k hk
  have hklt : k < s.list.length := by
    by_contra hge
    rw [List.getElem?_eq_none (by omega)] at hn
    simp at hn
  have hget : getAt (addNode s v (k + 1)).list (k : Int) = some n := by
    rw [getAt_natCast]
    simp only [addNode]
    rw [List.getElem?_append_left (by simp; omega), List.getElem?_take_of_lt (by omega)]
    exact hn
  have e : ((k : Int) + 1).toNat = k + 1 := by omega
  simp only [insertAfterSelected, hsel, hk, e, hget]

theorem reachable_no_raise {s : State} (h : Reachable s) (input : Option Int) :
    (insertAfterSelected s input).raised = false := by
  have hinv := reachable_inv h
  cases hsel : s.selectedId with
  | none => simp [insertAfterSelected, hsel]
  | some sel =>
    cases input with
    | none => simp [insertAfterSelected, hsel]
    | some v =>
      obtain ⟨n, hn, e⟩ := hinv.2.2 sel hsel
      have hnn : ¬ findIndex s.list sel < 0 := by
        intro hneg
        exact (findIndex_neg_iff _ _).1 hneg n hn e
      obtain ⟨k, hk⟩ : ∃ k : Nat, findIndex s.list sel = (k : Int) :=
        ⟨(findIndex s.list sel).toNat, by omega⟩
      rw [insertAfterSelected_at s k sel v hsel hk]

/-- C17: in the circular singly linked list visualizer, for every list with
pairwise different ids, every selected node at index `k` and every integer
input `v`, `insertAfterSelected` raises no error and produces the list with
one new node of value `v` at index `k + 1`, all previous nodes in their
previous order, the last node still closing to the first; starting from
`[10,20,30,50]` with 20 selected, inserting 99 yields `[10,20,99,30,50]`, whose
tail 50 points back to the head 10. -/
theorem insertAfterSelected_inserts (s : State) (k : Nat) (n : Node) (v : Int)
    (hnd : (s.list.map Node.id).Nodup) (hk : s.list[k]? = some n)
    (hsel : s.selectedId = some n.id) :
    (insertAfterSelected s (some v)).raised = false ∧
    (insertAfterSelected s (some v)).state.list =
      s.list.take (k + 1) ++ { id := s.nextId, value := v } :: s.list.drop (k + 1) ∧
    (insertAfterSelected s (some v)).state.list[k + 1]? = some { id := s.nextId, value := v } ∧
    (insertAfterSelected s (some v)).state.list.length = s.list.length + 1 ∧
    nextIdx (insertAfterSelected s (some v)).state.list
      ((insertAfterSelected s (some v)).state.list.length - 1) = 0 ∧
    (insertAfterSelected (selectNode initial 2) (some 99)).state.list.map Node.value =
      [10, 20, 99, 30, 50] ∧
    ((insertAfterSelected (selectNode initial 2) (some 99)).state.list[4]?).map Node.value =
      some 50 ∧
    ((insertAfterSelected (selectNode initial 2) (some 99)).state.list[
      nextIdx (insertAfterSelected (selectNode initial 2) (some 99)).state.list 4]?).map
        Node.value = some 10 := by
  have hklt : k < s.list.length := by
    by_contra hge
    rw [List.getElem?_eq_none (by omega)] at hk
    simp at hk
  rw [insertAfterSelected_at s k n.id v hsel (findIndex_eq_of_nodup s.list k n hnd hk)]
  have hlen : (addNode s v (k + 1)).list.length = s.list.length + 1 := by
    simp [addNode]
    omega
  refine ⟨rfl, rfl, ?_, hlen, ?_, by decide, by decide, by decide⟩
  · show (addNode s v (k + 1)).list[k + 1]? = _
    simp only [addNode]
    rw [List.getElem?_append_right (by simp)]
    have e : k + 1 - (List.take (k + 1) s.list).length = 0 := by
      rw [List.length_take]; omega
    rw [e]
    simp
  · show nextIdx (addNode s v (k + 1)).list ((addNode s v (k + 1)).list.length - 1) = 0
    unfold nextIdx
    rw [if_neg (by omega)]

theorem insertAfterSelected_inserts_witness :
    ((selectNode initial 2).list.map Node.id).Nodup ∧
    (selectNode initial 2).list[1]? = some { id := 2, value := 20 } ∧
    (selectNode initial 2).selectedId = some 2 ∧
    (insertAfterSelected (selectNode initial 2) (some 99)).state.list =
      (selectNode initial 2).list.take (1 + 1) ++
        { id := (selectNode initial 2).nextId, value := 99 } ::
          (selectNode initial 2).list.drop (1 + 1) :=
  ⟨by decide, by decide, by decide,
    (insertAfterSelected_inserts (selectNode initial 2) 1 { id := 2, value := 20 } 99
      (by decide) (by decide) (by decide)).2.1⟩

/-- C18, the defect: on the state the page reaches when the delete button is
pressed twice on a two-node list before the first removal takes place, the
list is empty while `selectedId` still names node 4; `insertAfterSelected` with
the input 7 then adds a node at the front of the list and raises a
`TypeError`, where the claim asks for a silent no-op. -/
theorem insertAfterSelected_stale_selection :
    twoLeft.list = [{ id := 3, value := 30 }, { id := 4, value := 50 }] ∧
    twoLeft.selectedId = some 3 ∧
    deleteSelectedStart twoLeft = some (Pending.multi 0) ∧
    staleState.list = [] ∧ staleState.selectedId = some 4 ∧
    (insertAfterSelected staleState (some 7)).raised = true ∧
    (insertAfterSelected staleState (some 7)).state.list = [{ id := 5, value := 7 }] := by
  decide

theorem deleteSelected_sole (s : State) (n : Node) (hl : s.list = [n])
    (hsel : s.selectedId = some n.id) :
    deleteSelected s =
      { state := { s with list := [], selectedId := none }, raised := false } := by
  simp [deleteSelected, deleteSelectedStart, hsel, hl, findIndex, deleteSelectedFinish]

theorem deleteSelected_multi (s : State) (k : Nat) (n : Node)
    (hnd : (s.list.map Node.id).Nodup) (hk : s.list[k]? = some n)
    (hsel : s.selectedId = some n.id) (hlen : s.list.length ≠ 1) :
    ∃ m, (s.list.eraseIdx k)[min k (s.list.length - 2)]? = some m ∧
      deleteSelected s =
        { state := { s with list := s.list.eraseIdx k, selectedId := some m.id },
          raised := false } := by
  have hf := findIndex_eq_of_nodup s.list k n hnd hk
  have hklt : k < s.list.length := by
    by_contra hge
    rw [List.getElem?_eq_none (by omega)] at hk
    simp at hk
  have hlen' : (s.list.eraseIdx k).length = s.list.length - 1 :=
    List.length_eraseIdx_of_lt hklt
  have hlt : min k (s.list.length - 2) < (s.list.eraseIdx k).length := by
    rw [hlen']; omega
  have hcast : min (k : Int) (((s.list.eraseIdx k).length : Int) - 1) =
      ((min k (s.list.length - 2) : Nat) : Int) := by
    rw [hlen']; omega
  refine ⟨(s.list.eraseIdx k)[min k (s.list.length - 2)], List.getElem?_eq_getElem hlt, ?_⟩
  have hg : getAt (s.list.eraseIdx k) (min (k : Int) (((s.list.eraseIdx k).length : Int) - 1)) =
      some (s.list.eraseIdx k)[min k (s.list.length - 2)] := by
    rw [hcast, getAt_natCast, List.getElem?_eq_getElem hlt]
  simp only [deleteSelected, deleteSelectedStart, hsel, hf]
  rw [if_neg (by omega), if_neg hlen]
  simp only [Int.toNat_ofNat, deleteSelectedFinish, hg]

theorem eraseIdx_id_absent (l : List Node) (k : Nat) (n : Node)
    (hnd : (l.map Node.id).Nodup) (hk : l[k]? = some n) :
    ∀ m ∈ l.eraseIdx k, m.id ≠ n.id := by
  induction l generalizing k with
  | nil => simp at hk
  | cons a rest ih =>
    rw [List.map_cons, List.nodup_cons] at hnd
    cases k with
    | zero =>
      simp only [List.getElem?_cons_zero, Option.some.injEq] at hk
      subst hk
      intro m hm e
      rw [List.eraseIdx_cons_zero] at hm
      exact hnd.1 (e ▸ List.mem_map_of_mem Node.id hm)
    | succ j =>
      simp only [List.getElem?_cons_succ] at hk
      intro m hm
      rw [List.eraseIdx_cons_succ, List.mem_cons] at hm
      rcases hm with rfl | hm
      · intro e
        exact hnd.1 (e ▸ List.mem_map_of_mem Node.id (List.getElem?_mem hk))
      · exact ih j hnd.2 hk m hm

end CircularList

namespace DLL

theorem oneNode_wellFormedWith : WellFormedWith oneNode [0] := by
  simp [WellFormedWith, oneNode, insertAtTail, alloc, empty]

theorem delete_size_one (d : DoublyLinkedList) (t : Nat) (h : d.size = 1) :
    delete d t = some { d with head := none, tail := none, size := d.size - 1 } := by
  simp [delete, h]

theorem toArray_head_none (d : DoublyLinkedList) (h : d.head = none) : toArray d = some [] := by
  unfold toArray
  rw [h]
  cases d.fresh <;> rfl

end DLL

namespace SLL

theorem oneNode_sll_wellFormedWith : WellFormedWith oneNode [0] := by
  simp [WellFormedWith, ChainWith, oneNode, insertAtHead, alloc, empty]

theorem sll_toArray_head_none (d : SinglyLinkedList) (h : d.head = none) :
    toArray d = some [] := by
  unfold toArray
  rw [h]
  cases d.fresh <;> rfl

end SLL

/-! ### Deletion across the list variants -/

namespace Lists

/-- C16: in every list variant holding exactly one node, deleting that node
leaves the container empty.  For a well-formed `DoublyLinkedList` with the one
node `t`, `delete(t)` raises no error and leaves `size == 0`, `head == null`,
`tail == null` and an empty traversal; for a well-formed `SinglyLinkedList`
with the one node `u`, `delete(u)` leaves `size == 0`, `head == null` and an
empty traversal; in the circular visualizers with the one node `n` selected,
a completed `deleteSelected()` leaves an empty node array (and no selection)
and raises no error. -/
theorem delete_sole_node (d : DLL.DoublyLinkedList) (t : Nat) (hd : DLL.WellFormedWith d [t])
    (sd : SLL.SinglyLinkedList) (u : Nat) (hs : SLL.WellFormedWith sd [u])
    (c : CircularList.State) (n : CircularList.Node) (hc : c.list = [n])
    (hsel : c.selectedId = some n.id) :
    (∃ d', DLL.delete d t = some d' ∧ d'.size = 0 ∧ d'.head = none ∧ d'.tail = none ∧
      DLL.toArray d' = some []) ∧
    (∃ sd', SLL.delete sd u = some sd' ∧ sd'.size = 0 ∧ sd'.head = none ∧
      SLL.toArray sd' = some []) ∧
    ((CircularList.deleteSelected c).state.list = [] ∧
      (CircularList.deleteSelected c).state.selectedId = none ∧
      (CircularList.deleteSelected c).raised = false) := by
  refine ⟨?_, ?_, ?_⟩
  · have hsz : d.size = 1 := by simpa using hd.2.2.2.2.2
    refine ⟨_, DLL.delete_size_one d t hsz, ?_, rfl, rfl, DLL.toArray_head_none _ rfl⟩
    simp [hsz]
  · obtain ⟨sd', hdel, hsize, hch⟩ := SLL.sll_delete_chain sd [] [] u hs.1
    have hsz : sd.size = 1 := by simpa using hs.2
    have hhead : sd'.head = none := by simpa [SLL.headOr] using hch.2.2
    refine ⟨sd', hdel, ?_, hhead, SLL.sll_toArray_head_none _ hhead⟩
    rw [hsize, hsz]; rfl
  · rw [CircularList.deleteSelected_sole c n hc hsel]
    exact ⟨rfl, rfl, rfl⟩

theorem delete_sole_node_witness :
    DLL.WellFormedWith DLL.oneNode [0] ∧ SLL.WellFormedWith SLL.oneNode [0] ∧
    CircularList.oneLeft.list = [⟨4, 50⟩] ∧ CircularList.oneLeft.selectedId = some 4 ∧
    (∃ d', DLL.delete DLL.oneNode 0 = some d' ∧ d'.size = 0 ∧ d'.head = none ∧
      d'.tail = none ∧ DLL.toArray d' = some []) ∧
    (∃ sd', SLL.delete SLL.oneNode 0 = some sd' ∧ sd'.size = 0 ∧ sd'.head = none ∧
      SLL.toArray sd' = some []) ∧
    ((CircularList.deleteSelected CircularList.oneLeft).state.list = [] ∧
      (CircularList.deleteSelected CircularList.oneLeft).state.selectedId = none ∧
      (CircularList.deleteSelected CircularList.oneLeft).raised = false) :=
  ⟨DLL.oneNode_wellFormedWith, SLL.oneNode_sll_wellFormedWith, by decide, by decide,
    delete_sole_node DLL.oneNode 0 DLL.oneNode_wellFormedWith SLL.oneNode 0
      SLL.oneNode_sll_wellFormedWith CircularList.oneLeft ⟨4, 50⟩ (by decide) (by decide)⟩

/-- C19, as stated, fails.  On the doubly linked list 10, 20 (nodes 0 and 1),
after `delete` of node 0 the list holds node 1 alone; a second `delete` of
node 0, now not in the list, empties the list.  After `clear()`, `delete` of
node 0 raises a `TypeError`.  On the singly linked list made of nodes 1 and
0, after `delete` of node 1 the list holds node 0 alone with `size == 1`; a
second `delete` of node 1 keeps the traversal and leaves `size == 0`. -/
theorem delete_absent_node_counterexample :
    ((DLL.delete DLL.twoNodes 0).bind fun d =>
        (DLL.delete d 0).map fun d' => (DLL.toArray d, DLL.toArray d')) =
      some (some [1], some []) ∧
    DLL.delete (DLL.clear DLL.twoNodes) 0 = none ∧
    ((SLL.delete SLL.twoNodes 1).bind fun d =>
        (SLL.delete d 1).map fun d' => (SLL.toArray d, d.size, SLL.toArray d', d'.size)) =
      some (some [0], 1, some [0], 0) := by
  refine ⟨by decide, rfl, by decide⟩

/-- C19, amended.  For every `SinglyLinkedList` whose nodes form a chain `sl`
from `head` and every node `u` not in `sl`, `delete(u)` raises no error and
leaves `head`, every link and the traversal as they were.  `DoublyLinkedList`
makes no membership test: on a well-formed list with the one node `a`,
`delete(t)` of any other node `t` empties the list, and on a well-formed list
`l2` of another length, `delete(t2)` of a node `t2` not in `l2` whose `prev` is
`null` raises a `TypeError`. -/
theorem delete_absent_node (sd : SLL.SinglyLinkedList) (sl : List Nat) (u : Nat)
    (hs : SLL.ChainWith sd sl) (hu : u ∉ sl)
    (d : DLL.DoublyLinkedList) (a t : Nat) (hd : DLL.WellFormedWith d [a]) (_hta : t ≠ a)
    (d2 : DLL.DoublyLinkedList) (l2 : List Nat) (t2 : Nat) (hd2 : DLL.WellFormedWith d2 l2)
    (hl2 : l2.length ≠ 1) (ht2 : t2 ∉ l2) (hprev : (d2.heap t2).prev = none) :
    (∃ sd', SLL.delete sd u = some sd' ∧ sd'.head = sd.head ∧ sd'.heap = sd.heap ∧
      SLL.toArray sd = some sl ∧ SLL.toArray sd' = some sl) ∧
    (∃ d', DLL.delete d t = some d' ∧ DLL.toArray d = some [a] ∧ DLL.toArray d' = some [] ∧
      d'.head = none ∧ d'.tail = none) ∧
    DLL.delete d2 t2 = none := by
  refine ⟨?_, ?_, ?_⟩
  · refine ⟨_, SLL.sll_delete_absent sd sl u hs hu, rfl, rfl, SLL.toArray_chainWith hs, ?_⟩
    exact SLL.toArray_chainWith (d := { sd with size := sd.size - 1 }) hs
  · have hsz : d.size = 1 := by simpa using hd.2.2.2.2.2
    exact ⟨_, DLL.delete_size_one d t hsz, DLL.toArray_wellFormedWith hd,
      DLL.toArray_head_none _ rfl, rfl, rfl⟩
  · obtain ⟨_, _, _, hh, ht, hsz⟩ := hd2
    have h1 : d2.size ≠ 1 := by
      rw [hsz]; intro e; exact hl2 (by exact_mod_cast e)
    have h2 : ¬ (some t2 = d2.head) := by
      rw [hh]; intro e; exact ht2 (List.mem_of_mem_head? e.symm)
    have h3 : ¬ (some t2 = d2.tail) := by
      rw [ht]; intro e; exact ht2 (List.mem_of_getLast?_eq_some e.symm)
    simp [DLL.delete, h1, h2, h3, hprev]

theorem delete_absent_node_witness :
    (SLL.ChainWith (SLL.clear SLL.twoNodes) [] ∧ 1 ∉ ([] : List Nat)) ∧
    (DLL.WellFormedWith DLL.oneNode [0] ∧ 1 ≠ 0) ∧
    (DLL.WellFormedWith (DLL.clear DLL.twoNodes) [] ∧ 0 ∉ ([] : List Nat) ∧
      ((DLL.clear DLL.twoNodes).heap 0).prev = none) ∧
    ((∃ sd', SLL.delete (SLL.clear SLL.twoNodes) 1 = some sd' ∧
        sd'.head = (SLL.clear SLL.twoNodes).head ∧ sd'.heap = (SLL.clear SLL.twoNodes).heap ∧
        SLL.toArray (SLL.clear SLL.twoNodes) = some [] ∧ SLL.toArray sd' = some []) ∧
      (∃ d', DLL.delete DLL.oneNode 1 = some d' ∧ DLL.toArray DLL.oneNode = some [0] ∧
        DLL.toArray d' = some [] ∧ d'.head = none ∧ d'.tail = none) ∧
      DLL.delete (DLL.clear DLL.twoNodes) 0 = none) :=
  ⟨⟨(SLL.sll_clear_wellFormedWith SLL.twoNodes).1, by decide⟩,
    ⟨DLL.oneNode_wellFormedWith, by decide⟩,
    ⟨DLL.clear_wellFormedWith DLL.twoNodes, by decide, by decide⟩,
    delete_absent_node (SLL.clear SLL.twoNodes) [] 1
      (SLL.sll_clear_wellFormedWith SLL.twoNodes).1 (by decide)
      DLL.oneNode 0 1 DLL.oneNode_wellFormedWith (by decide)
      (DLL.clear DLL.twoNodes) [] 0 (DLL.clear_wellFormedWith DLL.twoNodes) (by decide)
      (by decide) (by decide)⟩

/-- C20, as stated, fails in the circular visualizers: on the list 10, 20, 30,
50 (ids 1 to 4) with node 20 selected, a completed `deleteSelected()` removes
node 20 and leaves node 30 (id 3) selected, not `null`. -/
theorem delete_clears_selection_counterexample :
    (CircularList.selectNode CircularList.initial 2).list =
      [⟨1, 10⟩, ⟨2, 20⟩, ⟨3, 30⟩, ⟨4, 50⟩] ∧
    (CircularList.selectNode CircularList.initial 2).selectedId = some 2 ∧
    (CircularList.deleteSelected (CircularList.selectNode CircularList.initial 2)).state.list =
      [⟨1, 10⟩, ⟨3, 30⟩, ⟨4, 50⟩] ∧
    (CircularList.deleteSelected
      (CircularList.selectNode CircularList.initial 2)).state.selectedId = some 3 ∧
    (CircularList.deleteSelected
      (CircularList.selectNode CircularList.initial 2)).state.selectedId ≠ none := by
  decide

/-- C20, amended.  In every list variant, once the delete of a selected live
node has completed the model no longer contains the node.  In the `DLL` and
`SLL` visualizers `deleteNode()` raises no error, the traversal is the old
one without the node, and `selectedNode` is `null`.  In the circular
visualizers (ids pairwise different, the selected node at index `k`)
`deleteSelected()` raises no error and the array is the old one without the
entry `k`; `selectedId` is `null` when the deleted node was the only one, and
otherwise it is the id of the node now at index `min(k, length - 1)`. -/
theorem delete_clears_selection (d : DLL.DoublyLinkedList) (l : List Nat) (t : Nat)
    (hd : DLL.WellFormedWith d l) (ht : t ∈ l)
    (sd : SLL.SinglyLinkedList) (sl : List Nat) (u : Nat)
    (hs : SLL.ChainWith sd sl) (hu : u ∈ sl)
    (c : CircularList.State) (k : Nat) (n : CircularList.Node)
    (hnd : (c.list.map CircularList.Node.id).Nodup) (hk : c.list[k]? = some n)
    (hsel : c.selectedId = some n.id) :
    (∃ v', DLL.Visualizer.deleteNode { dll := d, selectedNode := some t } = some v' ∧
      v'.selectedNode = none ∧ DLL.toArray v'.dll = some (l.erase t) ∧ t ∉ l.erase t) ∧
    (∃ w', SLL.Visualizer.deleteNode { sll := sd, selectedNode := some u } = some w' ∧
      w'.selectedNode = none ∧ SLL.toArray w'.sll = some (sl.erase u) ∧ u ∉ sl.erase u) ∧
    ((CircularList.deleteSelected c).raised = false ∧
      (CircularList.deleteSelected c).state.list = c.list.eraseIdx k ∧
      (∀ m ∈ (CircularList.deleteSelected c).state.list, m.id ≠ n.id) ∧
      (c.list.length = 1 → (CircularList.deleteSelected c).state.selectedId = none) ∧
      (c.list.length ≠ 1 → ∃ m,
        (CircularList.deleteSelected c).state.list[min k
          ((CircularList.deleteSelected c).state.list.length - 1)]? = some m ∧
        (CircularList.deleteSelected c).state.selectedId = some m.id)) := by
  refine ⟨?_, ?_, ?_⟩
  · obtain ⟨l1, l2, hl⟩ := List.append_of_mem ht
    subst hl
    have hnd0 := DLL.wellFormedWith_nodup hd
    obtain ⟨d', hdel, hw⟩ := DLL.delete_wellFormedWith d l1 l2 t hd
    have hnd1 := List.nodup_append.1 hnd0
    have htl1 : t ∉ l1 := fun hm => hnd1.2.2 hm (by simp)
    have htl2 : t ∉ l2 := (List.nodup_cons.1 hnd1.2.1).1
    have herase : (l1 ++ t :: l2).erase t = l1 ++ l2 := by
      rw [List.erase_append_right _ htl1, List.erase_cons_head]
    rw [herase]
    refine ⟨{ dll := d', selectedNode := none }, ?_, rfl, DLL.toArray_wellFormedWith hw, ?_⟩
    · simp [DLL.Visualizer.deleteNode, hdel]
    · simp [htl1, htl2]
  · obtain ⟨l1, l2, hl⟩ := List.append_of_mem hu
    subst hl
    have hnd0 := SLL.chainWith_nodup hs
    obtain ⟨sd', hdel, _, hw⟩ := SLL.sll_delete_chain sd l1 l2 u hs
    have hnd1 := List.nodup_append.1 hnd0
    have hul1 : u ∉ l1 := fun hm => hnd1.2.2 hm (by simp)
    have hul2 : u ∉ l2 := (List.nodup_cons.1 hnd1.2.1).1
    have herase : (l1 ++ u :: l2).erase u = l1 ++ l2 := by
      rw [List.erase_append_right _ hul1, List.erase_cons_head]
    rw [herase]
    refine ⟨{ sll := sd', selectedNode := none }, ?_, rfl, SLL.toArray_chainWith hw, ?_⟩
    · simp [SLL.Visualizer.deleteNode, hdel]
    · simp [hul1, hul2]
  · have hklt : k < c.list.length := by
      by_contra hge
      rw [List.getElem?_eq_none (by omega)] at hk
      simp at hk
    by_cases hlen : c.list.length = 1
    · have hk0 : k = 0 := by omega
      subst hk0
      have hc : c.list = [n] := by
        match hcl : c.list, hlen, hk with
        | [x], _, hk' => simp at hk'; rw [hk']
      rw [CircularList.deleteSelected_sole c n hc hsel]
      refine ⟨rfl, ?_, ?_, fun _ => rfl, fun h => absurd hlen h⟩
      · simp [hc]
      · simp
    · obtain ⟨m, hm, hdel⟩ := CircularList.deleteSelected_multi c k n hnd hk hsel hlen
      rw [hdel]
      refine ⟨rfl, rfl, CircularList.eraseIdx_id_absent c.list k n hnd hk,
        fun h => absurd h hlen, fun _ => ⟨m, ?_, rfl⟩⟩
      have e : (c.list.eraseIdx k).length - 1 = c.list.length - 2 := by
        rw [List.length_eraseIdx_of_lt hklt]; omega
      show (c.list.eraseIdx k)[min k ((c.list.eraseIdx k).length - 1)]? = some m
      rw [e]; exact hm

theorem delete_clears_selection_witness :
    (DLL.WellFormedWith DLL.twoNodes [0, 1] ∧ 0 ∈ [0, 1]) ∧
    (SLL.ChainWith SLL.twoNodes [1, 0] ∧ 1 ∈ [1, 0]) ∧
    (((CircularList.selectNode CircularList.initial 2).list.map CircularList.Node.id).Nodup ∧
      (CircularList.selectNode CircularList.initial 2).list[1]? = some ⟨2, 20⟩ ∧
      (CircularList.selectNode CircularList.initial 2).selectedId = some 2) ∧
    (∃ v', DLL.Visualizer.deleteNode { dll := DLL.twoNodes, selectedNode := some 0 } = some v' ∧
      v'.selectedNode = none ∧ DLL.toArray v'.dll = some [1]) ∧
    (∃ w', SLL.Visualizer.deleteNode { sll := SLL.twoNodes, selectedNode := some 1 } = some w' ∧
      w'.selectedNode = none ∧ SLL.toArray w'.sll = some [0]) ∧
    (CircularList.deleteSelected (CircularList.selectNode CircularList.initial 2)).state.list =
      [⟨1, 10⟩, ⟨3, 30⟩, ⟨4, 50⟩] := by
  have hd := DLL.twoNodes_wellFormedWith
  have hs := SLL.twoNodes_sll_wellFormedWith.1
  have h := delete_clears_selection DLL.twoNodes [0, 1] 0 hd (by decide)
    SLL.twoNodes [1, 0] 1 hs (by decide)
    (CircularList.selectNode CircularList.initial 2) 1 ⟨2, 20⟩ (by decide) (by decide)
    (by decide)
  obtain ⟨⟨v', hv, hvs, hva, _⟩, ⟨w', hw, hws, hwa, _⟩, _, hl, _⟩ := h
  exact ⟨⟨hd, by decide⟩, ⟨hs, by decide⟩, ⟨by decide, by decide, by decide⟩,
    ⟨v', hv, hvs, hva⟩, ⟨w', hw, hws, hwa⟩, hl⟩

end Lists

namespace StepManager

theorem setFirst_index (i : Nat) (st : Status) (els : List StepEl) :
    (setFirst i st els).map StepEl.index = els.map StepEl.index := by
  induction els with
  | nil => rfl
  | cons e rest ih =>
    unfold setFirst
    split
    · simp
    · simp [ih]

theorem setFirst_eq_map (i : Nat) (st : Status) (els : List StepEl)
    (hnd : (els.map StepEl.index).Nodup) :
    setFirst i st els = els.map (fun e => if e.index = i then { e with status := st } else e) := by
  induction els with
  | nil => rfl
  | cons e rest ih =>
    rw [List.map_cons, List.nodup_cons] at hnd
    unfold setFirst
    by_cases he : e.index = i
    · rw [if_pos he, List.map_cons, if_pos he]
      congr 1
      symm
      calc rest.map (fun e => if e.index = i then { e with status := st } else e)
          = rest.map id := by
            apply List.map_congr_left
            intro x hx
            have : x.index ≠ i := by
              intro hxi
              exact hnd.1 (by rw [he, ← hxi]; exact List.mem_map_of_mem _ hx)
            simp [this]
        _ = rest := List.map_id _
    · rw [if_neg he, List.map_cons, if_neg he, ih hnd.2]

theorem foldl_setFirst (k : Int) (is : List Nat) :
    ∀ els : List StepEl, (els.map StepEl.index).Nodup →
      is.foldl (fun acc i => setFirst i (markAt k i) acc) els =
        els.map (fun e => if e.index ∈ is then { e with status := markAt k e.index } else e) := by
  induction is with
  | nil => intro els _; simp
  | cons i rest ih =>
    intro els hnd
    rw [List.foldl_cons, ih _ (by rw [setFirst_index]; exact hnd), setFirst_eq_map i _ els hnd,
      List.map_map]
    apply List.map_congr_left
    intro e _
    by_cases he : e.index = i
    · subst he
      by_cases hr : e.index ∈ rest <;> simp [hr]
    · by_cases hr : e.index ∈ rest <;> simp [he, hr]

/-- On a steps list that has the elements of index 0 to `n - 1`, the loop of
`revealNextStep` gives every element the class of its index. -/
theorem revealLoop_synced (k : Int) (n : Nat) (els : List StepEl)
    (hs : els.map StepEl.index = List.range n) :
    revealLoop k n els = els.map (fun e => { e with status := markAt k e.index }) := by
  unfold revealLoop
  rw [foldl_setFirst k (List.range n) els (by rw [hs]; exact List.nodup_range n)]
  apply List.map_congr_left
  intro e he
  have : e.index ∈ List.range n := by rw [← hs]; exact List.mem_map_of_mem _ he
  simp [this]

theorem revealLoop_statuses (k : Int) (n : Nat) (els : List StepEl)
    (hs : els.map StepEl.index = List.range n) :
    (revealLoop k n els).map StepEl.status = (List.range n).map (markAt k) := by
  rw [revealLoop_synced k n els hs, ← hs, List.map_map, List.map_map]
  rfl

theorem revealLoop_index (k : Int) (n : Nat) (els : List StepEl)
    (hs : els.map StepEl.index = List.range n) :
    (revealLoop k n els).map StepEl.index = els.map StepEl.index := by
  rw [revealLoop_synced k n els hs, List.map_map]
  rfl

theorem revealLoop_text (k : Int) (n : Nat) (els : List StepEl)
    (hs : els.map StepEl.index = List.range n) :
    (revealLoop k n els).map StepEl.text = els.map StepEl.text := by
  rw [revealLoop_synced k n els hs, List.map_map]
  rfl

theorem enum_index (steps : List String) :
    (steps.enum.map (fun p => ({ index := p.1, text := p.2, status := Status.pending } : StepEl))).map
      StepEl.index = List.range steps.length := by
  rw [List.map_map]
  have : (StepEl.index ∘ fun p : Nat × String =>
      ({ index := p.1, text := p.2, status := Status.pending } : StepEl)) = Prod.fst := rfl
  rw [this, List.enum_map_fst]

theorem enum_text (steps : List String) :
    (steps.enum.map (fun p => ({ index := p.1, text := p.2, status := Status.pending } : StepEl))).map
      StepEl.text = steps := by
  rw [List.map_map]
  have : (StepEl.text ∘ fun p : Nat × String =>
      ({ index := p.1, text := p.2, status := Status.pending } : StepEl)) = Prod.snd := rfl
  rw [this, List.enum_map_snd]

theorem markAt_zero (n : Nat) :
    (List.range (n + 1)).map (markAt 0) = Status.current :: List.replicate n Status.pending := by
  rw [List.range_succ_eq_map, List.map_cons, List.map_map]
  congr 1
  rw [List.eq_replicate_iff]
  refine ⟨by simp, ?_⟩
  intro b hb
  obtain ⟨i, _, rfl⟩ := List.mem_map.1 hb
  simp only [Function.comp, markAt]
  rw [if_neg (by omega), if_neg (by omega)]

theorem inv_initial : Inv initial := by
  refine ⟨?_, ?_, ?_, ?_⟩ <;> simp [initial]

theorem clearTimer_timers (s : State) (hinv : Inv s) : (clearTimer s).timers = [] := by
  unfold clearTimer
  cases hc : s.currentStepTimer with
  | none =>
    simp only []
    rw [List.eq_nil_iff_forall_not_mem]
    intro h hh
    have := hinv.1 h hh
    rw [hc] at this
    cases this
  | some t =>
    simp only []
    have ht := (hinv.2.1 t hc).1
    rw [if_neg (by omega)]
    simp only []
    rw [List.eq_nil_iff_forall_not_mem]
    intro h hh
    rw [List.mem_filter] at hh
    have := hinv.1 h hh.1
    rw [hc] at this
    injection this with e
    simp [e] at hh

theorem clearTimer_fields (s : State) :
    (clearTimer s).currentStepTimer = s.currentStepTimer ∧
    (clearTimer s).currentSteps = s.currentSteps ∧
    (clearTimer s).currentStepIndex = s.currentStepIndex ∧
    (clearTimer s).stepsList = s.stepsList ∧
    (clearTimer s).nextHandle = s.nextHandle ∧
    (∀ h ∈ (clearTimer s).timers, h ∈ s.timers) := by
  unfold clearTimer
  cases hc : s.currentStepTimer with
  | none => exact ⟨hc, rfl, rfl, rfl, rfl, fun _ hh => hh⟩
  | some t =>
    simp only []
    split
    · exact ⟨hc, rfl, rfl, rfl, rfl, fun _ hh => hh⟩
    · refine ⟨rfl, rfl, rfl, rfl, rfl, ?_⟩
      intro h hh
      exact (List.mem_filter.1 hh).1

theorem inv_clearSteps (s : State) (hinv : Inv s) : Inv (clearSteps s) := by
  have ht := clearTimer_timers s hinv
  obtain ⟨f1, _, _, _, f5, _⟩ := clearTimer_fields s
  refine ⟨?_, ?_, ?_, ?_⟩
  · intro h hh
    simp only [clearSteps, ht] at hh
    cases hh
  · intro h hh
    simp only [clearSteps] at hh ⊢
    rw [f1] at hh
    rw [f5]
    exact hinv.2.1 h hh
  · simp only [clearSteps]
    rw [f5]
    exact hinv.2.2.1
  · simp [clearSteps]

/-- What `revealNextStep` does on a state with no scheduled timer whose next
index is a step of the sequence. -/
theorem revealNextStep_inv (s : State) (hinv : Inv s) (ht : s.timers = []) :
    Inv (revealNextStep s) := by
  unfold revealNextStep
  simp only []
  split
  · exact ⟨by simp [ht], hinv.2.1, hinv.2.2.1, hinv.2.2.2⟩
  · refine ⟨?_, ?_, ?_, ?_⟩
    · intro h hh
      simp only [ht, List.nil_append, List.mem_singleton] at hh
      simp [hh]
    · intro h hh
      simp only [Option.some.injEq] at hh
      subst hh
      exact ⟨hinv.2.2.1, Nat.lt_succ_self _⟩
    · exact Nat.succ_pos _
    · simp only []
      rw [revealLoop_index _ _ _ hinv.2.2.2]
      exact hinv.2.2.2

theorem inv_startSteps (s : State) (title : String) (steps : List String) (hinv : Inv s) :
    Inv (startSteps s title steps) := by
  have hc := inv_clearSteps s hinv
  have ht : (clearSteps s).timers = [] := by
    simp only [clearSteps]
    exact clearTimer_timers s hinv
  unfold startSteps
  simp only []
  apply revealNextStep_inv
  · refine ⟨by simp [ht], hc.2.1, hc.2.2.1, ?_⟩
    simp only [clearSteps, List.nil_append]
    exact enum_index steps
  · exact ht

theorem inv_finishSteps (s : State) (extra : Option String) (hinv : Inv s) :
    Inv (finishSteps s extra) ∧ (finishSteps s extra).timers = [] := by
  unfold finishSteps
  simp only []
  have key : ∀ s1 : State, Inv s1 →
      Inv { clearTimer s1 with
            stepsList := (clearTimer s1).stepsList.map (fun e => { e with status := Status.done }) } ∧
      (clearTimer s1).timers = [] := by
    intro s1 h1
    have ht := clearTimer_timers s1 h1
    obtain ⟨f1, f2, _, f4, f5, _⟩ := clearTimer_fields s1
    refine ⟨⟨?_, ?_, ?_, ?_⟩, ht⟩
    · intro h hh
      simp only [ht] at hh
      cases hh
    · intro h hh
      simp only [f1] at hh
      simp only [f5]
      exact h1.2.1 h hh
    · simp only [f5]
      exact h1.2.2.1
    · simp only [f2, f4, List.map_map]
      exact h1.2.2.2
  cases extra with
  | none => exact key s hinv
  | some t =>
    simp only []
    split
    · exact key s hinv
    · apply key
      refine ⟨hinv.1, hinv.2.1, hinv.2.2.1, ?_⟩
      simp only [List.map_append, List.map_cons, List.map_nil, List.length_append,
        List.length_singleton, Nat.add_sub_cancel, hinv.2.2.2]
      exact (List.range_succ _).symm

theorem inv_fire (s : State) (h : Nat) (hinv : Inv s) : Inv (fire s h) := by
  unfold fire
  split
  · rename_i hm
    apply revealNextStep_inv
    · refine ⟨?_, hinv.2.1, hinv.2.2.1, hinv.2.2.2⟩
      intro x hx
      exact hinv.1 x (List.mem_filter.1 hx).1
    · simp only []
      rw [List.eq_nil_iff_forall_not_mem]
      intro x hx
      rw [List.mem_filter] at hx
      have e1 := hinv.1 x hx.1
      have e2 := hinv.1 h hm
      rw [e1] at e2
      injection e2 with e
      simp [e] at hx
  · exact hinv

theorem steps_reachable_inv {s : State} (h : Reachable s) : Inv s := by
  induction h with
  | init => exact inv_initial
  | clear s _ ih => exact inv_clearSteps s ih
  | start s title steps _ ih => exact inv_startSteps s title steps ih
  | finish s extra _ ih => exact (inv_finishSteps s extra ih).1
  | fire s h _ ih => exact inv_fire s h ih

theorem inv_started : Inv started :=
  inv_startSteps initial "Initialize" initSteps inv_initial

theorem startSteps_eq (s : State) (title : String) (steps : List String) (hne : steps ≠ []) :
    startSteps s title steps =
      { currentStepTimer := some (clearTimer s).nextHandle,
        currentSteps := steps,
        currentStepIndex := 0,
        currentOperation := title,
        stepsList := revealLoop 0 steps.length
          (steps.enum.map (fun p => { index := p.1, text := p.2, status := Status.pending })),
        timers := (clearTimer s).timers ++ [(clearTimer s).nextHandle],
        nextHandle := (clearTimer s).nextHandle + 1 } := by
  have hlen : 0 < steps.length := List.length_pos.2 hne
  unfold startSteps revealNextStep clearSteps
  simp only [List.nil_append]
  rw [if_neg (by simp only [ge_iff_le, not_le]; omega)]
  simp

/-- C21: for every playback state and every non-empty step array,
`startSteps(title, steps)` leaves `currentSteps` equal to `steps`, the steps
list with one element for each step (index `i` and the text of step `i`),
`currentStepIndex == 0`, step 0 marked `current` and every later step marked
`pending`; the timer whose handle `currentStepTimer` held is no longer
scheduled, and in a state of the running page (where no other reveal timer
can be scheduled) the only scheduled timer afterwards is the new one. -/
theorem startSteps_begins (s : State) (title : String) (steps : List String)
    (hne : steps ≠ []) :
    (startSteps s title steps).currentSteps = steps ∧
    (startSteps s title steps).currentStepIndex = 0 ∧
    (startSteps s title steps).stepsList.map StepEl.index = List.range steps.length ∧
    (startSteps s title steps).stepsList.map StepEl.text = steps ∧
    statuses (startSteps s title steps) =
      Status.current :: List.replicate (steps.length - 1) Status.pending ∧
    (Inv s →
      (∀ h ∈ s.timers, h ∉ (startSteps s title steps).timers) ∧
      (startSteps s title steps).timers = [s.nextHandle] ∧
      (startSteps s title steps).currentStepTimer = some s.nextHandle ∧
      Inv (startSteps s title steps)) := by
  have hi := enum_index steps
  rw [startSteps_eq s title steps hne]
  refine ⟨rfl, rfl, ?_, ?_, ?_, ?_⟩
  · simp only []
    rw [revealLoop_index 0 _ _ hi, hi]
  · simp only []
    rw [revealLoop_text 0 _ _ hi, enum_text]
  · simp only [statuses]
    rw [revealLoop_statuses 0 _ _ hi]
    obtain ⟨n, hn⟩ : ∃ n, steps.length = n + 1 :=
      ⟨steps.length - 1, by have := List.length_pos.2 hne; omega⟩
    rw [hn, markAt_zero]
    rfl
  · intro hinv
    have ht := clearTimer_timers s hinv
    obtain ⟨_, _, _, _, f5, _⟩ := clearTimer_fields s
    have hI := inv_startSteps s title steps hinv
    rw [startSteps_eq s title steps hne] at hI
    refine ⟨?_, ?_, ?_, hI⟩
    · intro h hh
      simp only [ht, f5, List.nil_append, List.mem_singleton]
      have := (hinv.2.1 h (hinv.1 h hh)).2
      omega
    · simp only [ht, f5, List.nil_append]
    · simp only [f5]

theorem startSteps_begins_witness :
    initSteps ≠ [] ∧ Inv started ∧
    (startSteps started "Select Node" initSteps).currentSteps = initSteps ∧
    (startSteps started "Select Node" initSteps).currentStepIndex = 0 ∧
    statuses (startSteps started "Select Node" initSteps) =
      Status.current :: List.replicate 5 Status.pending ∧
    (startSteps started "Select Node" initSteps).timers = [2] := by
  have h := startSteps_begins started "Select Node" initSteps (by decide)
  exact ⟨by decide, inv_started, h.1, h.2.1, h.2.2.2.2.1, (h.2.2.2.2.2 inv_started).2.1⟩

/-- C22: for every playback state of the running page with a sequence of `n`
steps and `currentStepIndex == k - 1` where `0 <= k < n`, `revealNextStep`
sets `currentStepIndex` to `k`, one more than before, keeps the sequence, and
leaves the step of index `i` marked `done` when `i < k`, `current` when
`i == k` and `pending` when `i > k`. -/
theorem revealNextStep_advances (s : State) (k : Nat) (hinv : Inv s)
    (hk : s.currentStepIndex = (k : Int) - 1) (hlt : k < s.currentSteps.length) :
    (revealNextStep s).currentStepIndex = (k : Int) ∧
    (revealNextStep s).currentStepIndex = s.currentStepIndex + 1 ∧
    (revealNextStep s).currentSteps = s.currentSteps ∧
    (revealNextStep s).stepsList.map StepEl.index = List.range s.currentSteps.length ∧
    statuses (revealNextStep s) =
      (List.range s.currentSteps.length).map
        (fun i => if i < k then Status.done else if i = k then Status.current
                  else Status.pending) := by
  have hidx : s.currentStepIndex + 1 = (k : Int) := by omega
  unfold revealNextStep
  simp only [hidx]
  rw [if_neg (by simp only [ge_iff_le, not_le]; omega)]
  refine ⟨rfl, rfl, rfl, ?_, ?_⟩
  · simp only []
    rw [revealLoop_index _ _ _ hinv.2.2.2, hinv.2.2.2]
  · simp only [statuses]
    rw [revealLoop_statuses _ _ _ hinv.2.2.2]
    apply List.map_congr_left
    intro i _
    unfold markAt
    by_cases h1 : i < k
    · rw [if_pos (by omega), if_pos h1]
    · rw [if_neg (by omega), if_neg h1]
      by_cases h2 : i = k
      · rw [if_pos (by omega), if_pos h2]
      · rw [if_neg (by omega), if_neg h2]

theorem revealNextStep_advances_witness :
    Inv started ∧ started.currentStepIndex = ((1 : Nat) : Int) - 1 ∧
    1 < started.currentSteps.length ∧
    (revealNextStep started).currentStepIndex = 1 ∧
    statuses (revealNextStep started) =
      [Status.done, Status.current, Status.pending, Status.pending, Status.pending,
       Status.pending] := by
  have h := revealNextStep_advances started 1 inv_started (by decide) (by decide)
  exact ⟨inv_started, by decide, by decide, h.1, h.2.2.2.2⟩

/-- C23 at the `Initialize` sequence of six steps, played by its timer alone:
after the sixth firing `currentStepIndex` is 6, the length of the sequence,
no timer is scheduled, and the steps are marked `done` but for the last one,
which is still marked `current`. -/
theorem play_leaves_last_current :
    started.currentSteps.length = 6 ∧
    (play 5 started).currentStepIndex = 5 ∧
    statuses (play 5 started) =
      [Status.done, Status.done, Status.done, Status.done, Status.done, Status.current] ∧
    (play 6 started).currentStepIndex = 6 ∧
    (play 6 started).timers = [] ∧
    statuses (play 6 started) =
      [Status.done, Status.done, Status.done, Status.done, Status.done, Status.current] ∧
    statuses (play 7 started) = statuses (play 6 started) := by
  decide

theorem finishSteps_some (s : State) (t : String) (ht : t ≠ "") :
    finishSteps s (some t) = finishSteps (pushStep s t) none := by
  unfold finishSteps pushStep
  simp only [if_neg ht]

theorem finishSteps_empty (s : State) : finishSteps s (some "") = finishSteps s none := by
  unfold finishSteps
  simp only [if_true]

theorem finishSteps_none_fields (s : State) :
    (finishSteps s none).currentSteps = s.currentSteps ∧
    (finishSteps s none).stepsList.map StepEl.text = s.stepsList.map StepEl.text ∧
    (finishSteps s none).stepsList.map StepEl.index = s.stepsList.map StepEl.index ∧
    (∀ h, s.currentStepTimer = some h → h ≠ 0 → h ∉ (finishSteps s none).timers) := by
  obtain ⟨_, f2, _, f4, _, _⟩ := clearTimer_fields s
  unfold finishSteps
  refine ⟨f2, ?_, ?_, ?_⟩
  · simp only [f4, List.map_map]; rfl
  · simp only [f4, List.map_map]; rfl
  · intro h hc h0 hm
    simp only [clearTimer, hc, if_neg h0] at hm
    simp at hm

/-- C24: for every playback state, `finishSteps(extra)` leaves every element
of the steps list marked `done` and the timer whose handle `currentStepTimer`
holds unscheduled (in a state of the running page no reveal timer at all is
scheduled afterwards, and the steps list still has one element for each
step); when an extra text (a non-empty string) is supplied the sequence and
the steps list have exactly one more step, placed last, with that text, and
otherwise (no argument, or the empty string) the steps are the same. -/
theorem finishSteps_finishes (s : State) (extra : Option String) :
    (∀ e ∈ (finishSteps s extra).stepsList, e.status = Status.done) ∧
    (∀ h, s.currentStepTimer = some h → h ≠ 0 → h ∉ (finishSteps s extra).timers) ∧
    (Inv s → (finishSteps s extra).timers = [] ∧ Inv (finishSteps s extra) ∧
      (finishSteps s extra).stepsList.length = (finishSteps s extra).currentSteps.length) ∧
    (∀ t, extra = some t → t ≠ "" →
      (finishSteps s extra).currentSteps = s.currentSteps ++ [t] ∧
      (finishSteps s extra).stepsList.map StepEl.text = s.stepsList.map StepEl.text ++ [t] ∧
      (finishSteps s extra).stepsList.map StepEl.index =
        s.stepsList.map StepEl.index ++ [s.currentSteps.length]) ∧
    (extra = none ∨ extra = some "" →
      (finishSteps s extra).currentSteps = s.currentSteps ∧
      (finishSteps s extra).stepsList.map StepEl.text = s.stepsList.map StepEl.text ∧
      (finishSteps s extra).stepsList.map StepEl.index = s.stepsList.map StepEl.index) := by
  refine ⟨?_, ?_, ?_, ?_, ?_⟩
  · intro e he
    unfold finishSteps at he
    simp only [List.mem_map] at he
    obtain ⟨a, _, rfl⟩ := he
    rfl
  · intro h hc h0
    cases extra with
    | none => exact (finishSteps_none_fields s).2.2.2 h hc h0
    | some t =>
      by_cases ht : t = ""
      · subst ht
        rw [finishSteps_empty]
        exact (finishSteps_none_fields s).2.2.2 h hc h0
      · rw [finishSteps_some s t ht]
        exact (finishSteps_none_fields (pushStep s t)).2.2.2 h hc h0
  · intro hinv
    obtain ⟨h1, h2⟩ := inv_finishSteps s extra hinv
    refine ⟨h2, h1, ?_⟩
    have := congrArg List.length h1.2.2.2
    simpa using this
  · intro t he ht
    subst he
    rw [finishSteps_some s t ht]
    obtain ⟨k1, k2, k3, _⟩ := finishSteps_none_fields (pushStep s t)
    refine ⟨k1, ?_, ?_⟩
    · rw [k2]; simp [pushStep]
    · rw [k3]; simp [pushStep]
  · intro he
    rcases he with he | he
    · subst he
      exact ⟨(finishSteps_none_fields s).1, (finishSteps_none_fields s).2.1,
        (finishSteps_none_fields s).2.2.1⟩
    · subst he
      rw [finishSteps_empty]
      exact ⟨(finishSteps_none_fields s).1, (finishSteps_none_fields s).2.1,
        (finishSteps_none_fields s).2.2.1⟩

theorem finishSteps_finishes_witness :
    Inv started ∧
    (∀ e ∈ (finishSteps started (some "Done")).stepsList, e.status = Status.done) ∧
    (finishSteps started (some "Done")).timers = [] ∧
    (finishSteps started (some "Done")).currentSteps = initSteps ++ ["Done"] ∧
    (finishSteps started none).currentSteps = initSteps := by
  have h := finishSteps_finishes started (some "Done")
  have h0 := finishSteps_finishes started none
  exact ⟨inv_started, h.1, (h.2.2.1 inv_started).1,
    (h.2.2.2.1 "Done" rfl (by decide)).1, (h0.2.2.2.2 (Or.inl rfl)).1⟩

end StepManager

namespace StepsPanel

open StepManager (Status)

/-- C28 at the five steps of `insertAtHead()`: after `displaySteps` the first
step is `current` and the others `pending`; after `markStepComplete()` the
first step is `done` and all four others are `current`. -/
theorem markStepComplete_marks_all_pending :
    (displaySteps insertAtHeadSteps).map StepEl.status =
      [Status.current, Status.pending, Status.pending, Status.pending, Status.pending] ∧
    (markStepComplete (displaySteps insertAtHeadSteps)).map StepEl.status =
      [Status.done, Status.current, Status.current, Status.current, Status.current] ∧
    ((markStepComplete (displaySteps insertAtHeadSteps)).filter
      (fun e => e.status = Status.current)).length = 4 := by
  decide

end StepsPanel

namespace CircularList

/-- C27 at two inputs.  On the list 10, 20, 30, 50 with node 10 selected,
`deleteSelected()` schedules the removal at index 0; when `resetList()` runs
before the timer fires, the callback then removes the entry at index 0 of the
new list, which becomes 20, 30, 50 with node 20 selected.  On the list 30, 50
with node 30 selected, two calls of `deleteSelected()` before the first timer
fires both schedule the removal at index 0; the first callback leaves 50, the
second removes node 50 and leaves the list empty. -/
theorem stale_delete_changes_list :
    deleteSelectedStart (selectNode initial 1) = some (Pending.multi 0) ∧
    (resetList (selectNode initial 1)).list = [⟨1, 10⟩, ⟨2, 20⟩, ⟨3, 30⟩, ⟨4, 50⟩] ∧
    (deleteSelectedFinish (Pending.multi 0) (resetList (selectNode initial 1))).state.list =
      [⟨2, 20⟩, ⟨3, 30⟩, ⟨4, 50⟩] ∧
    (deleteSelectedFinish (Pending.multi 0)
      (resetList (selectNode initial 1))).state.selectedId = some 2 ∧
    twoLeft.list = [⟨3, 30⟩, ⟨4, 50⟩] ∧
    deleteSelectedStart twoLeft = some (Pending.multi 0) ∧
    (deleteSelectedFinish (Pending.multi 0) twoLeft).state.list = [⟨4, 50⟩] ∧
    staleState.list = [] := by
  decide

end CircularList

namespace StepManager

theorem view_startSteps (s : State) (title : String) (steps : List String) (hinv : Inv s) :
    view (startSteps s title steps) =
      (steps, 0, title,
        revealLoop 0 steps.length
          (steps.enum.map (fun p => { index := p.1, text := p.2, status := Status.pending })),
        if steps = [] then 0 else 1) := by
  have ht := clearTimer_timers s hinv
  by_cases hne : steps = []
  · subst hne
    simp [view, startSteps, revealNextStep, clearSteps, ht, revealLoop]
  · rw [startSteps_eq s title steps hne]
    simp [view, ht, hne]

end StepManager

namespace Lists

/-- C25: reset is idempotent in every visualizer.  In the circular
visualizers, for every list state and every playback state of the running
page, `resetList()` run twice leaves the same node array, selection and id
counter as run once, and the same playback state (sequence, index, operation
title, step classes, one timer scheduled; the handle of the timer is a new
one).  In the linked-list visualizers `clear()` and `reset()` run twice leave
the same list, selection and steps panel as run once.  In the sort
visualizers `reset()` run twice leaves the same array, flags, statistics and
steps panel as run once. -/
theorem reset_idempotent {α : Type} (steps : List String)
    (c : CircularList.State × StepManager.State) (hc : StepManager.Inv c.2)
    (d : DLL.Visualizer × List StepsPanel.StepEl)
    (sd : SLL.Visualizer × List StepsPanel.StepEl)
    (b : BubbleSort.Visualizer α × List String)
    (i : InsertionSort.Visualizer α × List String)
    (q : QuickSort.Visualizer α × List String) :
    ((CircularList.resetPage steps (CircularList.resetPage steps c)).1 =
        (CircularList.resetPage steps c).1 ∧
      StepManager.view (CircularList.resetPage steps (CircularList.resetPage steps c)).2 =
        StepManager.view (CircularList.resetPage steps c).2) ∧
    (DLL.clear (DLL.clear d.1.dll) = DLL.clear d.1.dll ∧
      DLL.resetPage (DLL.resetPage d) = DLL.resetPage d) ∧
    (SLL.clear (SLL.clear sd.1.sll) = SLL.clear sd.1.sll ∧
      SLL.resetPage (SLL.resetPage sd) = SLL.resetPage sd) ∧
    BubbleSort.resetPage (BubbleSort.resetPage b) = BubbleSort.resetPage b ∧
    InsertionSort.resetPage (InsertionSort.resetPage i) = InsertionSort.resetPage i ∧
    QuickSort.resetPage (QuickSort.resetPage q) = QuickSort.resetPage q := by
  refine ⟨⟨rfl, ?_⟩, ⟨rfl, rfl⟩, ⟨rfl, rfl⟩, rfl, rfl, rfl⟩
  have h1 := StepManager.inv_startSteps c.2 "Initialize" steps hc
  show StepManager.view (StepManager.startSteps (StepManager.startSteps c.2 "Initialize" steps)
      "Initialize" steps) = StepManager.view (StepManager.startSteps c.2 "Initialize" steps)
  rw [StepManager.view_startSteps _ _ _ h1, StepManager.view_startSteps _ _ _ hc]

theorem reset_idempotent_witness :
    StepManager.Inv (CircularList.twoLeft, StepManager.started).2 ∧
    (CircularList.resetPage StepManager.initSteps
        (CircularList.resetPage StepManager.initSteps
          (CircularList.twoLeft, StepManager.started))).1 =
      (CircularList.resetPage StepManager.initSteps
        (CircularList.twoLeft, StepManager.started)).1 ∧
    BubbleSort.resetPage (BubbleSort.resetPage (BubbleSort.ready [3, 1, 2], ["a"])) =
      BubbleSort.resetPage ((BubbleSort.ready [3, 1, 2] : BubbleSort.Visualizer Int), ["a"]) := by
  have h := reset_idempotent StepManager.initSteps
    (CircularList.twoLeft, StepManager.started) StepManager.inv_started
    ({ dll := DLL.twoNodes, selectedNode := some 0 }, [])
    ({ sll := SLL.twoNodes, selectedNode := some 1 }, [])
    ((BubbleSort.ready [3, 1, 2] : BubbleSort.Visualizer Int), ["a"])
    ((InsertionSort.ready [3, 1, 2] : InsertionSort.Visualizer Int), ["a"])
    ((QuickSort.ready [3, 1, 2] : QuickSort.Visualizer Int), ["a"])
  exact ⟨StepManager.inv_started, h.1.1, h.2.2.2.1⟩

end Lists

namespace Sorting

variable {α : Type}

theorem inversions_swap (key : α → Int) (l r : List α) (x y : α) (h : key x > key y) :
    inversions key (l ++ x :: y :: r) = inversions key (l ++ y :: x :: r) + 1 := by
  induction l with
  | nil =>
    have hyx : ¬ key y > key x := by omega
    simp only [List.nil_append, inversions, List.countP_cons, h, hyx, decide_True, decide_False,
      if_true, Bool.false_eq_true, if_false]
    omega
  | cons a l ih =>
    have hp : (l ++ x :: y :: r).Perm (l ++ y :: x :: r) :=
      List.Perm.append_left l (List.Perm.swap y x r)
    show List.countP (fun b => decide (key a > key b)) (l ++ x :: y :: r) +
        inversions key (l ++ x :: y :: r) =
      List.countP (fun b => decide (key a > key b)) (l ++ y :: x :: r) +
        inversions key (l ++ y :: x :: r) + 1
    rw [ih, hp.countP_eq]
    omega

theorem inversions_ascending (key : α → Int) (l : List α) (h : Ascending key l) :
    inversions key l = 0 := by
  induction l with
  | nil => rfl
  | cons a rest ih =>
    unfold Ascending at h
    rw [List.pairwise_cons] at h
    simp only [inversions, ih h.2, add_zero, List.countP_eq_zero]
    intro b hb
    have := h.1 b hb
    simp only [gt_iff_lt, decide_eq_true_eq, not_lt]
    exact this

theorem split_of_getElem? (l : List α) (j : Nat) (a b : α)
    (ha : l[j]? = some a) (hb : l[j + 1]? = some b) :
    l = l.take j ++ a :: b :: l.drop (j + 2) ∧ (l.take j).length = j := by
  have hj : j + 1 < l.length := by
    by_contra hge
    rw [List.getElem?_eq_none (by omega)] at hb
    simp at hb
  refine ⟨?_, by simp; omega⟩
  have h1 : l.drop j = a :: l.drop (j + 1) := by
    rw [List.drop_eq_getElem_cons (by omega)]
    congr 1
    rw [List.getElem?_eq_getElem (by omega)] at ha
    exact Option.some.inj ha
  have h2 : l.drop (j + 1) = b :: l.drop (j + 2) := by
    rw [List.drop_eq_getElem_cons hj]
    congr 1
    rw [List.getElem?_eq_getElem hj] at hb
    exact Option.some.inj hb
  calc l = l.take j ++ l.drop j := (List.take_append_drop j l).symm
    _ = l.take j ++ a :: b :: l.drop (j + 2) := by rw [h1, h2]

end Sorting

namespace BubbleSort

open Sorting

variable {α : Type}

/-- Every swap of the inner loop removes one inversion: the sum of `swaps` and
of the inversions of `array` is the same before and after the loop. -/
theorem innerLoop_inversions (key : α → Int) (n i : Nat) (j : Nat) (sw : Bool)
    (s : Visualizer α) :
    (innerLoop key n i j sw s).1.swaps + inversions key (innerLoop key n i j sw s).1.array =
      s.swaps + inversions key s.array := by
  induction j, sw, s using innerLoop.induct key n i with
  | case1 j sw s hlt hs =>
    rw [innerLoop, if_pos hlt, if_pos hs]
  | case2 j sw s hlt hs s1 a b hb ha hgt s2 s3 ih =>
    rw [innerLoop, if_pos hlt, if_neg hs]
    simp only [s1] at ha hb
    simp only [ha, hb, hgt, if_true]
    rw [ih]
    obtain ⟨hsplit, hlen⟩ := split_of_getElem? s.array j a b ha hb
    have hset : (s.array.set j b).set (j + 1) a =
        s.array.take j ++ b :: a :: s.array.drop (j + 2) := by
      conv_lhs => rw [hsplit]
      have := set_split_swap (s.array.take j) (s.array.drop (j + 2)) a b
      rw [hlen] at this
      exact this
    show s.swaps + 1 + inversions key ((s.array.set j b).set (j + 1) a) = _
    rw [hset]
    conv_rhs => rw [hsplit]
    rw [inversions_swap key _ _ a b hgt]
    omega
  | case3 j sw s hlt hs s1 a b hb ha hgt ih =>
    rw [innerLoop, if_pos hlt, if_neg hs]
    simp only [s1] at ha hb
    simp only [ha, hb, hgt, if_false]
    rw [ih]
  | case4 j sw s hlt hs s1 hno ih =>
    rw [innerLoop, if_pos hlt, if_neg hs]
    simp only []
    exact ih
  | case5 j sw s hlt =>
    rw [innerLoop, if_neg hlt]

theorem outerLoop_inversions (key : α → Int) (n : Nat) (i : Nat) (s : Visualizer α) :
    (outerLoop key n i s).swaps + inversions key (outerLoop key n i s).array =
      s.swaps + inversions key s.array := by
  induction i, s using outerLoop.induct key n with
  | case1 i s hlt hs =>
    rw [outerLoop, if_pos hlt, if_pos hs]
  | case2 i s hlt hs s1 r hr =>
    rw [outerLoop, if_pos hlt, if_neg hs]
    simp only []
    rw [if_pos hr]
    exact innerLoop_inversions key n i 0 false s1
  | case3 i s hlt hs s1 r hr ih =>
    rw [outerLoop, if_pos hlt, if_neg hs]
    simp only []
    rw [if_neg hr, ih]
    exact innerLoop_inversions key n i 0 false s1
  | case4 i s hlt =>
    rw [outerLoop, if_neg hlt]

end BubbleSort

namespace Sorting

variable {α : Type}

theorem countP_range_getElem? (p : α → Bool) (l : List α) :
    (List.range l.length).countP
      (fun j => match l[j]? with
        | some b => p b
        | none => false) = l.countP p := by
  induction l with
  | nil => rfl
  | cons a rest ih =>
    rw [List.length_cons, List.range_succ_eq_map, List.countP_cons, List.countP_map,
      List.countP_cons]
    simp only [List.getElem?_cons_zero]
    congr 1
    rw [← ih]
    apply List.countP_congr
    intro j _
    simp [Function.comp]

theorem inversionCount_eq (key : α → Int) (l : List α) :
    inversionCount key l = inversions key l := by
  induction l with
  | nil => rfl
  | cons a rest ih =>
    unfold inversionCount
    rw [List.length_cons, List.range_succ_eq_map, List.map_cons, List.sum_cons, List.map_map]
    unfold inversions
    congr 1
    · rw [List.countP_cons, List.countP_map]
      simp only [lt_self_iff_false, decide_False, Bool.false_and, Bool.false_eq_true, if_false,
        add_zero]
      rw [← countP_range_getElem? (fun b => decide (key a > key b)) rest]
      apply List.countP_congr
      intro j _
      simp only [Function.comp, gtAt, List.getElem?_cons_zero, List.getElem?_cons_succ,
        Nat.succ_eq_add_one, Nat.zero_lt_succ, decide_True, Bool.true_and]
      cases rest[j]? <;> simp
    · rw [← ih]
      unfold inversionCount
      congr 1
      apply List.map_congr_left
      intro i _
      simp only [Function.comp]
      rw [List.countP_cons, List.countP_map]
      simp only [Nat.succ_eq_add_one, Nat.not_lt_zero, decide_False, Bool.false_and,
        Bool.false_eq_true, if_false, add_zero]
      apply List.countP_congr
      intro j _
      simp only [Function.comp, gtAt, List.getElem?_cons_succ, Nat.succ_eq_add_one,
        Nat.add_lt_add_iff_right]

end Sorting

namespace BubbleSort

open Sorting

variable {α : Type}

/-- C29: for every input array, `startSort()` (which clears the statistics
and runs `bubbleSort` to its end) leaves in `swaps` the number of inversions of
the input: the pairs of positions `i < j` with `input[i] > input[j]`. -/
theorem bubble_swaps_eq_inversions (key : α → Int) (s : Visualizer α)
    (h : s.isSorting = false) :
    (startSort key s).swaps = inversionCount key s.array := by
  rw [inversionCount_eq]
  have hasc := (startSort_spec key s h).1
  have hz := inversions_ascending key _ hasc
  have hc := outerLoop_inversions key s.array.length 0
    (resetStats { s with isSorting := true, isPaused := false })
  have e1 : (startSort key s).swaps =
      (outerLoop key s.array.length 0
        (resetStats { s with isSorting := true, isPaused := false })).swaps := by
    simp [startSort, h, bubbleSort, resetStats]
  have e2 : (startSort key s).array =
      (outerLoop key s.array.length 0
        (resetStats { s with isSorting := true, isPaused := false })).array := by
    simp [startSort, h, bubbleSort, resetStats]
  rw [e2] at hz
  rw [hz] at hc
  rw [e1]
  simpa [resetStats] using hc

theorem bubble_swaps_eq_inversions_witness :
    (ready [5, 3, 4, 1] : Visualizer Int).isSorting = false ∧
    inversionCount id ([5, 3, 4, 1] : List Int) = 5 ∧
    (startSort id (ready ([5, 3, 4, 1] : List Int))).swaps =
      inversionCount id (ready ([5, 3, 4, 1] : List Int)).array :=
  ⟨rfl, by decide, bubble_swaps_eq_inversions id (ready [5, 3, 4, 1]) rfl⟩

end BubbleSort

namespace Sorting

variable {β : Type}

theorem monoTrace_single (R : β → β → Prop) (a : β) : MonoTrace R a [a] a :=
  ⟨List.chain'_singleton a, rfl, rfl⟩

theorem monoTrace_cons (R : β → β → Prop) {a b c : β} {l : List β}
    (hab : R a b) (h : MonoTrace R b l c) : MonoTrace R a (a :: l) c := by
  obtain ⟨h1, h2, h3⟩ := h
  cases l with
  | nil => simp at h2
  | cons x rest =>
    simp only [List.head?_cons, Option.some.injEq] at h2
    subst h2
    exact ⟨List.Chain'.cons hab h1, rfl, by rw [List.getLast?_cons_cons]; exact h3⟩

theorem monoTrace_link (R : β → β → Prop) {a b d c : β} {l1 l2 : List β}
    (h1 : MonoTrace R a l1 b) (hb : R b d) (h2 : MonoTrace R d l2 c) :
    MonoTrace R a (l1 ++ l2) c := by
  obtain ⟨c1, hd1, ls1⟩ := h1
  obtain ⟨c2, hd2, ls2⟩ := h2
  refine ⟨?_, ?_, ?_⟩
  · refine List.Chain'.append c1 c2 ?_
    intro x hx y hy
    rw [ls1] at hx
    rw [hd2] at hy
    simp only [Option.mem_def, Option.some.injEq] at hx hy
    subst hx; subst hy
    exact hb
  · cases l1 with
    | nil => simp at hd1
    | cons x rest => simpa using hd1
  · cases l2 with
    | nil => simp at hd2
    | cons y rest =>
      rw [List.getLast?_append_of_ne_nil _ (List.cons_ne_nil _ _)]
      exact ls2

theorem monoTrace_append (R : β → β → Prop) (hrefl : ∀ x, R x x) {a b c : β} {l1 l2 : List β}
    (h1 : MonoTrace R a l1 b) (h2 : MonoTrace R b l2 c) : MonoTrace R a (l1 ++ l2) c :=
  monoTrace_link R h1 (hrefl b) h2

end Sorting

namespace BubbleSort

open Sorting

variable {α : Type}

theorem bubble_statsLe_refl (s : Visualizer α) : StatsLe s s :=
  ⟨le_refl _, le_refl _, le_refl _, le_refl _⟩

theorem innerStates_trace (key : α → Int) (n i : Nat) (j : Nat) (sw : Bool)
    (s : Visualizer α) :
    MonoTrace StatsLe s (innerStates key n i j sw s) (innerLoop key n i j sw s).1 ∧
    (innerLoop key n i j sw s).1.currentPass = s.currentPass := by
  induction j, sw, s using innerLoop.induct key n i with
  | case1 j sw s hlt hs =>
    rw [innerLoop, innerStates, if_pos hlt, if_pos hs, if_pos hlt, if_pos hs]
    exact ⟨monoTrace_single _ _, rfl⟩
  | case2 j sw s hlt hs s1 a b hb ha hgt s2 s3 ih =>
    rw [innerLoop, innerStates, if_pos hlt, if_neg hs, if_pos hlt, if_neg hs]
    simp only [s1] at ha hb
    simp only [ha, hb, hgt, if_true]
    refine ⟨?_, ih.2⟩
    refine monoTrace_cons _ (b := s1) ?_ (monoTrace_cons _ (b := s2) ?_
      (monoTrace_cons _ (b := s3) ?_ ih.1))
    · exact ⟨Nat.le_succ _, le_refl _, Nat.le_add_right _ _, le_refl _⟩
    · exact ⟨le_refl _, Nat.le_succ _, Nat.le_add_right _ _, le_refl _⟩
    · exact bubble_statsLe_refl _
  | case3 j sw s hlt hs s1 a b hb ha hgt ih =>
    rw [innerLoop, innerStates, if_pos hlt, if_neg hs, if_pos hlt, if_neg hs]
    simp only [s1] at ha hb
    simp only [ha, hb, hgt, if_false]
    refine ⟨monoTrace_cons _ (b := s1) ?_ ih.1, ih.2⟩
    exact ⟨Nat.le_succ _, le_refl _, Nat.le_add_right _ _, le_refl _⟩
  | case4 j sw s hlt hs s1 hno ih =>
    rw [innerLoop, innerStates, if_pos hlt, if_neg hs, if_pos hlt, if_neg hs]
    simp only []
    refine ⟨monoTrace_cons _ (b := s1) ?_ ih.1, ih.2⟩
    exact ⟨Nat.le_succ _, le_refl _, Nat.le_add_right _ _, le_refl _⟩
  | case5 j sw s hlt =>
    rw [innerLoop, innerStates, if_neg hlt, if_neg hlt]
    exact ⟨monoTrace_single _ _, rfl⟩

theorem outerStates_trace (key : α → Int) (n : Nat) (i : Nat) (s : Visualizer α)
    (hp : s.currentPass ≤ i + 1) :
    MonoTrace StatsLe s (outerStates key n i s) (outerLoop key n i s) := by
  induction i, s using outerLoop.induct key n with
  | case1 i s hlt hs =>
    rw [outerLoop, outerStates, if_pos hlt, if_pos hs, if_pos hlt, if_pos hs]
    exact monoTrace_single _ _
  | case2 i s hlt hs s1 r hr =>
    rw [outerLoop, outerStates, if_pos hlt, if_neg hs, if_pos hlt, if_neg hs]
    simp only []
    rw [if_pos hr, if_pos hr]
    refine monoTrace_cons _ (b := s1) ?_ (innerStates_trace key n i 0 false s1).1
    exact ⟨le_refl _, le_refl _, le_refl _, hp⟩
  | case3 i s hlt hs s1 r hr ih =>
    rw [outerLoop, outerStates, if_pos hlt, if_neg hs, if_pos hlt, if_neg hs]
    simp only []
    rw [if_neg hr, if_neg hr]
    have hin := innerStates_trace key n i 0 false s1
    have hcp : r.1.currentPass ≤ i + 1 + 1 := by
      show (innerLoop key n i 0 false s1).1.currentPass ≤ i + 1 + 1
      rw [hin.2]
      exact Nat.le_succ _
    refine monoTrace_cons _ (b := s1) ?_ (monoTrace_append _ bubble_statsLe_refl hin.1 (ih hcp))
    exact ⟨le_refl _, le_refl _, le_refl _, hp⟩
  | case4 i s hlt =>
    rw [outerLoop, outerStates, if_neg hlt, if_neg hlt]
    exact monoTrace_single _ _

theorem innerLoop_rebase (key : α → Int) (n i : Nat) (o : List α) (j : Nat) (sw : Bool)
    (s : Visualizer α) :
    ∀ f, innerLoop key n i j sw (rebase o f s) =
      (rebase o f (innerLoop key n i j sw s).1, (innerLoop key n i j sw s).2) := by
  induction j, sw, s using innerLoop.induct key n i with
  | case1 j sw s hlt hs =>
    intro f
    rw [innerLoop.eq_1 key n i j sw s, innerLoop.eq_1 key n i j sw (rebase o f s),
      if_pos hlt, if_pos hs, if_pos hlt, if_pos (by exact hs)]
  | case2 j sw s hlt hs s1 a b hb ha hgt s2 s3 ih =>
    intro f
    rw [innerLoop.eq_1 key n i j sw s, innerLoop.eq_1 key n i j sw (rebase o f s),
      if_pos hlt, if_neg hs, if_pos hlt, if_neg (by exact hs)]
    simp only [s1] at ha hb
    have ha' : (rebase o f s).array[j]? = some a := ha
    have hb' : (rebase o f s).array[j + 1]? = some b := hb
    simp only [ha, hb, ha', hb', hgt, if_true]
    rw [← ih f]
    simp [rebase, s3, s2, s1]
  | case3 j sw s hlt hs s1 a b hb ha hgt ih =>
    intro f
    rw [innerLoop.eq_1 key n i j sw s, innerLoop.eq_1 key n i j sw (rebase o f s),
      if_pos hlt, if_neg hs, if_pos hlt, if_neg (by exact hs)]
    simp only [s1] at ha hb
    have ha' : (rebase o f s).array[j]? = some a := ha
    have hb' : (rebase o f s).array[j + 1]? = some b := hb
    simp only [ha, hb, ha', hb', hgt, if_false]
    rw [← ih f]
    rfl
  | case4 j sw s hlt hs s1 hno ih =>
    intro f
    rw [innerLoop.eq_1 key n i j sw s, innerLoop.eq_1 key n i j sw (rebase o f s),
      if_pos hlt, if_neg hs, if_pos hlt, if_neg (by exact hs)]
    have hno' : ∀ (a b : α), (rebase o f s).array[j]? = some a →
        (rebase o f s).array[j + 1]? = some b → False := hno
    simp only []
    rw [← ih f]
    rfl
  | case5 j sw s hlt =>
    intro f
    rw [innerLoop.eq_1 key n i j sw s, innerLoop.eq_1 key n i j sw (rebase o f s),
      if_neg hlt, if_neg hlt]

theorem outerLoop_rebase (key : α → Int) (n : Nat) (o : List α) (i : Nat) (s : Visualizer α) :
    ∀ f, outerLoop key n i (rebase o f s) = rebase o f (outerLoop key n i s) := by
  induction i, s using outerLoop.induct key n with
  | case1 i s hlt hs =>
    intro f
    rw [outerLoop.eq_1 key n i s, outerLoop.eq_1 key n i (rebase o f s),
      if_pos hlt, if_pos hs, if_pos hlt, if_pos (by exact hs)]
  | case2 i s hlt hs s1 r hr =>
    intro f
    rw [outerLoop.eq_1 key n i s, outerLoop.eq_1 key n i (rebase o f s),
      if_pos hlt, if_neg hs, if_pos hlt, if_neg (by exact hs)]
    simp only []
    have e := innerLoop_rebase key n i o 0 false s1 f
    have e' : innerLoop key n i 0 false { rebase o f s with currentPass := i + 1 } =
        (rebase o f r.1, r.2) := e
    rw [e', if_pos hr, if_pos hr]
  | case3 i s hlt hs s1 r hr ih =>
    intro f
    rw [outerLoop.eq_1 key n i s, outerLoop.eq_1 key n i (rebase o f s),
      if_pos hlt, if_neg hs, if_pos hlt, if_neg (by exact hs)]
    simp only []
    have e := innerLoop_rebase key n i o 0 false s1 f
    have e' : innerLoop key n i 0 false { rebase o f s with currentPass := i + 1 } =
        (rebase o f r.1, r.2) := e
    rw [e', if_neg hr, if_neg hr]
    exact ih f
  | case4 i s hlt =>
    intro f
    rw [outerLoop.eq_1 key n i s, outerLoop.eq_1 key n i (rebase o f s),
      if_neg hlt, if_neg hlt]

theorem bubble_startSort_stats (key : α → Int) (s t : Visualizer α)
    (hs : s.isSorting = false) (ht : t.isSorting = false) (h : s.array = t.array) :
    stats (startSort key s) = stats (startSort key t) := by
  have base : ∀ u : Visualizer α, u.isSorting = false →
      stats (startSort key u) = stats (outerLoop key u.array.length 0
        { array := u.array, originalArray := [], isSorting := true, isPaused := false,
          comparisons := 0, swaps := 0, arrayAccess := 0, currentPass := 0, frames := [] }) := by
    intro u hu
    have e : resetStats { u with isSorting := true, isPaused := false } =
        rebase u.originalArray u.frames
          { array := u.array, originalArray := [], isSorting := true, isPaused := false,
            comparisons := 0, swaps := 0, arrayAccess := 0, currentPass := 0, frames := [] } := by
      simp [rebase, resetStats]
    unfold startSort
    rw [if_neg (by simp [hu])]
    simp only [bubbleSort]
    rw [e, outerLoop_rebase]
    rfl
  rw [base s hs, base t ht, h]

end BubbleSort

namespace InsertionSort

open Sorting

variable {α : Type}

theorem insertion_statsLe_refl (s : Visualizer α) : StatsLe s s :=
  ⟨le_refl _, le_refl _, le_refl _⟩

theorem shiftStates_trace (key : α → Int) (k : α) (j : Int) (s : Visualizer α) :
    MonoTrace StatsLe s (shiftStates key k j s) (shiftLoop key k j s).1 := by
  induction j, s using shiftLoop.induct key k with
  | case1 j s hj hs =>
    rw [shiftLoop, shiftStates, if_pos hj, if_pos hs, if_pos hj, if_pos hs]
    exact monoTrace_single _ _
  | case2 j s hj hs s1 x hx hgt s2 ih =>
    rw [shiftLoop, shiftStates, if_pos hj, if_neg hs, if_pos hj, if_neg hs]
    simp only [s1] at hx
    simp only [hx, hgt, if_true]
    refine monoTrace_cons _ (b := s1) ?_ (monoTrace_cons _ (b := s2) ?_ ih)
    · exact ⟨Nat.le_succ _, le_refl _, Nat.le_succ _⟩
    · exact ⟨le_refl _, Nat.le_succ _, Nat.le_add_right _ _⟩
  | case3 j s hj hs s1 x hx hgt =>
    rw [shiftLoop, shiftStates, if_pos hj, if_neg hs, if_pos hj, if_neg hs]
    simp only [s1] at hx
    simp only [hx, hgt, if_false]
    refine monoTrace_cons _ (b := s1) ?_ (monoTrace_single _ _)
    exact ⟨Nat.le_succ _, le_refl _, Nat.le_succ _⟩
  | case4 j s hj hs s1 hx =>
    rw [shiftLoop, shiftStates, if_pos hj, if_neg hs, if_pos hj, if_neg hs]
    simp only [s1] at hx
    simp only [hx]
    refine monoTrace_cons _ (b := s1) ?_ (monoTrace_single _ _)
    exact ⟨Nat.le_succ _, le_refl _, Nat.le_succ _⟩
  | case5 j s hj =>
    rw [shiftLoop, shiftStates, if_neg hj, if_neg hj]
    exact monoTrace_single _ _

theorem mainStates_trace (key : α → Int) (n : Nat) (i : Nat) (s : Visualizer α) :
    MonoTrace StatsLe s (mainStates key n i s) (mainLoop key n i s) := by
  induction i, s using mainLoop.induct key n with
  | case1 i s hlt hs =>
    rw [mainLoop, mainStates, if_pos hlt, if_pos hs, if_pos hlt, if_pos hs]
    exact monoTrace_single _ _
  | case2 i s hlt hs k hk s1 r insertPos s2 ih =>
    rw [mainLoop, mainStates, if_pos hlt, if_neg hs, if_pos hlt, if_neg hs]
    simp only [hk]
    refine monoTrace_cons _ (b := s1) ?_
      (monoTrace_link _ (shiftStates_trace key k ((i : Int) - 1) s1) (d := s2) ?_ ih)
    · exact ⟨le_refl _, le_refl _, Nat.le_succ _⟩
    · exact ⟨le_refl _, le_refl _, Nat.le_succ _⟩
  | case3 i s hlt hs hk =>
    rw [mainLoop, mainStates, if_pos hlt, if_neg hs, if_pos hlt, if_neg hs]
    simp only [hk]
    exact monoTrace_single _ _
  | case4 i s hlt =>
    rw [mainLoop, mainStates, if_neg hlt, if_neg hlt]
    exact monoTrace_single _ _

theorem shiftLoop_rebase (key : α → Int) (k : α) (o : List α) (j : Int) (s : Visualizer α) :
    shiftLoop key k j { s with originalArray := o } =
      ({ (shiftLoop key k j s).1 with originalArray := o }, (shiftLoop key k j s).2) := by
  induction j, s using shiftLoop.induct key k with
  | case1 j s hj hs =>
    rw [shiftLoop.eq_1 key k j s, shiftLoop.eq_1 key k j { s with originalArray := o },
      if_pos hj, if_pos hs, if_pos hj, if_pos (by exact hs)]
  | case2 j s hj hs s1 x hx hgt s2 ih =>
    rw [shiftLoop.eq_1 key k j s, shiftLoop.eq_1 key k j { s with originalArray := o },
      if_pos hj, if_neg hs, if_pos hj, if_neg (by exact hs)]
    simp only [s1] at hx
    simp only [hx, hgt, if_true]
    rw [← ih]
  | case3 j s hj hs s1 x hx hgt =>
    rw [shiftLoop.eq_1 key k j s, shiftLoop.eq_1 key k j { s with originalArray := o },
      if_pos hj, if_neg hs, if_pos hj, if_neg (by exact hs)]
    simp only [s1] at hx
    simp only [hx, hgt, if_false]
  | case4 j s hj hs s1 hx =>
    rw [shiftLoop.eq_1 key k j s, shiftLoop.eq_1 key k j { s with originalArray := o },
      if_pos hj, if_neg hs, if_pos hj, if_neg (by exact hs)]
    simp only [s1] at hx
    simp only [hx]
  | case5 j s hj =>
    rw [shiftLoop.eq_1 key k j s, shiftLoop.eq_1 key k j { s with originalArray := o },
      if_neg hj, if_neg hj]

theorem mainLoop_rebase (key : α → Int) (n : Nat) (o : List α) (i : Nat) (s : Visualizer α) :
    mainLoop key n i { s with originalArray := o } =
      { mainLoop key n i s with originalArray := o } := by
  induction i, s using mainLoop.induct key n with
  | case1 i s hlt hs =>
    rw [mainLoop.eq_1 key n i s, mainLoop.eq_1 key n i { s with originalArray := o },
      if_pos hlt, if_pos hs, if_pos hlt, if_pos (by exact hs)]
  | case2 i s hlt hs k hk s1 r insertPos s2 ih =>
    rw [mainLoop.eq_1 key n i s, mainLoop.eq_1 key n i { s with originalArray := o },
      if_pos hlt, if_neg hs, if_pos hlt, if_neg (by exact hs)]
    simp only [hk]
    have e := shiftLoop_rebase key k o ((i : Int) - 1) s1
    have e' : shiftLoop key k ((i : Int) - 1)
        { array := s.array, originalArray := o, isSorting := s.isSorting,
          isPaused := s.isPaused, comparisons := s.comparisons, shifts := s.shifts,
          arrayAccess := s.arrayAccess + 1, currentKey := some k } =
        ({ r.1 with originalArray := o }, r.2) := e
    rw [e']
    exact ih
  | case3 i s hlt hs hk =>
    rw [mainLoop.eq_1 key n i s, mainLoop.eq_1 key n i { s with originalArray := o },
      if_pos hlt, if_neg hs, if_pos hlt, if_neg (by exact hs)]
    simp only [hk]
  | case4 i s hlt =>
    rw [mainLoop.eq_1 key n i s, mainLoop.eq_1 key n i { s with originalArray := o },
      if_neg hlt, if_neg hlt]

theorem insertion_startSort_stats (key : α → Int) (s t : Visualizer α)
    (hs : s.isSorting = false) (ht : t.isSorting = false) (h : s.array = t.array) :
    stats (startSort key s) = stats (startSort key t) := by
  have base : ∀ u : Visualizer α, u.isSorting = false →
      stats (startSort key u) = stats (mainLoop key u.array.length 1
        { array := u.array, originalArray := [], isSorting := true, isPaused := false,
          comparisons := 0, shifts := 0, arrayAccess := 0, currentKey := none }) := by
    intro u hu
    unfold startSort
    rw [if_neg (by simp [hu])]
    simp only [insertionSort]
    have e := mainLoop_rebase key u.array.length u.originalArray 1
      { array := u.array, originalArray := [], isSorting := true, isPaused := false,
        comparisons := 0, shifts := 0, arrayAccess := 0, currentKey := none }
    have e' : mainLoop key u.array.length 1
        (resetStats { u with isSorting := true, isPaused := false }) = _ := e
    simp only [resetStats] at e' ⊢
    rw [e']
    rfl
  rw [base s hs, base t ht, h]

end InsertionSort

namespace QuickSort

open Sorting

variable {α : Type}

theorem quick_statsLe_refl (s : Visualizer α) : StatsLe s s :=
  ⟨le_refl _, le_refl _, le_refl _, le_refl _⟩

theorem quick_statsLe_trans {s t u : Visualizer α} (h1 : StatsLe s t) (h2 : StatsLe t u) :
    StatsLe s u :=
  ⟨le_trans h1.1 h2.1, le_trans h1.2.1 h2.2.1, le_trans h1.2.2.1 h2.2.2.1,
    le_trans h1.2.2.2 h2.2.2.2⟩

theorem partitionLoopStates_trace (key : α → Int) (pivot : α) (high j i : Int)
    (s : Visualizer α) :
    MonoTrace StatsLe s (partitionLoopStates key pivot high j i s)
      (partitionLoop key pivot high j i s).1 := by
  induction j, i, s using partitionLoop.induct key pivot high with
  | case1 j i s hlt hs =>
    rw [partitionLoop, partitionLoopStates, if_pos hlt, if_pos hs, if_pos hlt, if_pos hs]
    exact monoTrace_single _ _
  | case2 j i s hlt hs s1 x hx hk i1 hne s2 ih =>
    rw [partitionLoop, partitionLoopStates, if_pos hlt, if_neg hs, if_pos hlt, if_neg hs]
    simp only [s1] at hx
    simp only [hx, hk, if_true]
    rw [if_pos hne, if_pos hne]
    refine monoTrace_cons _ (b := s1) ?_ (monoTrace_cons _ (b := s2) ?_ ih)
    · exact ⟨Nat.le_succ _, le_refl _, Nat.le_succ _, le_refl _⟩
    · exact ⟨le_refl _, Nat.le_succ _, Nat.le_add_right _ _, le_refl _⟩
  | case3 j i s hlt hs s1 x hx hk i1 hne ih =>
    rw [partitionLoop, partitionLoopStates, if_pos hlt, if_neg hs, if_pos hlt, if_neg hs]
    simp only [s1] at hx
    simp only [hx, hk, if_true]
    rw [if_neg hne, if_neg hne]
    refine monoTrace_cons _ (b := s1) ?_ ih
    exact ⟨Nat.le_succ _, le_refl _, Nat.le_succ _, le_refl _⟩
  | case4 j i s hlt hs s1 x hx hk ih =>
    rw [partitionLoop, partitionLoopStates, if_pos hlt, if_neg hs, if_pos hlt, if_neg hs]
    simp only [s1] at hx
    simp only [hx, hk, if_false]
    refine monoTrace_cons _ (b := s1) ?_ ih
    exact ⟨Nat.le_succ _, le_refl _, Nat.le_succ _, le_refl _⟩
  | case5 j i s hlt hs s1 hx ih =>
    rw [partitionLoop, partitionLoopStates, if_pos hlt, if_neg hs, if_pos hlt, if_neg hs]
    simp only [s1] at hx
    simp only [hx]
    refine monoTrace_cons _ (b := s1) ?_ ih
    exact ⟨Nat.le_succ _, le_refl _, Nat.le_succ _, le_refl _⟩
  | case6 j i s hlt =>
    rw [partitionLoop, partitionLoopStates, if_neg hlt, if_neg hlt]
    exact monoTrace_single _ _

theorem partitionStates_trace (key : α → Int) (low high : Int) (s : Visualizer α) :
    MonoTrace StatsLe s (partitionStates key low high s) (partition key low high s).1 := by
  by_cases hs : s.isSorting = false
  · rw [partitionStates, if_pos hs]
    have : (partition key low high s).1 = s := by rw [partition, if_pos hs]
    rw [this]
    exact monoTrace_single _ _
  · rw [partitionStates, if_neg hs]
    cases hp : getAt s.array high with
    | none =>
      have : (partition key low high s).1 = s := by
        rw [partition, if_neg hs]; simp only [hp]
      rw [this]
      exact monoTrace_single _ _
    | some pivot =>
      simp only []
      have hl := partitionLoopStates_trace key pivot high low (low - 1)
        { s with arrayAccess := s.arrayAccess + 1 }
      have hfin : StatsLe (partitionLoop key pivot high low (low - 1)
          { s with arrayAccess := s.arrayAccess + 1 }).1 (partition key low high s).1 := by
        rw [partition, if_neg hs]
        simp only [hp]
        cases (partitionLoop key pivot high low (low - 1)
            { s with arrayAccess := s.arrayAccess + 1 }).2 with
        | none => exact quick_statsLe_refl _
        | some i =>
          simp only []
          split
          · exact ⟨le_refl _, Nat.le_succ _, Nat.le_add_right _ _, le_refl _⟩
          · exact quick_statsLe_refl _
      refine monoTrace_cons _ (b := { s with arrayAccess := s.arrayAccess + 1 }) ?_
        (monoTrace_link _ hl hfin (monoTrace_single _ _))
      exact ⟨le_refl _, le_refl _, Nat.le_succ _, le_refl _⟩

theorem quickSortStates_trace (key : α → Int) :
    ∀ (m : Nat) (low high : Int) (s : Visualizer α), (high - low).toNat ≤ m →
      MonoTrace StatsLe s (quickSortStates key low high s) (quickSort key low high s) := by
  intro m
  induction m using Nat.strong_induction_on with
  | _ m ih =>
    intro low high s hm
    by_cases hc : s.isSorting = false ∨ low ≥ high
    · rw [quickSortStates, dif_pos hc]
      have : quickSort key low high s = s := by rw [quickSort, dif_pos hc]
      rw [this]
      exact monoTrace_single _ _
    · have hlh : low < high := by
        simp only [not_or, ge_iff_le, not_le] at hc; exact hc.2
      have hq : quickSort key low high s =
          leaveCall
            (if hp : (partition key low high (enterCall s)).1.isSorting = true ∧
                (partition key low high (enterCall s)).2 ≠ -1 then
              (if hr : (partition key low high (enterCall s)).2 + 1 < high then
                quickSort key ((partition key low high (enterCall s)).2 + 1) high
                  (if hl : (partition key low high (enterCall s)).2 - 1 > low then
                    quickSort key low ((partition key low high (enterCall s)).2 - 1)
                      (partition key low high (enterCall s)).1
                  else (partition key low high (enterCall s)).1)
              else
                (if hl : (partition key low high (enterCall s)).2 - 1 > low then
                    quickSort key low ((partition key low high (enterCall s)).2 - 1)
                      (partition key low high (enterCall s)).1
                  else (partition key low high (enterCall s)).1))
            else (partition key low high (enterCall s)).1) := by
        rw [quickSort, dif_neg hc]
      rw [quickSortStates, dif_neg hc]
      simp only []
      have hb := partition_index key low high (enterCall s) hlh
      have hpt := partitionStates_trace key low high (enterCall s)
      have henter : StatsLe s (enterCall s) :=
        ⟨le_refl _, le_refl _, le_refl _, le_max_left _ _⟩
      rw [hq]
      generalize partition key low high (enterCall s) = r at hb hpt ⊢
      refine monoTrace_cons _ henter ?_
      by_cases hp : r.1.isSorting = true ∧ r.2 ≠ -1
      · rw [dif_pos hp, dif_pos hp]
        have hb' : low ≤ r.2 ∧ r.2 ≤ high := by
          rcases hb with hb | hb
          · exact absurd hb hp.2
          · exact hb
        have hL : MonoTrace StatsLe r.1
            (if _ : r.2 - 1 > low then quickSortStates key low (r.2 - 1) r.1 else [r.1])
            (if _ : r.2 - 1 > low then quickSort key low (r.2 - 1) r.1 else r.1) := by
          by_cases hl : r.2 - 1 > low
          · rw [dif_pos hl, dif_pos hl]
            exact ih (r.2 - 1 - low).toNat (by omega) low (r.2 - 1) r.1 (le_refl _)
          · rw [dif_neg hl, dif_neg hl]
            exact monoTrace_single _ _
        generalize (if _ : r.2 - 1 > low then quickSort key low (r.2 - 1) r.1 else r.1) = sL
          at hL ⊢
        have hR : MonoTrace StatsLe sL
            (if _ : r.2 + 1 < high then quickSortStates key (r.2 + 1) high sL else [sL])
            (if _ : r.2 + 1 < high then quickSort key (r.2 + 1) high sL else sL) := by
          by_cases hr : r.2 + 1 < high
          · rw [dif_pos hr, dif_pos hr]
            exact ih (high - (r.2 + 1)).toNat (by omega) (r.2 + 1) high sL (le_refl _)
          · rw [dif_neg hr, dif_neg hr]
            exact monoTrace_single _ _
        generalize (if _ : r.2 + 1 < high then quickSort key (r.2 + 1) high sL else sL) = sR
          at hR ⊢
        refine monoTrace_append _ quick_statsLe_refl hpt
          (monoTrace_link _ (monoTrace_append _ quick_statsLe_refl hL hR) (d := leaveCall sR) ?_
            (monoTrace_single _ _))
        exact quick_statsLe_refl sR
      · rw [dif_neg hp, dif_neg hp]
        refine monoTrace_append _ quick_statsLe_refl hpt
          (monoTrace_link _ (monoTrace_single _ r.1) (d := leaveCall r.1) ?_
            (monoTrace_single _ _))
        exact quick_statsLe_refl r.1

end QuickSort

namespace QuickSort

open Sorting

variable {α : Type}

theorem partitionLoop_rebase (key : α → Int) (pivot : α) (high : Int) (o : List α)
    (j i : Int) (s : Visualizer α) :
    partitionLoop key pivot high j i { s with originalArray := o } =
      ({ (partitionLoop key pivot high j i s).1 with originalArray := o },
        (partitionLoop key pivot high j i s).2) := by
  induction j, i, s using partitionLoop.induct key pivot high with
  | case1 j i s hlt hs =>
    rw [partitionLoop.eq_1 key pivot high j i s,
      partitionLoop.eq_1 key pivot high j i { s with originalArray := o },
      if_pos hlt, if_pos hs, if_pos hlt, if_pos (by exact hs)]
  | case2 j i s hlt hs s1 x hx hk i1 hne s2 ih =>
    rw [partitionLoop.eq_1 key pivot high j i s,
      partitionLoop.eq_1 key pivot high j i { s with originalArray := o },
      if_pos hlt, if_neg hs, if_pos hlt, if_neg (by exact hs)]
    simp only [s1] at hx
    simp only [hx, hk, if_true]
    rw [if_pos hne, if_pos hne, ← ih]
  | case3 j i s hlt hs s1 x hx hk i1 hne ih =>
    rw [partitionLoop.eq_1 key pivot high j i s,
      partitionLoop.eq_1 key pivot high j i { s with originalArray := o },
      if_pos hlt, if_neg hs, if_pos hlt, if_neg (by exact hs)]
    simp only [s1] at hx
    simp only [hx, hk, if_true]
    rw [if_neg hne, if_neg hne, ← ih]
  | case4 j i s hlt hs s1 x hx hk ih =>
    rw [partitionLoop.eq_1 key pivot high j i s,
      partitionLoop.eq_1 key pivot high j i { s with originalArray := o },
      if_pos hlt, if_neg hs, if_pos hlt, if_neg (by exact hs)]
    simp only [s1] at hx
    simp only [hx, hk, if_false]
    rw [← ih]
  | case5 j i s hlt hs s1 hx ih =>
    rw [partitionLoop.eq_1 key pivot high j i s,
      partitionLoop.eq_1 key pivot high j i { s with originalArray := o },
      if_pos hlt, if_neg hs, if_pos hlt, if_neg (by exact hs)]
    simp only [s1] at hx
    simp only [hx]
    rw [← ih]
  | case6 j i s hlt =>
    rw [partitionLoop.eq_1 key pivot high j i s,
      partitionLoop.eq_1 key pivot high j i { s with originalArray := o },
      if_neg hlt, if_neg hlt]

theorem partition_rebase (key : α → Int) (low high : Int) (o : List α) (s : Visualizer α) :
    partition key low high { s with originalArray := o } =
      ({ (partition key low high s).1 with originalArray := o },
        (partition key low high s).2) := by
  by_cases hs : s.isSorting = false
  · rw [partition, partition, if_pos hs, if_pos (by exact hs)]
  · rw [partition, partition, if_neg hs, if_neg (by exact hs)]
    cases hp : getAt s.array high with
    | none => simp only [hp]
    | some pivot =>
      simp only [hp]
      have e := partitionLoop_rebase key pivot high o low (low - 1)
        { s with arrayAccess := s.arrayAccess + 1 }
      have e' : partitionLoop key pivot high low (low - 1)
          { array := s.array, originalArray := o, isSorting := s.isSorting,
            isPaused := s.isPaused, comparisons := s.comparisons, swaps := s.swaps,
            arrayAccess := s.arrayAccess + 1, recursionDepth := s.recursionDepth,
            maxRecursionDepth := s.maxRecursionDepth } = _ := e
      rw [e']
      cases (partitionLoop key pivot high low (low - 1)
          { s with arrayAccess := s.arrayAccess + 1 }).2 with
      | none => rfl
      | some i =>
        simp only []
        split <;> rfl

theorem rebase_isSorting (o : List α) (s : Visualizer α) :
    (rebase o s).isSorting = s.isSorting := rfl

theorem quickSort_rebase (key : α → Int) (o : List α) :
    ∀ (m : Nat) (low high : Int) (s : Visualizer α), (high - low).toNat ≤ m →
      quickSort key low high (rebase o s) = rebase o (quickSort key low high s) := by
  intro m
  induction m using Nat.strong_induction_on with
  | _ m ih =>
    intro low high s hm
    by_cases hc : s.isSorting = false ∨ low ≥ high
    · rw [quickSort.eq_1 key low high s, quickSort.eq_1 key low high (rebase o s),
        dif_pos hc, dif_pos (by exact hc)]
    · have hlh : low < high := by
        simp only [not_or, ge_iff_le, not_le] at hc; exact hc.2
      rw [quickSort.eq_1 key low high s, quickSort.eq_1 key low high (rebase o s),
        dif_neg hc, dif_neg (by exact hc)]
      simp only []
      have hb := partition_index key low high (enterCall s) hlh
      have e : partition key low high (enterCall (rebase o s)) =
          (rebase o (partition key low high (enterCall s)).1,
            (partition key low high (enterCall s)).2) :=
        partition_rebase key low high o (enterCall s)
      rw [e]
      generalize partition key low high (enterCall s) = r at hb ⊢
      simp only [rebase_isSorting]
      by_cases hp : r.1.isSorting = true ∧ r.2 ≠ -1
      · have hb' : low ≤ r.2 ∧ r.2 ≤ high := by
          rcases hb with hb | hb
          · exact absurd hb hp.2
          · exact hb
        have ihL := ih (r.2 - 1 - low).toNat (by omega) low (r.2 - 1) r.1 (le_refl _)
        have ihR := fun sL => ih (high - (r.2 + 1)).toNat (by omega) (r.2 + 1) high sL (le_refl _)
        by_cases hl : r.2 - 1 > low <;> by_cases hr : r.2 + 1 < high
        · simp only [dif_pos hp, dif_pos hl, dif_pos hr]
          rw [ihL, ihR]
          rfl
        · simp only [dif_pos hp, dif_pos hl, dif_neg hr]
          rw [ihL]
          rfl
        · simp only [dif_pos hp, dif_neg hl, dif_pos hr]
          rw [ihR]
          rfl
        · simp only [dif_pos hp, dif_neg hl, dif_neg hr]
          rfl
      · simp only [dif_neg hp]
        rfl

theorem quick_startSort_stats (key : α → Int) (s t : Visualizer α)
    (hs : s.isSorting = false) (ht : t.isSorting = false) (h : s.array = t.array) :
    stats (startSort key s) = stats (startSort key t) := by
  have base : ∀ u : Visualizer α, u.isSorting = false →
      stats (startSort key u) = stats (quickSort key 0 ((u.array.length : Int) - 1)
        { array := u.array, originalArray := [], isSorting := true, isPaused := false,
          comparisons := 0, swaps := 0, arrayAccess := 0, recursionDepth := 0,
          maxRecursionDepth := 0 }) := by
    intro u hu
    unfold startSort
    rw [if_neg (by simp [hu])]
    have e := quickSort_rebase key u.originalArray _ 0 ((u.array.length : Int) - 1)
      { array := u.array, originalArray := [], isSorting := true, isPaused := false,
        comparisons := 0, swaps := 0, arrayAccess := 0, recursionDepth := 0,
        maxRecursionDepth := 0 } (le_refl _)
    have e' : quickSort key 0 ((u.array.length : Int) - 1)
        (resetStats { u with isSorting := true, isPaused := false }) = _ := e
    show stats { quickSort key 0 ((u.array.length : Int) - 1)
        (resetStats { u with isSorting := true, isPaused := false }) with
      isSorting := false } = _
    rw [e']
    rfl
  rw [base s hs, base t ht, h]

end QuickSort

namespace Sorting

variable {α : Type}

/-- C26: in each sort visualizer, for every prior state in which no sort is
running, `startSort()` enters the algorithm with every statistic at zero; the
states the run then passes through, from that state to the one the algorithm
ends in, form a list in which no counter (`comparisons`, `swaps` or `shifts`,
`arrayAccess`, `currentPass`, `maxRecursionDepth`) is smaller in a state than
in the state before it; the statistics `startSort()` leaves are those of the
last state of that list, and they are the same for two prior states with the
same array. -/
theorem statistics_monotone (key : α → Int)
    (b : BubbleSort.Visualizer α) (i : InsertionSort.Visualizer α)
    (q : QuickSort.Visualizer α)
    (hb : b.isSorting = false) (hi : i.isSorting = false) (hq : q.isSorting = false) :
    (BubbleSort.stats (BubbleSort.resetStats { b with isSorting := true, isPaused := false }) =
        (0, 0, 0, 0) ∧
      MonoTrace BubbleSort.StatsLe
        (BubbleSort.resetStats { b with isSorting := true, isPaused := false })
        (BubbleSort.runStates key b)
        (BubbleSort.bubbleSort key
          (BubbleSort.resetStats { b with isSorting := true, isPaused := false })) ∧
      BubbleSort.stats (BubbleSort.startSort key b) =
        BubbleSort.stats (BubbleSort.bubbleSort key
          (BubbleSort.resetStats { b with isSorting := true, isPaused := false })) ∧
      ∀ b' : BubbleSort.Visualizer α, b'.isSorting = false → b'.array = b.array →
        BubbleSort.stats (BubbleSort.startSort key b') =
          BubbleSort.stats (BubbleSort.startSort key b)) ∧
    (InsertionSort.stats
        (InsertionSort.resetStats { i with isSorting := true, isPaused := false }) =
        (0, 0, 0) ∧
      MonoTrace InsertionSort.StatsLe
        (InsertionSort.resetStats { i with isSorting := true, isPaused := false })
        (InsertionSort.runStates key i)
        (InsertionSort.insertionSort key
          (InsertionSort.resetStats { i with isSorting := true, isPaused := false })) ∧
      InsertionSort.stats (InsertionSort.startSort key i) =
        InsertionSort.stats (InsertionSort.insertionSort key
          (InsertionSort.resetStats { i with isSorting := true, isPaused := false })) ∧
      ∀ i' : InsertionSort.Visualizer α, i'.isSorting = false → i'.array = i.array →
        InsertionSort.stats (InsertionSort.startSort key i') =
          InsertionSort.stats (InsertionSort.startSort key i)) ∧
    (QuickSort.stats (QuickSort.resetStats { q with isSorting := true, isPaused := false }) =
        (0, 0, 0, 0, 0) ∧
      MonoTrace QuickSort.StatsLe
        (QuickSort.resetStats { q with isSorting := true, isPaused := false })
        (QuickSort.runStates key q)
        (QuickSort.quickSort key 0 ((q.array.length : Int) - 1)
          (QuickSort.resetStats { q with isSorting := true, isPaused := false })) ∧
      QuickSort.stats (QuickSort.startSort key q) =
        QuickSort.stats (QuickSort.quickSort key 0 ((q.array.length : Int) - 1)
          (QuickSort.resetStats { q with isSorting := true, isPaused := false })) ∧
      ∀ q' : QuickSort.Visualizer α, q'.isSorting = false → q'.array = q.array →
        QuickSort.stats (QuickSort.startSort key q') =
          QuickSort.stats (QuickSort.startSort key q)) := by
  refine ⟨⟨rfl, ?_, ?_, ?_⟩, ⟨rfl, ?_, ?_, ?_⟩, ⟨rfl, ?_, ?_, ?_⟩⟩
  · exact BubbleSort.outerStates_trace key _ 0 _ (Nat.zero_le _)
  · unfold BubbleSort.startSort
    rw [if_neg (by simp [hb])]
    rfl
  · intro b' hb' harr
    exact BubbleSort.bubble_startSort_stats key b' b hb' hb harr
  · exact InsertionSort.mainStates_trace key _ 1 _
  · unfold InsertionSort.startSort
    rw [if_neg (by simp [hi])]
    rfl
  · intro i' hi' harr
    exact InsertionSort.insertion_startSort_stats key i' i hi' hi harr
  · exact QuickSort.quickSortStates_trace key _ 0 _ _ (le_refl _)
  · unfold QuickSort.startSort
    rw [if_neg (by simp [hq])]
    rfl
  · intro q' hq' harr
    exact QuickSort.quick_startSort_stats key q' q hq' hq harr

theorem statistics_monotone_witness :
    ((BubbleSort.ready [3, 1, 2] : BubbleSort.Visualizer Int).isSorting = false ∧
      (InsertionSort.ready [3, 1, 2] : InsertionSort.Visualizer Int).isSorting = false ∧
      (QuickSort.ready [3, 1, 2] : QuickSort.Visualizer Int).isSorting = false) ∧
    List.Chain' BubbleSort.StatsLe (BubbleSort.runStates id (BubbleSort.ready [3, 1, 2])) ∧
    List.Chain' InsertionSort.StatsLe
      (InsertionSort.runStates id (InsertionSort.ready [3, 1, 2])) ∧
    List.Chain' QuickSort.StatsLe (QuickSort.runStates id (QuickSort.ready [3, 1, 2])) := by
  have h := statistics_monotone id (BubbleSort.ready [3, 1, 2]) (InsertionSort.ready [3, 1, 2])
    (QuickSort.ready [3, 1, 2]) rfl rfl rfl
  exact ⟨⟨rfl, rfl, rfl⟩, h.1.2.1.1, h.2.1.2.1.1, h.2.2.2.1.1⟩

end Sorting

namespace QuickSort

variable {α : Type}

theorem partitionLoop_depth (key : α → Int) (pivot : α) (high j i : Int) (s : Visualizer α) :
    (partitionLoop key pivot high j i s).1.recursionDepth = s.recursionDepth ∧
    (partitionLoop key pivot high j i s).1.maxRecursionDepth = s.maxRecursionDepth := by
  induction j, i, s using partitionLoop.induct key pivot high with
  | case1 j i s hlt hs =>
    rw [partitionLoop, if_pos hlt, if_pos hs]
    exact ⟨rfl, rfl⟩
  | case2 j i s hlt hs s1 x hx hk i1 hne s2 ih =>
    rw [partitionLoop, if_pos hlt, if_neg hs]
    simp only [s1] at hx
    simp only [hx, hk, if_true]
    rw [if_pos hne]
    exact ih
  | case3 j i s hlt hs s1 x hx hk i1 hne ih =>
    rw [partitionLoop, if_pos hlt, if_neg hs]
    simp only [s1] at hx
    simp only [hx, hk, if_true]
    rw [if_neg hne]
    exact ih
  | case4 j i s hlt hs s1 x hx hk ih =>
    rw [partitionLoop, if_pos hlt, if_neg hs]
    simp only [s1] at hx
    simp only [hx, hk, if_false]
    exact ih
  | case5 j i s hlt hs s1 hx ih =>
    rw [partitionLoop, if_pos hlt, if_neg hs]
    simp only [s1] at hx
    simp only [hx]
    exact ih
  | case6 j i s hlt =>
    rw [partitionLoop, if_neg hlt]
    exact ⟨rfl, rfl⟩

theorem partition_depth (key : α → Int) (low high : Int) (s : Visualizer α) :
    (partition key low high s).1.recursionDepth = s.recursionDepth ∧
    (partition key low high s).1.maxRecursionDepth = s.maxRecursionDepth := by
  by_cases hs : s.isSorting = false
  · rw [partition, if_pos hs]
    exact ⟨rfl, rfl⟩
  · rw [partition, if_neg hs]
    cases hp : getAt s.array high with
    | none => exact ⟨rfl, rfl⟩
    | some pivot =>
      simp only []
      have h := partitionLoop_depth key pivot high low (low - 1)
        { s with arrayAccess := s.arrayAccess + 1 }
      cases hr : (partitionLoop key pivot high low (low - 1)
          { s with arrayAccess := s.arrayAccess + 1 }).2 with
      | none => exact h
      | some i =>
        simp only []
        split
        · exact h
        · exact h

/-- A call of `quickSort` leaves `recursionDepth` where it found it and raises
`maxRecursionDepth` to no more than the depth on entry plus the number of
elements of the range less one. -/
theorem quickSort_depth (key : α → Int) :
    ∀ (m : Nat) (low high : Int) (s : Visualizer α), (high - low).toNat ≤ m →
      (quickSort key low high s).recursionDepth = s.recursionDepth ∧
      s.maxRecursionDepth ≤ (quickSort key low high s).maxRecursionDepth ∧
      (quickSort key low high s).maxRecursionDepth ≤
        max s.maxRecursionDepth (s.recursionDepth + max (high - low) 0) := by
  intro m
  induction m using Nat.strong_induction_on with
  | _ m ih =>
    intro low high s hm
    by_cases hc : s.isSorting = false ∨ low ≥ high
    · rw [quickSort, dif_pos hc]
      refine ⟨rfl, le_refl _, le_max_left _ _⟩
    · have hlh : low < high := by
        simp only [not_or, ge_iff_le, not_le] at hc; exact hc.2
      rw [quickSort, dif_neg hc]
      simp only []
      have hb := partition_index key low high (enterCall s) hlh
      obtain ⟨pd, pm⟩ := partition_depth key low high (enterCall s)
      generalize partition key low high (enterCall s) = r at hb pd pm ⊢
      have pd' : r.1.recursionDepth = s.recursionDepth + 1 := pd
      have pm' : r.1.maxRecursionDepth = max s.maxRecursionDepth (s.recursionDepth + 1) := pm
      by_cases hp : r.1.isSorting = true ∧ r.2 ≠ -1
      · rw [dif_pos hp]
        have hb' : low ≤ r.2 ∧ r.2 ≤ high := by
          rcases hb with hb | hb
          · exact absurd hb hp.2
          · exact hb
        have hL : ∀ sL, sL = (if _ : r.2 - 1 > low then quickSort key low (r.2 - 1) r.1 else r.1) →
            sL.recursionDepth = s.recursionDepth + 1 ∧
            s.maxRecursionDepth ≤ sL.maxRecursionDepth ∧
            sL.maxRecursionDepth ≤
              max s.maxRecursionDepth (s.recursionDepth + (high - low)) := by
          intro sL hsL
          by_cases hl : r.2 - 1 > low
          · rw [dif_pos hl] at hsL
            obtain ⟨a1, a2, a3⟩ := ih (r.2 - 1 - low).toNat (by omega) low (r.2 - 1) r.1
              (le_refl _)
            rw [← hsL] at a1 a2 a3
            rw [pd'] at a1
            rw [pm'] at a2 a3
            rw [pd'] at a3
            refine ⟨a1, ?_, ?_⟩
            · have := le_max_left s.maxRecursionDepth (s.recursionDepth + 1); omega
            · simp only [max_def] at a3 ⊢
              split_ifs at a3 ⊢ <;> omega
          · rw [dif_neg hl] at hsL
            subst hsL
            refine ⟨pd', ?_, ?_⟩
            · rw [pm']; exact le_max_left _ _
            · rw [pm']
              simp only [max_def]
              split_ifs <;> omega
        generalize (if _ : r.2 - 1 > low then quickSort key low (r.2 - 1) r.1 else r.1) = sL
          at hL ⊢
        obtain ⟨l1, l2, l3⟩ := hL sL rfl
        have hR : ∀ sR, sR = (if _ : r.2 + 1 < high then quickSort key (r.2 + 1) high sL else sL) →
            sR.recursionDepth = s.recursionDepth + 1 ∧
            s.maxRecursionDepth ≤ sR.maxRecursionDepth ∧
            sR.maxRecursionDepth ≤
              max s.maxRecursionDepth (s.recursionDepth + (high - low)) := by
          intro sR hsR
          by_cases hr : r.2 + 1 < high
          · rw [dif_pos hr] at hsR
            obtain ⟨a1, a2, a3⟩ := ih (high - (r.2 + 1)).toNat (by omega) (r.2 + 1) high sL
              (le_refl _)
            rw [← hsR] at a1 a2 a3
            rw [l1] at a1 a3
            refine ⟨a1, le_trans l2 a2, ?_⟩
            simp only [max_def] at a3 l3 ⊢
            split_ifs at a3 l3 ⊢ <;> omega
          · rw [dif_neg hr] at hsR
            subst hsR
            exact ⟨l1, l2, l3⟩
        generalize (if _ : r.2 + 1 < high then quickSort key (r.2 + 1) high sL else sL) = sR
          at hR ⊢
        obtain ⟨r1, r2, r3⟩ := hR sR rfl
        refine ⟨?_, r2, ?_⟩
        · show sR.recursionDepth - 1 = s.recursionDepth
          omega
        · show sR.maxRecursionDepth ≤ _
          simp only [max_def] at r3 ⊢
          split_ifs at r3 ⊢ <;> omega
      · rw [dif_neg hp]
        refine ⟨?_, ?_, ?_⟩
        · show r.1.recursionDepth - 1 = s.recursionDepth
          omega
        · show s.maxRecursionDepth ≤ r.1.maxRecursionDepth
          rw [pm']; exact le_max_left _ _
        · show r.1.maxRecursionDepth ≤ _
          rw [pm']
          simp only [max_def]
          split_ifs <;> omega

end QuickSort

namespace CircularList

theorem find?_of_unique {β : Type} (p : β → Bool) :
    ∀ (l : List β) (a : β), a ∈ l → p a = true → (∀ x ∈ l, p x = true → x = a) →
      l.find? p = some a := by
  intro l
  induction l with
  | nil => intro a ha; simp at ha
  | cons x rest ih =>
    intro a ha hp hu
    by_cases hx : p x = true
    · have := hu x (List.mem_cons_self _ _) hx
      subst this
      simp [List.find?_cons, hx]
    · have hne : x ≠ a := fun e => hx (e ▸ hp)
      have ha' : a ∈ rest := by
        rcases List.mem_cons.1 ha with h | h
        · exact absurd h.symm hne
        · exact h
      simp only [List.find?_cons, hx]
      exact ih a ha' hp (fun y hy => hu y (List.mem_cons_of_mem _ hy))

theorem drawHorizontalPair_roomy (cfg : Config) (i : Nat)
    (hroom : 25 ≤ cfg.spacing - cfg.nodeWidth - 2 * cfg.arrowMargin) :
    drawHorizontalPair cfg i (i + 1) =
      [{ kind := ArrowKind.forward, src := i, dst := i + 1 },
       { kind := ArrowKind.backward, src := i + 1, dst := i }] := by
  unfold drawHorizontalPair
  simp only []
  rw [if_neg]
  push_cast
  have : cfg.startX + ((i : Int) + 1) * cfg.spacing - cfg.arrowMargin -
      (cfg.startX + (i : Int) * cfg.spacing + cfg.nodeWidth + cfg.arrowMargin) =
      cfg.spacing - cfg.nodeWidth - 2 * cfg.arrowMargin := by ring
  rw [this]
  omega

theorem mem_drawHorizontalPair (cfg : Config) (i : Nat) (x : Arrow)
    (hx : x ∈ drawHorizontalPair cfg i (i + 1)) :
    x = { kind := ArrowKind.forward, src := i, dst := i + 1 } ∨
      x = { kind := ArrowKind.backward, src := i + 1, dst := i } := by
  unfold drawHorizontalPair at hx
  simp only [] at hx
  split at hx
  · simp at hx
  · simpa using hx

/-- The arrows of a list of at least two nodes: those of the pairs of
neighbours, if any is drawn, and the two closure arcs. -/
theorem mem_redrawArrows (cfg : Config) (n : Nat) (hn : 2 ≤ n) (x : Arrow)
    (hx : x ∈ redrawArrows cfg n) :
    (∃ i, i + 1 < n ∧ (x = { kind := ArrowKind.forward, src := i, dst := i + 1 } ∨
        x = { kind := ArrowKind.backward, src := i + 1, dst := i })) ∨
      x = { kind := ArrowKind.forward, src := n - 1, dst := 0 } ∨
      x = { kind := ArrowKind.backward, src := 0, dst := n - 1 } := by
  unfold redrawArrows at hx
  rw [if_neg (by omega), if_neg (by omega), List.mem_append] at hx
  rcases hx with hx | hx
  · left
    rw [List.mem_flatMap] at hx
    obtain ⟨i, hi, hxi⟩ := hx
    rw [List.mem_range] at hi
    by_cases hlast : i = n - 1
    · rw [if_pos hlast] at hxi
      simp at hxi
    · rw [if_neg hlast] at hxi
      exact ⟨i, by omega, mem_drawHorizontalPair cfg i x hxi⟩
  · right
    simpa [drawClosureArcs] using hx

theorem closure_mem_redrawArrows (cfg : Config) (n : Nat) (hn : 2 ≤ n) :
    ({ kind := ArrowKind.forward, src := n - 1, dst := 0 } : Arrow) ∈ redrawArrows cfg n ∧
    ({ kind := ArrowKind.backward, src := 0, dst := n - 1 } : Arrow) ∈ redrawArrows cfg n := by
  unfold redrawArrows
  rw [if_neg (by omega), if_neg (by omega)]
  simp [drawClosureArcs]

theorem pair_mem_redrawArrows (cfg : Config) (n i : Nat) (hi : i + 1 < n)
    (hroom : 25 ≤ cfg.spacing - cfg.nodeWidth - 2 * cfg.arrowMargin) :
    ({ kind := ArrowKind.forward, src := i, dst := i + 1 } : Arrow) ∈ redrawArrows cfg n := by
  unfold redrawArrows
  rw [if_neg (by omega), if_neg (by omega), List.mem_append]
  left
  rw [List.mem_flatMap]
  refine ⟨i, List.mem_range.2 (by omega), ?_⟩
  rw [if_neg (by omega), drawHorizontalPair_roomy cfg i hroom]
  simp

/-- The forward arrow that starts at the last slot is the closure arc to slot 0. -/
theorem arrowFrom_forward_last (cfg : Config) (n : Nat) (hn : 1 ≤ n) :
    arrowFrom (redrawArrows cfg n) ArrowKind.forward (n - 1) = some 0 := by
  unfold arrowFrom
  by_cases h1 : n = 1
  · subst h1
    simp [redrawArrows, drawSelfLoop, List.find?_cons]
  · have hn2 : 2 ≤ n := by omega
    rw [find?_of_unique _ _ { kind := ArrowKind.forward, src := n - 1, dst := 0 }
      (closure_mem_redrawArrows cfg n hn2).1 (by simp)]
    · rfl
    · intro x hx hp
      simp only [decide_eq_true_eq] at hp
      rcases mem_redrawArrows cfg n hn2 x hx with ⟨i, hi, h | h⟩ | h | h
      · subst h; simp at hp; omega
      · subst h; simp at hp
      · exact h
      · subst h; simp at hp

/-- The backward arrow that starts at slot 0 is the closure arc to the last slot. -/
theorem arrowFrom_backward_first (cfg : Config) (n : Nat) (hn : 1 ≤ n) :
    arrowFrom (redrawArrows cfg n) ArrowKind.backward 0 = some (n - 1) := by
  unfold arrowFrom
  by_cases h1 : n = 1
  · subst h1
    simp [redrawArrows, drawSelfLoop, List.find?_cons]
  · have hn2 : 2 ≤ n := by omega
    rw [find?_of_unique _ _ { kind := ArrowKind.backward, src := 0, dst := n - 1 }
      (closure_mem_redrawArrows cfg n hn2).2 (by simp)]
    · rfl
    · intro x hx hp
      simp only [decide_eq_true_eq] at hp
      rcases mem_redrawArrows cfg n hn2 x hx with ⟨i, hi, h | h⟩ | h | h
      · subst h; simp at hp
      · subst h; simp at hp
      · subst h; simp at hp
      · exact h

/-- The forward arrow that starts at a slot before the last one points to the
next slot, when there is room to draw it. -/
theorem arrowFrom_forward_inner (cfg : Config) (n i : Nat) (hi : i + 1 < n)
    (hroom : 25 ≤ cfg.spacing - cfg.nodeWidth - 2 * cfg.arrowMargin) :
    arrowFrom (redrawArrows cfg n) ArrowKind.forward i = some (i + 1) := by
  unfold arrowFrom
  rw [find?_of_unique _ _ { kind := ArrowKind.forward, src := i, dst := i + 1 }
    (pair_mem_redrawArrows cfg n i hi hroom) (by simp)]
  · rfl
  · intro x hx hp
    simp only [decide_eq_true_eq] at hp
    rcases mem_redrawArrows cfg n (by omega) x hx with ⟨j, hj, h | h⟩ | h | h
    · subst h
      simp only [true_and] at hp
      subst hp
      rfl
    · subst h; simp at hp
    · subst h; simp at hp; omega
    · subst h; simp at hp

theorem scene_selectNode_list (s : State) (id : Nat) : (selectNode s id).list = s.list := by
  unfold selectNode
  split <;> rfl

theorem scene_insert_state (cfg : Config) (sc : Scene) (input : Option Int) :
    (Scene.insertAfterSelected cfg sc input).state = (insertAfterSelected sc.state input).state := by
  unfold Scene.insertAfterSelected insertAfterSelected
  cases sc.state.selectedId with
  | none => rfl
  | some sel =>
    cases input with
    | none => rfl
    | some v =>
      simp only [Scene.addNode]
      split <;> rfl

theorem scene_delete_state (cfg : Config) (sc : Scene) :
    (Scene.deleteSelected cfg sc).state = (deleteSelected sc.state).state := by
  unfold Scene.deleteSelected deleteSelected
  cases deleteSelectedStart sc.state with
  | none => rfl
  | some p =>
    cases p with
    | sole => rfl
    | multi idx =>
      simp only []
      split <;> rfl

theorem sceneReachable_state (cfg : Config) {sc : Scene} (h : SceneReachable cfg sc) :
    Reachable sc.state := by
  induction h with
  | reset sc => exact Reachable.reset sc.state
  | select sc id _ ih => exact Reachable.select sc.state id ih
  | insert sc input _ ih =>
    rw [scene_insert_state]
    exact Reachable.insert sc.state input ih
  | delete sc _ ih =>
    rw [scene_delete_state]
    exact Reachable.delete sc.state ih

/-- In a state with pairwise different ids the removal callback scheduled by
`deleteSelected()` finds a node to select and does not raise. -/
theorem deleteFinish_no_raise (s : State) (hnd : (s.list.map Node.id).Nodup) (idx : Nat)
    (h : deleteSelectedStart s = some (Pending.multi idx)) :
    (deleteSelectedFinish (Pending.multi idx) s).raised = false := by
  have hd : deleteSelected s = deleteSelectedFinish (Pending.multi idx) s := by
    unfold deleteSelected
    rw [h]
  unfold deleteSelectedStart at h
  cases hsel : s.selectedId with
  | none => rw [hsel] at h; simp at h
  | some sel =>
    rw [hsel] at h
    simp only [] at h
    by_cases hf : findIndex s.list sel < 0
    · rw [if_pos hf] at h; simp at h
    · rw [if_neg hf] at h
      by_cases hlen : s.list.length = 1
      · rw [if_pos hlen] at h; simp at h
      · rw [if_neg hlen] at h
        simp only [Option.some.injEq, Pending.multi.injEq] at h
        have hk : findIndex s.list sel = ((findIndex s.list sel).toNat : Int) := by omega
        obtain ⟨n, hn, hid⟩ := findIndex_spec s.list sel _ hk
        rw [h] at hn
        obtain ⟨m, _, hm⟩ := deleteSelected_multi s idx n hnd hn (by rw [hsel, hid]) hlen
        rw [← hd, hm]

/-- The arrows on the page are those of the current list: every handler that
changes the list redraws them before it returns. -/
theorem sceneReachable_synced (cfg : Config) {sc : Scene} (h : SceneReachable cfg sc) :
    sc.arrows = redrawArrows cfg sc.state.list.length := by
  induction h with
  | reset sc => rfl
  | select sc id _ ih =>
    show sc.arrows = redrawArrows cfg (selectNode sc.state id).list.length
    rw [scene_selectNode_list]
    exact ih
  | insert sc input _ ih =>
    unfold Scene.insertAfterSelected
    cases sc.state.selectedId with
    | none => exact ih
    | some sel =>
      cases input with
      | none => exact ih
      | some v => rfl
  | delete sc hr ih =>
    unfold Scene.deleteSelected
    cases hstart : deleteSelectedStart sc.state with
    | none => exact ih
    | some p =>
      cases p with
      | sole => rfl
      | multi idx =>
        have hno := deleteFinish_no_raise sc.state
          (reachable_inv (sceneReachable_state cfg hr)).1 idx hstart
        simp only [hno]
        rfl

theorem linkOf_at (sc : Scene) (hnd : (sc.state.list.map Node.id).Nodup) (kind : ArrowKind)
    (k j : Nat) (a : Node) (hk : sc.state.list[k]? = some a)
    (harrow : arrowFrom sc.arrows kind k = some j) :
    linkOf sc kind a = sc.state.list[j]? := by
  have hf := findIndex_eq_of_nodup sc.state.list k a hnd hk
  unfold linkOf
  rw [hf, if_neg (by omega)]
  simp only [Int.toNat_ofNat, harrow]

theorem isHead_at (sc : Scene) (hnd : (sc.state.list.map Node.id).Nodup)
    (k : Nat) (a : Node) (hk : sc.state.list[k]? = some a) :
    isHead sc a = decide (k = 0) := by
  unfold isHead
  cases hl : sc.state.list with
  | nil => rw [hl] at hk; simp at hk
  | cons h rest =>
    simp only []
    have h0 : sc.state.list[0]? = some h := by rw [hl]; simp
    have f0 := findIndex_eq_of_nodup sc.state.list 0 h hnd h0
    have fk := findIndex_eq_of_nodup sc.state.list k a hnd hk
    by_cases hid : a.id = h.id
    · rw [hid, f0] at fk
      have : k = 0 := by omega
      simp [hid, this]
    · have : k ≠ 0 := by
        intro e
        subst e
        rw [h0] at hk
        exact hid (by injection hk with e; rw [e])
      simp [hid, this]

/-- Following `next` from the node at index `k` meets the nodes of the array
from index `k` on and is then back at the head. -/
theorem traverse_from (cfg : Config) (sc : Scene)
    (hsync : sc.arrows = redrawArrows cfg sc.state.list.length)
    (hnd : (sc.state.list.map Node.id).Nodup)
    (hroom : 25 ≤ cfg.spacing - cfg.nodeWidth - 2 * cfg.arrowMargin) :
    ∀ (m k fuel : Nat) (a : Node), k + m + 1 = sc.state.list.length → m + 1 ≤ fuel →
      sc.state.list[k]? = some a → traverse sc fuel a = some (sc.state.list.drop k) := by
  intro m
  induction m with
  | zero =>
    intro k fuel a hlen hfuel hk
    obtain ⟨f, rfl⟩ : ∃ f, fuel = f + 1 := ⟨fuel - 1, by omega⟩
    have hklt : k < sc.state.list.length := by omega
    have harrow : arrowFrom sc.arrows ArrowKind.forward k = some 0 := by
      rw [hsync]
      have := arrowFrom_forward_last cfg sc.state.list.length (by omega)
      rwa [show sc.state.list.length - 1 = k by omega] at this
    have hnext : nextOf sc a = sc.state.list[0]? :=
      linkOf_at sc hnd ArrowKind.forward k 0 a hk harrow
    obtain ⟨h, hh⟩ : ∃ h, sc.state.list[0]? = some h :=
      ⟨sc.state.list[0], List.getElem?_eq_getElem (by omega)⟩
    unfold traverse
    rw [hnext, hh]
    simp only []
    rw [isHead_at sc hnd 0 h hh]
    simp only [decide_True, if_true]
    rw [List.drop_eq_getElem_cons hklt, List.drop_of_length_le (by omega)]
    rw [List.getElem?_eq_getElem hklt] at hk
    injection hk with hk
    rw [hk]
  | succ m ih =>
    intro k fuel a hlen hfuel hk
    obtain ⟨f, rfl⟩ : ∃ f, fuel = f + 1 := ⟨fuel - 1, by omega⟩
    have hklt : k < sc.state.list.length := by omega
    have harrow : arrowFrom sc.arrows ArrowKind.forward k = some (k + 1) := by
      rw [hsync]
      exact arrowFrom_forward_inner cfg sc.state.list.length k (by omega) hroom
    have hnext : nextOf sc a = sc.state.list[k + 1]? :=
      linkOf_at sc hnd ArrowKind.forward k (k + 1) a hk harrow
    obtain ⟨b, hb⟩ : ∃ b, sc.state.list[k + 1]? = some b :=
      ⟨sc.state.list[k + 1], List.getElem?_eq_getElem (by omega)⟩
    unfold traverse
    rw [hnext, hb]
    simp only []
    rw [isHead_at sc hnd (k + 1) b hb]
    simp only [Nat.succ_ne_zero, decide_False, Bool.false_eq_true, if_false]
    rw [ih (k + 1) f b (by omega) (by omega) hb]
    rw [List.drop_eq_getElem_cons hklt]
    rw [List.getElem?_eq_getElem hklt] at hk
    injection hk with hk
    rw [hk]
    rfl

/-- On a page that has the list but none of its arrows no link can be read:
the links hold because the handlers draw them. -/
theorem links_need_arrows :
    prevOf { state := initial, arrows := [] } ⟨1, 10⟩ = none ∧
    nextOf { state := initial, arrows := [] } ⟨4, 50⟩ = none ∧
    traverse { state := initial, arrows := [] } 4 ⟨1, 10⟩ = none := by
  decide

/-- C15: in the circular doubly linked list visualizer, with `head` the first
entry of the node array, `tail` the last, and `next`/`prev` read from the
arrows that are drawn on the page: on every page reached by `resetList` and
by completed `selectNode`, `insertAfterSelected` and `deleteSelected` calls
whose list is not empty, the arrows on the page are those of the current list
(no handler leaves them stale), the nodes have pairwise different ids,
`head.prev == tail` and `tail.next == head`; and, when the slots are wide
enough for the arrows between neighbours to be drawn, following `next` from
`head` meets every node of the array once, in order, and is then back at
`head`, so the number of nodes met is the size of the list. -/
theorem circular_closure (cfg : Config) (sc : Scene) (head tail : Node)
    (h : SceneReachable cfg sc) (hh : sc.state.list.head? = some head)
    (ht : sc.state.list.getLast? = some tail) :
    sc.arrows = redrawArrows cfg sc.state.list.length ∧
    (sc.state.list.map Node.id).Nodup ∧
    prevOf sc head = some tail ∧
    nextOf sc tail = some head ∧
    (25 ≤ cfg.spacing - cfg.nodeWidth - 2 * cfg.arrowMargin →
      ∀ fuel, sc.state.list.length ≤ fuel →
        traverse sc fuel head = some sc.state.list ∧
        (traverse sc fuel head).map List.length = some sc.state.list.length) := by
  have hsync := sceneReachable_synced cfg h
  have hnd := (reachable_inv (sceneReachable_state cfg h)).1
  have hpos : 0 < sc.state.list.length := by
    cases hl : sc.state.list with
    | nil => rw [hl] at hh; simp at hh
    | cons a rest => simp
  have h0 : sc.state.list[0]? = some head := by
    rw [← hh]; cases sc.state.list <;> simp
  have hlast : sc.state.list[sc.state.list.length - 1]? = some tail := by
    rw [← ht, List.getLast?_eq_getElem?]
  refine ⟨hsync, hnd, ?_, ?_, ?_⟩
  · have harrow : arrowFrom sc.arrows ArrowKind.backward 0 = some (sc.state.list.length - 1) := by
      rw [hsync]; exact arrowFrom_backward_first cfg _ hpos
    have := linkOf_at sc hnd ArrowKind.backward 0 _ head h0 harrow
    rw [hlast] at this
    exact this
  · have harrow : arrowFrom sc.arrows ArrowKind.forward (sc.state.list.length - 1) = some 0 := by
      rw [hsync]; exact arrowFrom_forward_last cfg _ hpos
    have := linkOf_at sc hnd ArrowKind.forward _ 0 tail hlast harrow
    rw [h0] at this
    exact this
  · intro hroom fuel hfuel
    have htr := traverse_from cfg sc hsync hnd hroom (sc.state.list.length - 1) 0 fuel head
      (by omega) (by omega) h0
    rw [List.drop_zero] at htr
    exact ⟨htr, by rw [htr]; rfl⟩

theorem circular_closure_witness :
    SceneReachable defaultConfig editedScene ∧
    editedScene.state.list = [⟨1, 10⟩, ⟨5, 99⟩, ⟨3, 30⟩, ⟨4, 50⟩] ∧
    prevOf editedScene ⟨1, 10⟩ = some ⟨4, 50⟩ ∧
    nextOf editedScene ⟨4, 50⟩ = some ⟨1, 10⟩ ∧
    traverse editedScene 4 ⟨1, 10⟩ = some [⟨1, 10⟩, ⟨5, 99⟩, ⟨3, 30⟩, ⟨4, 50⟩] := by
  have hr : SceneReachable defaultConfig editedScene :=
    SceneReachable.delete _ (SceneReachable.insert _ _
      (SceneReachable.select _ _ (SceneReachable.reset _)))
  have h := circular_closure defaultConfig editedScene ⟨1, 10⟩ ⟨4, 50⟩ hr (by decide) (by decide)
  exact ⟨hr, by decide, h.2.2.1, h.2.2.2.1, (h.2.2.2.2 (by decide) 4 (by decide)).1⟩

end CircularList

namespace QuickSort

variable {α : Type}

/-- A call of `quickSort` on a range of at least two elements while the sort
is running enters the counted body: `maxRecursionDepth` ends at least one
above the depth on entry. -/
theorem quickSort_enters (key : α → Int) (low high : Int) (s : Visualizer α)
    (hs : s.isSorting = true) (hlh : low < high) :
    s.recursionDepth + 1 ≤ (quickSort key low high s).maxRecursionDepth := by
  have hc : ¬ (s.isSorting = false ∨ low ≥ high) := by
    simp only [hs, Bool.true_eq_false, false_or, ge_iff_le, not_le]; exact hlh
  rw [quickSort, dif_neg hc]
  simp only []
  obtain ⟨_, pm⟩ := partition_depth key low high (enterCall s)
  generalize partition key low high (enterCall s) = r at pm ⊢
  have pm' : r.1.maxRecursionDepth = max s.maxRecursionDepth (s.recursionDepth + 1) := pm
  have h1 : s.recursionDepth + 1 ≤ r.1.maxRecursionDepth := by
    rw [pm']; exact le_max_right _ _
  by_cases hp : r.1.isSorting = true ∧ r.2 ≠ -1
  · rw [dif_pos hp]
    have hL : r.1.maxRecursionDepth ≤
        (if _ : r.2 - 1 > low then quickSort key low (r.2 - 1) r.1 else r.1).maxRecursionDepth := by
      split
      · exact (quickSort_depth key _ low (r.2 - 1) r.1 (le_refl _)).2.1
      · exact le_refl _
    generalize (if _ : r.2 - 1 > low then quickSort key low (r.2 - 1) r.1 else r.1) = sL
      at hL ⊢
    have hR : sL.maxRecursionDepth ≤
        (if _ : r.2 + 1 < high then quickSort key (r.2 + 1) high sL else sL).maxRecursionDepth := by
      split
      · exact (quickSort_depth key _ (r.2 + 1) high sL (le_refl _)).2.1
      · exact le_refl _
    generalize (if _ : r.2 + 1 < high then quickSort key (r.2 + 1) high sL else sL) = sR
      at hR ⊢
    show s.recursionDepth + 1 ≤ sR.maxRecursionDepth
    omega
  · rw [dif_neg hp]
    exact h1

/-- C30: `quickSort` is a total function (its recursion is on ranges that get
strictly shorter), so every call terminates.  A call on a range of fewer than
two elements returns at once without touching the state, and a call on a range
of at least two elements while the sort is running counts one more level of
recursion, so the counted body is entered exactly for the ranges of at least
two elements.  For every array of length `n` and every state `s` holding it in
which the sort is running, `quickSort(0, n - 1)` started from the counters left
by `resetStats()` ends with `recursionDepth` back at 0 and
`maxRecursionDepth <= max(n - 1, 0)`, with `maxRecursionDepth >= 1` when
`n >= 2` and `maxRecursionDepth == 0` when `n < 2`; `startSort()` leaves the
same values. -/
theorem quickSort_depth_bounded (key : α → Int) (s : Visualizer α)
    (hs : s.isSorting = true) :
    (∀ (low high : Int) (t : Visualizer α), high - low + 1 < 2 → quickSort key low high t = t) ∧
    (∀ (low high : Int) (t : Visualizer α), t.isSorting = true → high - low + 1 ≥ 2 →
      t.recursionDepth + 1 ≤ (quickSort key low high t).maxRecursionDepth) ∧
    (quickSort key 0 ((s.array.length : Int) - 1) (resetStats s)).recursionDepth = 0 ∧
    (quickSort key 0 ((s.array.length : Int) - 1) (resetStats s)).maxRecursionDepth ≤
      max ((s.array.length : Int) - 1) 0 ∧
    (2 ≤ s.array.length →
      1 ≤ (quickSort key 0 ((s.array.length : Int) - 1) (resetStats s)).maxRecursionDepth) ∧
    (s.array.length < 2 →
      (quickSort key 0 ((s.array.length : Int) - 1) (resetStats s)).maxRecursionDepth = 0) ∧
    (∀ v : Visualizer α, v.isSorting = false → v.array = s.array →
      (startSort key v).recursionDepth = 0 ∧
      (startSort key v).maxRecursionDepth ≤ max ((s.array.length : Int) - 1) 0 ∧
      (2 ≤ s.array.length → 1 ≤ (startSort key v).maxRecursionDepth)) := by
  have key1 : ∀ u : Visualizer α, u.isSorting = true →
      (quickSort key 0 ((u.array.length : Int) - 1) (resetStats u)).recursionDepth = 0 ∧
      (quickSort key 0 ((u.array.length : Int) - 1) (resetStats u)).maxRecursionDepth ≤
        max ((u.array.length : Int) - 1) 0 ∧
      (2 ≤ u.array.length →
        1 ≤ (quickSort key 0 ((u.array.length : Int) - 1) (resetStats u)).maxRecursionDepth) := by
    intro u hu
    have h := quickSort_depth key _ 0 ((u.array.length : Int) - 1) (resetStats u) (le_refl _)
    have h1 : (resetStats u).recursionDepth = 0 := rfl
    have h2 : (resetStats u).maxRecursionDepth = 0 := rfl
    rw [h1, h2] at h
    refine ⟨h.1, by simpa using h.2.2, ?_⟩
    intro hn
    have := quickSort_enters key 0 ((u.array.length : Int) - 1) (resetStats u) hu (by omega)
    rw [h1] at this
    simpa using this
  obtain ⟨k1, k2, k3⟩ := key1 s hs
  refine ⟨?_, ?_, k1, k2, k3, ?_, ?_⟩
  · intro low high t hlt
    rw [quickSort, dif_pos (Or.inr (by omega))]
  · intro low high t ht hge
    exact quickSort_enters key low high t ht (by omega)
  · intro hn
    rw [quickSort, dif_pos (Or.inr (by omega))]
    rfl
  · intro v hv harr
    have e : startSort key v =
        { quickSort key 0 ((v.array.length : Int) - 1)
            (resetStats { v with isSorting := true, isPaused := false }) with
          isSorting := false } := by
      unfold startSort
      rw [if_neg (by simp [hv])]
      rfl
    obtain ⟨j1, j2, j3⟩ := key1 { v with isSorting := true, isPaused := false } rfl
    rw [e, ← harr]
    exact ⟨j1, j2, j3⟩

theorem quickSort_depth_bounded_witness :
    (sorting ([3, 1, 2] : List Int)).isSorting = true ∧
    2 ≤ (sorting ([3, 1, 2] : List Int)).array.length ∧
    (quickSort id 0 2 (sorting ([3, 1, 2] : List Int))).array = [1, 2, 3] ∧
    (quickSort id 0 2 (sorting ([3, 1, 2] : List Int))).maxRecursionDepth = 1 ∧
    (quickSort id 0 (((sorting ([3, 1, 2] : List Int)).array.length : Int) - 1)
      (resetStats (sorting [3, 1, 2]))).recursionDepth = 0 ∧
    (quickSort id 0 (((sorting ([3, 1, 2] : List Int)).array.length : Int) - 1)
      (resetStats (sorting [3, 1, 2]))).maxRecursionDepth ≤ 2 ∧
    1 ≤ (quickSort id 0 (((sorting ([3, 1, 2] : List Int)).array.length : Int) - 1)
      (resetStats (sorting [3, 1, 2]))).maxRecursionDepth := by
  have h := quickSort_depth_bounded id (sorting ([3, 1, 2] : List Int)) rfl
  refine ⟨rfl, by decide, ?_, ?_, h.2.2.1, h.2.2.2.1, h.2.2.2.2.1 (by decide)⟩
  · simp [quickSort, partition, partitionLoop, sorting, getAt, swapAt, enterCall, leaveCall]
  · simp [quickSort, partition, partitionLoop, sorting, getAt, swapAt, enterCall, leaveCall]

end QuickSort
